import Mathlib

/-!
Shallow embedding of the Flash Point Fire Rescue simulation engine
(`flashpointModel.py`) and verification of its specification claims.

Conventions of the embedding:
* Python `int` becomes `Int`; grid coordinates are `Int` pairs `(x, y)`.
* The numpy `fire_grid` (indexed `[y, x]` in the source) becomes a total
  function `Int → Int → FireState` read and written at cell `(x, y)`;
  every source access is bounds-guarded, so values outside the board are
  never consulted except through the guarded accessors.
* The wall dictionary `{(x1,y1,x2,y2): Wall}` becomes a function
  `WallKey → Option Wall`; `none` models an absent dictionary entry.
* Object references (a firefighter carrying a POI, `poi.carried_by`)
  become identifier links: firefighters are addressed by their list index,
  POIs by `poi_id`, exactly as the design notes of the system prescribe
  for back references.
* `random.random()` draws are modeled as explicit rational-valued oracles
  indexed by the draw site (the cell, or the source/target cell pair of a
  spread attempt).  Each site is consulted at most once per pass and the
  set of sites consulted is determined by the pre-pass state, so this is
  faithful to the sequential stream of the source.
* The per-step random activation order is an explicit list argument.
-/

namespace FlashPoint

/-- Source enum `FireState` (CLEAR = 0, SMOKE = 1, FIRE = 2). -/
inductive FireState
  | clear
  | smoke
  | fire
deriving DecidableEq, Repr

/-- Source enum `CellType` (NORMAL, EXIT, HOTSPOT). -/
inductive CellType
  | normal
  | exit
  | hotspot
deriving DecidableEq, Repr

/-- Firefighter role strings of the source: `"unassigned"`, `"rescuer"`,
`"fire_fighter"`. -/
inductive Role
  | unassigned
  | rescuer
  | fire_fighter
deriving DecidableEq, Repr

/-- Source class `Wall`: health points with a remembered maximum. -/
structure Wall where
  health : Int
  max_health : Int
deriving DecidableEq, Repr

/-- `Wall.__init__(health)`. -/
def Wall.new (health : Int) : Wall :=
  { health := health, max_health := health }

/-- `Wall.take_damage(damage)`: clamp health at 0, return the new wall and
the destroyed flag the source returns. -/
def Wall.take_damage (w : Wall) (damage : Int) : Wall × Bool :=
  let h := max 0 (w.health - damage)
  ({ w with health := h }, h == 0)

/-- `Wall.is_destroyed()`. -/
def Wall.is_destroyed (w : Wall) : Bool :=
  w.health ≤ 0

/-- Source class `POI` (point of interest). `carried_by` is the index of
the carrying firefighter, if any. -/
structure POI where
  poi_id : Nat
  x : Int
  y : Int
  is_false_alarm : Bool
  is_revealed : Bool
  is_rescued : Bool
  carried_by : Option Nat
deriving DecidableEq, Repr

/-- `POI.__init__(poi_id, x, y, is_false_alarm)`. -/
def POI.new (poi_id : Nat) (x y : Int) (is_false_alarm : Bool) : POI :=
  { poi_id := poi_id, x := x, y := y, is_false_alarm := is_false_alarm,
    is_revealed := false, is_rescued := false, carried_by := none }

/-- Source class `FirefighterAgent`: the mutable per-agent state.
`unique_id` is the mesa agent identifier (distinct per agent);
`carrying_poi` is the `poi_id` of the carried POI, if any. -/
structure Firefighter where
  unique_id : Nat
  x : Int
  y : Int
  action_points : Int
  max_action_points : Int
  carrying_poi : Option Nat
  role : Role
deriving DecidableEq, Repr

/-- `FirefighterAgent.__init__(model, x, y)`. -/
def Firefighter.new (uid : Nat) (x y : Int) : Firefighter :=
  { unique_id := uid, x := x, y := y, action_points := 4,
    max_action_points := 4, carrying_poi := none, role := .unassigned }

/-- A position `(x, y)`. -/
abbrev Pos := Int × Int

/-- A normalized wall-dictionary key `(x1, y1, x2, y2)`. -/
abbrev WallKey := Int × Int × Int × Int

/-- Source class `FlashPointModel`: the whole mutable simulation state. -/
structure Model where
  width : Int
  height : Int
  wall_health : Int
  rescued_pois : Nat
  explosion_count : Nat
  fire_grid : Int → Int → FireState
  cell_types : Int → Int → CellType
  walls : WallKey → Option Wall
  pois : List POI
  firefighters : List Firefighter

/-- Bounds check `0 <= x < self.width and 0 <= y < self.height`, used
throughout the source. -/
def inBounds (m : Model) (x y : Int) : Prop :=
  0 ≤ x ∧ x < m.width ∧ 0 ≤ y ∧ y < m.height

instance (m : Model) (x y : Int) : Decidable (inBounds m x y) :=
  inferInstanceAs (Decidable (0 ≤ x ∧ x < m.width ∧ 0 ≤ y ∧ y < m.height))

/-- The list `[0, 1, ..., n-1]` of `Int`, i.e. Python `range(n)` (empty
for `n ≤ 0`). -/
def intRange (n : Int) : List Int :=
  (List.range n.toNat).map Int.ofNat

/-- All board cells in row-major scan order: `y` outer, `x` inner — the
iteration order `for y in range(height): for x in range(width)` used by
`spread_fire`, `check_explosions`, `get_exits` and the cell scans. -/
def cellsRowMajor (m : Model) : List Pos :=
  (intRange m.height).flatMap (fun y => (intRange m.width).map (fun x => (x, y)))

/-- `FlashPointModel.get_fire_state(x, y)` (CLEAR outside bounds). -/
def get_fire_state (m : Model) (x y : Int) : FireState :=
  if inBounds m x y then m.fire_grid x y else .clear

/-- Pointwise update of a fire grid at cell `(x, y)`. -/
def setCell (g : Int → Int → FireState) (x y : Int) (v : FireState) :
    Int → Int → FireState :=
  fun a b => if a = x ∧ b = y then v else g a b

/-- `FlashPointModel.set_fire_state(x, y, state)` (no-op outside bounds). -/
def set_fire_state (m : Model) (x y : Int) (s : FireState) : Model :=
  if inBounds m x y then { m with fire_grid := setCell m.fire_grid x y s } else m

/-- `FlashPointModel.is_exit(x, y)` (false outside bounds). -/
def is_exit (m : Model) (x y : Int) : Bool :=
  if inBounds m x y then m.cell_types x y == .exit else false

/-- `FlashPointModel.get_exits()`: all exit positions, row-major scan. -/
def get_exits (m : Model) : List Pos :=
  (cellsRowMajor m).filter (fun c => m.cell_types c.1 c.2 == .exit)

/-- `FlashPointModel.get_cells_with_fire()`, row-major scan. -/
def get_cells_with_fire (m : Model) : List Pos :=
  (cellsRowMajor m).filter (fun c => m.fire_grid c.1 c.2 == .fire)

/-- `FlashPointModel.get_cells_with_smoke()`, row-major scan. -/
def get_cells_with_smoke (m : Model) : List Pos :=
  (cellsRowMajor m).filter (fun c => m.fire_grid c.1 c.2 == .smoke)

/-- `FlashPointModel.get_poi_at(x, y)`: the first listed POI at the
position that is neither rescued nor carried. -/
def get_poi_at (m : Model) (x y : Int) : Option POI :=
  m.pois.find? (fun p =>
    p.x == x && p.y == y && !p.is_rescued && p.carried_by == none)

/-- `FlashPointModel.remove_poi(poi)`: delete the POI (identified by its
id) from the registry. -/
def remove_poi (m : Model) (pid : Nat) : Model :=
  { m with pois := m.pois.filter (fun p => p.poi_id ≠ pid) }

/-- `FlashPointModel._get_wall_key(x1, y1, x2, y2)`: the normalized key
(both source branches of the `if` return the same expression). -/
def get_wall_key (x1 y1 x2 y2 : Int) : WallKey :=
  (min x1 x2, min y1 y2, max x1 x2, max y1 y2)

/-- `FlashPointModel.has_wall_between(x1, y1, x2, y2)`: an entry exists at
the normalized key and is not destroyed. -/
def has_wall_between (m : Model) (x1 y1 x2 y2 : Int) : Bool :=
  match m.walls (get_wall_key x1 y1 x2 y2) with
  | some w => !w.is_destroyed
  | none => false

/-- `FlashPointModel.can_move_between(x1, y1, x2, y2)`: target in bounds,
Manhattan distance 1, and no intact wall. -/
def can_move_between (m : Model) (x1 y1 x2 y2 : Int) : Bool :=
  if ¬ inBounds m x2 y2 then false
  else if (x1 - x2).natAbs + (y1 - y2).natAbs ≠ 1 then false
  else !has_wall_between m x1 y1 x2 y2

/-! ## Pathfinder (`FlashPointModel.find_path`) -/

/-- The fixed neighbor exploration order `[(0,1), (0,-1), (1,0), (-1,0)]`
of the source BFS. -/
def dirs4 : List Pos := [(0, 1), (0, -1), (1, 0), (-1, 0)]

/-- One neighbor-expansion pass of the BFS inner `for` loop: try each
remaining direction from `(x, y)` with the partial `path`; return the
found path as soon as a neighbor equals `goal`, otherwise thread the
collected new queue items and the grown visited set. -/
def expand (m : Model) (goal : Pos) (x y : Int) (path : List Pos) :
    List Pos → List (Pos × List Pos) → List Pos →
      (List Pos) ⊕ (List (Pos × List Pos) × List Pos)
  | [], acc, visited => .inr (acc, visited)
  | d :: ds, acc, visited =>
    let n : Pos := (x + d.1, y + d.2)
    if n ∉ visited ∧ can_move_between m x y (x + d.1) (y + d.2) then
      if n = goal then .inl (path ++ [n])
      else expand m goal x y path ds (acc ++ [(n, path ++ [n])]) (visited ++ [n])
    else expand m goal x y path ds acc visited

/-- The BFS `while queue:` loop, with explicit fuel.  The fuel passed by
`find_path` is proved sufficient below, so the `0` branch is never the
reason the loop answers `[]`. -/
def bfs_loop (m : Model) (goal : Pos) :
    Nat → List (Pos × List Pos) → List Pos → List Pos
  | 0, _, _ => []
  | _, [], _ => []
  | fuel + 1, (v, path) :: rest, visited =>
    match expand m goal v.1 v.2 path dirs4 [] visited with
    | .inl found => found
    | .inr (items, visited2) => bfs_loop m goal fuel (rest ++ items) visited2

/-- `FlashPointModel.find_path(start, goal)`: BFS over `can_move_between`
with queue entries `(position, path)` and a visited set seeded with
`start`. -/
def find_path (m : Model) (start goal : Pos) : List Pos :=
  if start = goal then [start]
  else bfs_loop m goal (m.width.toNat * m.height.toNat + 1) [(start, [start])] [start]

/-! ## Specification-side path predicates -/

/-- The traversability relation of the 4-neighborhood graph: the edge
`a → b` exists exactly when `can_move_between` allows it. -/
def canMove (m : Model) (a b : Pos) : Prop :=
  can_move_between m a.1 a.2 b.1 b.2 = true

instance (m : Model) (a b : Pos) : Decidable (canMove m a b) :=
  inferInstanceAs (Decidable (can_move_between m a.1 a.2 b.1 b.2 = true))

/-- `p` is a path from `s` to `g`: nonempty, starts at `s`, ends at `g`,
and every consecutive pair is a traversable edge. -/
def IsPathTo (m : Model) (s g : Pos) (p : List Pos) : Prop :=
  p.head? = some s ∧ p.getLast? = some g ∧ p.Chain' (canMove m)

instance (m : Model) (s g : Pos) (p : List Pos) : Decidable (IsPathTo m s g p) :=
  inferInstanceAs
    (Decidable (p.head? = some s ∧ p.getLast? = some g ∧ p.Chain' (canMove m)))

/-- `g` is reachable from `s` in the graph of `canMove` edges. -/
def Reachable (m : Model) (s g : Pos) : Prop :=
  ∃ p, IsPathTo m s g p

/-- `ReachLen m s v n`: some path from `s` to `v` has exactly `n` nodes
(so `n = 1` for `v = s`, and one more node per traversed edge). -/
inductive ReachLen (m : Model) (s : Pos) : Pos → Nat → Prop
  | base : ReachLen m s s 1
  | snoc {v w : Pos} {n : Nat} :
      ReachLen m s v n → canMove m v w → ReachLen m s w (n + 1)

/-! ## C7: wall damage arithmetic -/

/-- Iterated unit damage: `Wall.take_damage(1)` applied `n` times. -/
def damageN (w : Wall) : Nat → Wall
  | 0 => w
  | n + 1 => ((damageN w n).take_damage 1).1

theorem damageN_health (H : Int) (hH : 0 ≤ H) :
    ∀ n : Nat, (damageN (Wall.new H) n).health = max 0 (H - n) ∧
      (damageN (Wall.new H) n).max_health = H := by
  intro n
  induction n with
  | zero =>
    constructor
    · simp only [damageN, Wall.new]
      omega
    · simp [damageN, Wall.new]
  | succ k ih =>
    obtain ⟨ih1, ih2⟩ := ih
    constructor
    · simp only [damageN, Wall.take_damage, ih1]
      push_cast
      omega
    · simpa [damageN, Wall.take_damage] using ih2

/-- C7: a wall created with health `maxHealth ≥ 0`, damaged `n` times by
unit damage, has health `max 0 (maxHealth − n)` — never negative, clamped
at 0; it is destroyed (so `has_wall_between` answers `false` for its cell
pair) exactly when `n ≥ maxHealth`, and once destroyed further damage
keeps health at 0. -/
theorem wall_damage_clamps (H : Int) (hH : 0 ≤ H) (n : Nat) (m : Model)
    (x1 y1 x2 y2 : Int)
    (hm : m.walls (get_wall_key x1 y1 x2 y2) = some (damageN (Wall.new H) n)) :
    (damageN (Wall.new H) n).health = max 0 (H - n) ∧
      0 ≤ (damageN (Wall.new H) n).health ∧
      (has_wall_between m x1 y1 x2 y2 = false ↔ H ≤ n) ∧
      (H ≤ n → (damageN (Wall.new H) n).health = 0) := by
  obtain ⟨h1, h2⟩ := damageN_health H hH n
  refine ⟨h1, by omega, ?_, by omega⟩
  rw [has_wall_between, hm]
  constructor
  · intro hfalse
    simp [Wall.is_destroyed] at hfalse
    omega
  · intro hle
    simp [Wall.is_destroyed]
    omega

/-- Witness for C7 at `maxHealth = 2`, `n = 2`. -/
theorem wall_damage_clamps_witness :
    (damageN (Wall.new 2) 2).health = max 0 (2 - (2 : Nat)) ∧
      0 ≤ (damageN (Wall.new 2) 2).health ∧
      (has_wall_between
        { width := 1, height := 1, wall_health := 2, rescued_pois := 0,
          explosion_count := 0, fire_grid := fun _ _ => .clear,
          cell_types := fun _ _ => .normal,
          walls := fun k => if k = get_wall_key 0 0 1 0
            then some (damageN (Wall.new 2) 2) else none,
          pois := [], firefighters := [] } 0 0 1 0 = false ↔ (2 : Int) ≤ (2 : Nat)) ∧
      ((2 : Int) ≤ (2 : Nat) → (damageN (Wall.new 2) 2).health = 0) :=
  wall_damage_clamps 2 (by decide) 2 _ 0 0 1 0 (by decide)

/-! ## C1: BFS correctness infrastructure -/

theorem canMove_inBounds {m : Model} {a b : Pos} (h : canMove m a b) :
    inBounds m b.1 b.2 := by
  unfold canMove can_move_between at h
  by_cases hb : inBounds m b.1 b.2
  · exact hb
  · simp [hb] at h

theorem canMove_mem_dirs {m : Model} {a b : Pos} (h : canMove m a b) :
    ∃ d ∈ dirs4, b = (a.1 + d.1, a.2 + d.2) := by
  unfold canMove can_move_between at h
  by_cases hb : inBounds m b.1 b.2
  · by_cases hadj : (a.1 - b.1).natAbs + (a.2 - b.2).natAbs ≠ 1
    · simp [hb, hadj] at h
    · push_neg at hadj
      have hx : b.1 = a.1 + 1 ∧ b.2 = a.2 ∨ b.1 = a.1 - 1 ∧ b.2 = a.2 ∨
          b.1 = a.1 ∧ b.2 = a.2 + 1 ∨ b.1 = a.1 ∧ b.2 = a.2 - 1 := by omega
      rcases hx with ⟨h1, h2⟩ | ⟨h1, h2⟩ | ⟨h1, h2⟩ | ⟨h1, h2⟩
      · exact ⟨(1, 0), by simp [dirs4], by rw [Prod.ext_iff]; constructor <;> simp <;> omega⟩
      · exact ⟨(-1, 0), by simp [dirs4], by rw [Prod.ext_iff]; constructor <;> simp <;> omega⟩
      · exact ⟨(0, 1), by simp [dirs4], by rw [Prod.ext_iff]; constructor <;> simp <;> omega⟩
      · exact ⟨(0, -1), by simp [dirs4], by rw [Prod.ext_iff]; constructor <;> simp <;> omega⟩
  · simp [hb] at h

theorem ReachLen.one_le {m : Model} {s v : Pos} {n : Nat}
    (h : ReachLen m s v n) : 1 ≤ n := by
  cases h <;> omega

theorem reachLen_one {m : Model} {s v : Pos} (h : ReachLen m s v 1) : v = s := by
  cases h with
  | base => rfl
  | snoc hprev _ => exact absurd hprev.one_le (by omega)

theorem reachLen_inv {m : Model} {s w : Pos} {k : Nat} (h : ReachLen m s w k) :
    (k = 1 ∧ w = s) ∨ (2 ≤ k ∧ ∃ u, ReachLen m s u (k - 1) ∧ canMove m u w) := by
  cases h with
  | base => exact Or.inl ⟨rfl, rfl⟩
  | @snoc v w n hprev hmov =>
    exact Or.inr ⟨by have := hprev.one_le; omega, v, by simpa using hprev, hmov⟩

theorem isPathTo_snoc {m : Model} {s v w : Pos} {p : List Pos}
    (hp : IsPathTo m s v p) (hmov : canMove m v w) :
    IsPathTo m s w (p ++ [w]) := by
  obtain ⟨hh, hl, hc⟩ := hp
  have hne : p ≠ [] := by intro he; rw [he] at hh; simp at hh
  refine ⟨?_, List.getLast?_concat p, ?_⟩
  · rw [List.head?_append, hh]; rfl
  · rw [List.chain'_append]
    refine ⟨hc, List.chain'_singleton w, ?_⟩
    intro x hx y hy
    simp only [List.head?_cons, Option.mem_def, Option.some_inj] at hy
    rw [hl] at hx
    simp only [Option.mem_def, Option.some_inj] at hx
    rw [← hx, ← hy]
    exact hmov

theorem isPathTo_reachLen {m : Model} {s : Pos} :
    ∀ {p : List Pos} {g : Pos}, IsPathTo m s g p → ReachLen m s g p.length := by
  intro p
  induction p using List.reverseRecOn with
  | nil => intro g h; obtain ⟨hh, _, _⟩ := h; simp at hh
  | append_singleton q w ih =>
    intro g h
    obtain ⟨hh, hl, hc⟩ := h
    have hgw : g = w := by
      rw [List.getLast?_concat] at hl
      simpa using hl.symm
    subst hgw
    rcases List.eq_nil_or_concat q with hq | ⟨r, b, hq⟩
    · subst hq
      simp only [List.nil_append, List.head?_cons, Option.some_inj] at hh
      subst hh
      simpa using ReachLen.base
    · have hqne : q ≠ [] := by subst hq; simp
      rw [List.chain'_append] at hc
      obtain ⟨hcq, -, hlink⟩ := hc
      have hlast : q.getLast? = some b := by rw [hq]; simp
      have hmov : canMove m b g :=
        hlink b (Option.mem_def.mpr hlast) g (Option.mem_def.mpr rfl)
      have hh2 : q.head? = some s := by
        rwa [List.head?_append_of_ne_nil _ hqne] at hh
      have := ih ⟨hh2, hlast, hcq⟩
      simpa [List.length_append] using ReachLen.snoc this hmov

theorem reachLen_isPathTo {m : Model} {s g : Pos} {n : Nat}
    (h : ReachLen m s g n) : ∃ p, IsPathTo m s g p ∧ p.length = n := by
  induction h with
  | base => exact ⟨[s], ⟨rfl, rfl, List.chain'_singleton s⟩, rfl⟩
  | @snoc v w k hprev hmov ih =>
    obtain ⟨p, hp, hlen⟩ := ih
    exact ⟨p ++ [w], isPathTo_snoc hp hmov, by simp [hlen]⟩

theorem mem_intRange {n i : Int} : i ∈ intRange n ↔ 0 ≤ i ∧ i < n := by
  unfold intRange
  simp only [List.mem_map, List.mem_range, Int.ofNat_eq_coe]
  constructor
  · rintro ⟨j, hj, rfl⟩
    omega
  · rintro ⟨h0, hn⟩
    exact ⟨i.toNat, by omega, by omega⟩

theorem mem_cellsRowMajor {m : Model} {c : Pos} :
    c ∈ cellsRowMajor m ↔ inBounds m c.1 c.2 := by
  unfold cellsRowMajor inBounds
  simp only [List.mem_flatMap, List.mem_map]
  constructor
  · rintro ⟨y, hy, x, hx, rfl⟩
    rw [mem_intRange] at hy hx
    simp only
    omega
  · rintro ⟨h1, h2, h3, h4⟩
    exact ⟨c.2, mem_intRange.mpr ⟨h3, h4⟩, c.1, mem_intRange.mpr ⟨h1, h2⟩, rfl⟩

theorem length_le_of_nodup_subset {α : Type} [DecidableEq α] {l l' : List α}
    (h : l.Nodup) (hs : ∀ a ∈ l, a ∈ l') : l.length ≤ l'.length := by
  calc l.length = l.toFinset.card := (List.toFinset_card_of_nodup h).symm
    _ ≤ l'.toFinset.card := Finset.card_le_card (fun a ha => by
        simp only [List.mem_toFinset] at ha ⊢
        exact hs a ha)
    _ ≤ l'.length := l'.toFinset_card_le

theorem expand_inl_spec (m : Model) (goal : Pos) (x y : Int) (path : List Pos) :
    ∀ (ds : List Pos) (acc : List (Pos × List Pos)) (visited : List Pos)
      (r : List Pos),
      expand m goal x y path ds acc visited = .inl r →
      r = path ++ [goal] ∧ canMove m (x, y) goal ∧ goal ∉ visited := by
  intro ds
  induction ds with
  | nil =>
    intro acc visited r h
    simp [expand] at h
  | cons d ds ih =>
    intro acc visited r h
    simp only [expand] at h
    by_cases hc : ((x + d.1, y + d.2) : Pos) ∉ visited ∧
        can_move_between m x y (x + d.1) (y + d.2) = true
    · rw [if_pos hc] at h
      by_cases hg : ((x + d.1, y + d.2) : Pos) = goal
      · rw [if_pos hg] at h
        have hr : path ++ [((x + d.1, y + d.2) : Pos)] = r := by
          simpa using h
        refine ⟨by rw [← hr, hg], ?_, ?_⟩
        · rw [← hg]
          exact hc.2
        · rw [← hg]
          exact hc.1
      · rw [if_neg hg] at h
        obtain ⟨h1, h2, h3⟩ := ih _ _ _ h
        exact ⟨h1, h2, fun hmem => h3 (List.mem_append_left _ hmem)⟩
    · rw [if_neg hc] at h
      exact ih _ _ _ h

theorem expand_inr_spec (m : Model) (goal : Pos) (x y : Int) (path : List Pos) :
    ∀ (ds : List Pos) (acc : List (Pos × List Pos)) (visited : List Pos)
      (items : List (Pos × List Pos)) (visited2 : List Pos),
      expand m goal x y path ds acc visited = .inr (items, visited2) →
      ∃ new : List (Pos × List Pos),
        items = acc ++ new ∧
        visited2 = visited ++ new.map Prod.fst ∧
        (∀ e ∈ new, e.2 = path ++ [e.1] ∧ canMove m (x, y) e.1 ∧
          e.1 ∉ visited ∧ e.1 ≠ goal) ∧
        (new.map Prod.fst).Nodup ∧
        (∀ d ∈ ds, canMove m (x, y) (x + d.1, y + d.2) →
          (x + d.1, y + d.2) ∈ visited2) := by
  intro ds
  induction ds with
  | nil =>
    intro acc visited items visited2 h
    simp only [expand, Sum.inr.injEq, Prod.mk.injEq] at h
    refine ⟨[], by simp [← h.1], by simp [← h.2], by simp, by simp, by simp⟩
  | cons d ds ih =>
    intro acc visited items visited2 h
    simp only [expand] at h
    by_cases hc : ((x + d.1, y + d.2) : Pos) ∉ visited ∧
        can_move_between m x y (x + d.1) (y + d.2) = true
    · rw [if_pos hc] at h
      by_cases hg : ((x + d.1, y + d.2) : Pos) = goal
      · rw [if_pos hg] at h
        simp at h
      · rw [if_neg hg] at h
        obtain ⟨new2, hi, hv, helems, hnodup, hcov⟩ := ih _ _ _ _ h
        refine ⟨((x + d.1, y + d.2), path ++ [((x + d.1, y + d.2) : Pos)]) :: new2,
          by rw [hi]; simp, by rw [hv]; simp, ?_, ?_, ?_⟩
        · intro e he
          rcases List.mem_cons.mp he with rfl | he2
          · exact ⟨rfl, hc.2, hc.1, hg⟩
          · obtain ⟨h1, h2, h3, h4⟩ := helems e he2
            exact ⟨h1, h2, fun hmem => h3 (List.mem_append_left _ hmem), h4⟩
        · rw [List.map_cons, List.nodup_cons]
          refine ⟨?_, hnodup⟩
          intro hmem
          rw [List.mem_map] at hmem
          obtain ⟨e, he, heq⟩ := hmem
          exact (helems e he).2.2.1 (by rw [heq]; exact List.mem_append_right _ (by simp))
        · intro d2 hd2 hcm
          rcases List.mem_cons.mp hd2 with rfl | hd2
          · rw [hv]
            exact List.mem_append_left _ (List.mem_append_right _ (by simp))
          · exact hcov d2 hd2 hcm
    · rw [if_neg hc] at h
      obtain ⟨new2, hi, hv, helems, hnodup, hcov⟩ := ih _ _ _ _ h
      refine ⟨new2, hi, hv, helems, hnodup, ?_⟩
      intro d2 hd2 hcm
      rcases List.mem_cons.mp hd2 with rfl | hd2
      · have hvis : ((x + d2.1, y + d2.2) : Pos) ∈ visited := by
          by_contra hnot
          exact hc ⟨hnot, hcm⟩
        rw [hv]
        exact List.mem_append_left _ hvis
      · exact hcov d2 hd2 hcm

/-- The BFS loop invariant relating the queue and the visited set. -/
structure BfsInv (m : Model) (s g : Pos) (q : List (Pos × List Pos))
    (vis : List Pos) : Prop where
  nodupV : vis.Nodup
  startV : s ∈ vis
  boundV : ∀ v ∈ vis, v = s ∨ inBounds m v.1 v.2
  goalV : g ∉ vis
  memQ : ∀ e ∈ q, e.1 ∈ vis
  pathQ : ∀ e ∈ q, IsPathTo m s e.1 e.2
  minQ : ∀ e ∈ q, ∀ k, ReachLen m s e.1 k → e.2.length ≤ k
  reachQ : ∀ e ∈ q, ReachLen m s e.1 e.2.length
  sortedQ : q.Pairwise (fun a b => a.2.length ≤ b.2.length)
  spreadQ : ∀ a ∈ q, ∀ b ∈ q, a.2.length ≤ b.2.length + 1
  expandedV : ∀ v ∈ vis, (∀ e ∈ q, e.1 ≠ v) → ∀ w, canMove m v w → w ∈ vis
  completeV : ∀ k w, ReachLen m s w k → (∀ e ∈ q, k < e.2.length) → w ∈ vis

/-- Any vertex not yet visited lies strictly beyond the current BFS
frontier: its distance exceeds the minimal queued path length. -/
theorem not_visited_dist_lb {m : Model} {s g : Pos}
    {q : List (Pos × List Pos)} {vis : List Pos} (inv : BfsInv m s g q vis)
    (K : Nat) (hK : ∀ e ∈ q, K ≤ e.2.length) :
    ∀ w k, w ∉ vis → ReachLen m s w k → K + 1 ≤ k := by
  intro w k hw hr
  by_contra hlt
  push_neg at hlt
  rcases Nat.lt_or_ge k K with hkK | hkK
  · exact hw (inv.completeV k w hr (fun e he => lt_of_lt_of_le hkK (hK e he)))
  · have hkeq : k = K := by omega
    subst hkeq
    rcases reachLen_inv hr with ⟨hk1, rfl⟩ | ⟨hk2, u, hu, hmov⟩
    · exact hw inv.startV
    · have huvis : u ∈ vis := inv.completeV (k - 1) u hu
        (fun e he => by have := hK e he; omega)
      by_cases huq : ∀ e ∈ q, e.1 ≠ u
      · exact hw (inv.expandedV u huvis huq w hmov)
      · push_neg at huq
        obtain ⟨e, he, heq⟩ := huq
        have h1 := inv.minQ e he (k - 1) (by rw [heq]; exact hu)
        have h2 := hK e he
        omega

/-- Visited-set size bound used for the fuel argument. -/
def bfsBound (m : Model) : Nat := (cellsRowMajor m).length + 1

theorem vis_le_bound {m : Model} {s : Pos} {vis : List Pos}
    (hnd : vis.Nodup) (hb : ∀ v ∈ vis, v = s ∨ inBounds m v.1 v.2) :
    vis.length ≤ bfsBound m := by
  have hsub : ∀ v ∈ vis, v ∈ s :: cellsRowMajor m := by
    intro v hv
    rcases hb v hv with rfl | hin
    · exact List.mem_cons_self _ _
    · exact List.mem_cons_of_mem _ (mem_cellsRowMajor.mpr hin)
  have := length_le_of_nodup_subset hnd hsub
  simpa [bfsBound, Nat.add_comm] using this

theorem pairwise_le_of_const_len {l : List (Pos × List Pos)} {n : Nat}
    (h : ∀ e ∈ l, e.2.length = n) :
    l.Pairwise (fun a b => a.2.length ≤ b.2.length) := by
  induction l with
  | nil => exact List.Pairwise.nil
  | cons a l ih =>
    refine List.Pairwise.cons ?_ (ih (fun e he => h e (List.mem_cons_of_mem _ he)))
    intro b hb
    rw [h a (List.mem_cons_self _ _), h b (List.mem_cons_of_mem _ hb)]

/-- Full correctness of the BFS loop: with the invariant established and
enough fuel, an empty answer means the goal is unreachable, and a
nonempty answer is a path from `s` to `g` of minimal length. -/
theorem bfs_loop_spec (m : Model) (s g : Pos) :
    ∀ (fuel : Nat) (q : List (Pos × List Pos)) (vis : List Pos),
      BfsInv m s g q vis →
      q.length + (bfsBound m - vis.length) ≤ fuel →
      (bfs_loop m g fuel q vis = [] → ¬ Reachable m s g) ∧
      (bfs_loop m g fuel q vis ≠ [] →
        IsPathTo m s g (bfs_loop m g fuel q vis) ∧
        ∀ k, ReachLen m s g k → (bfs_loop m g fuel q vis).length ≤ k) := by
  intro fuel
  induction fuel with
  | zero =>
    intro q vis inv hfuel
    have hq : q = [] := by
      cases q with
      | nil => rfl
      | cons e rest =>
        exfalso
        simp only [List.length_cons] at hfuel
        omega
    subst hq
    constructor
    · intro _ hreach
      obtain ⟨p, hp⟩ := hreach
      exact inv.goalV (inv.completeV _ g (isPathTo_reachLen hp) (by simp))
    · intro hne
      exact absurd (show bfs_loop m g 0 [] vis = [] from rfl) hne
  | succ f ihf =>
    intro q vis inv hfuel
    cases q with
    | nil =>
      constructor
      · intro _ hreach
        obtain ⟨p, hp⟩ := hreach
        exact inv.goalV (inv.completeV _ g (isPathTo_reachLen hp) (by simp))
      · intro hne
        exact absurd (show bfs_loop m g (f + 1) [] vis = [] from rfl) hne
    | cons front rest =>
      obtain ⟨v, p⟩ := front
      have hfr : ((v, p) : Pos × List Pos) ∈ (v, p) :: rest := List.mem_cons_self _ _
      have hvvis := inv.memQ _ hfr
      have hvpath := inv.pathQ _ hfr
      have hvreach := inv.reachQ _ hfr
      have hKle : ∀ e ∈ ((v, p) : Pos × List Pos) :: rest, p.length ≤ e.2.length := by
        intro e he
        rcases List.mem_cons.mp he with rfl | he2
        · exact le_refl _
        · exact (List.pairwise_cons.mp inv.sortedQ).1 e he2
      cases hexp : expand m g v.1 v.2 p dirs4 [] vis with
      | inl found =>
        obtain ⟨hfound, hmovg, hgvis⟩ :=
          expand_inl_spec m g v.1 v.2 p dirs4 [] vis found hexp
        have hres : bfs_loop m g (f + 1) ((v, p) :: rest) vis = found := by
          simp [bfs_loop, hexp]
        have hmovg2 : canMove m v g := by rwa [Prod.mk.eta] at hmovg
        have hpathg : IsPathTo m s g (p ++ [g]) := isPathTo_snoc hvpath hmovg2
        have hmin : ∀ k, ReachLen m s g k → (p ++ [g]).length ≤ k := by
          intro k hk
          have := not_visited_dist_lb inv p.length hKle g k inv.goalV hk
          simpa [List.length_append] using this
        constructor
        · intro hnil
          rw [hres, hfound] at hnil
          simp at hnil
        · intro _
          rw [hres, hfound]
          exact ⟨hpathg, hmin⟩
      | inr itemsvis =>
        obtain ⟨items, vis2⟩ := itemsvis
        obtain ⟨new, hitems, hvis2, helems, hnodupnew, hcov⟩ :=
          expand_inr_spec m g v.1 v.2 p dirs4 [] vis items vis2 hexp
        rw [List.nil_append] at hitems
        subst items
        have hnew : ∀ e ∈ new, e.2 = p ++ [e.1] ∧ canMove m v e.1 ∧
            e.1 ∉ vis ∧ e.1 ≠ g := by
          intro e he
          obtain ⟨h1, h2, h3, h4⟩ := helems e he
          exact ⟨h1, by rwa [Prod.mk.eta] at h2, h3, h4⟩
        have hcovv : ∀ w, canMove m v w → w ∈ vis2 := by
          intro w hw
          obtain ⟨d, hd, hwd⟩ := canMove_mem_dirs hw
          have h2 : canMove m (v.1, v.2) (v.1 + d.1, v.2 + d.2) := by
            rw [Prod.mk.eta, ← hwd]
            exact hw
          rw [hwd]
          exact hcov d hd h2
        have hminnew : ∀ e ∈ new, ∀ k, ReachLen m s e.1 k → p.length + 1 ≤ k := by
          intro e he k hk
          exact not_visited_dist_lb inv p.length hKle e.1 k (hnew e he).2.2.1 hk
        have hreachnew : ∀ e ∈ new, ReachLen m s e.1 (p.length + 1) :=
          fun e he => ReachLen.snoc hvreach (hnew e he).2.1
        have hlennew : ∀ e ∈ new, e.2.length = p.length + 1 := by
          intro e he
          rw [(hnew e he).1]
          simp
        have hvsub : ∀ w ∈ vis, w ∈ vis2 := by
          intro w hw
          rw [hvis2]
          exact List.mem_append_left _ hw
        have hnewvis2 : ∀ e ∈ new, e.1 ∈ vis2 := by
          intro e he
          rw [hvis2]
          exact List.mem_append_right _ (List.mem_map.mpr ⟨e, he, rfl⟩)
        have hnodup2 : vis2.Nodup := by
          rw [hvis2, List.nodup_append]
          refine ⟨inv.nodupV, hnodupnew, ?_⟩
          intro a ha hb
          obtain ⟨e, he, heq⟩ := List.mem_map.mp hb
          exact (hnew e he).2.2.1 (by rw [heq]; exact ha)
        have hbound2 : ∀ w ∈ vis2, w = s ∨ inBounds m w.1 w.2 := by
          intro w hw
          rw [hvis2] at hw
          rcases List.mem_append.mp hw with hw | hw
          · exact inv.boundV w hw
          · obtain ⟨e, he, heq⟩ := List.mem_map.mp hw
            right
            have := canMove_inBounds (hnew e he).2.1
            rwa [heq] at this
        have inv2 : BfsInv m s g (rest ++ new) vis2 := by
          refine ⟨hnodup2, hvsub s inv.startV, hbound2, ?_, ?_, ?_, ?_, ?_, ?_, ?_, ?_, ?_⟩
          · rw [hvis2]
            intro hg2
            rcases List.mem_append.mp hg2 with hg2 | hg2
            · exact inv.goalV hg2
            · obtain ⟨e, he, heq⟩ := List.mem_map.mp hg2
              exact (hnew e he).2.2.2 heq
          · intro e he
            rcases List.mem_append.mp he with he | he
            · exact hvsub _ (inv.memQ e (List.mem_cons_of_mem _ he))
            · exact hnewvis2 e he
          · intro e he
            rcases List.mem_append.mp he with he | he
            · exact inv.pathQ e (List.mem_cons_of_mem _ he)
            · rw [(hnew e he).1]
              exact isPathTo_snoc hvpath (hnew e he).2.1
          · intro e he k hk
            rcases List.mem_append.mp he with he | he
            · exact inv.minQ e (List.mem_cons_of_mem _ he) k hk
            · rw [hlennew e he]
              exact hminnew e he k hk
          · intro e he
            rcases List.mem_append.mp he with he | he
            · exact inv.reachQ e (List.mem_cons_of_mem _ he)
            · rw [hlennew e he]
              exact hreachnew e he
          · rw [List.pairwise_append]
            refine ⟨(List.pairwise_cons.mp inv.sortedQ).2,
              pairwise_le_of_const_len hlennew, ?_⟩
            intro a ha b hb
            calc a.2.length ≤ p.length + 1 :=
                  inv.spreadQ a (List.mem_cons_of_mem _ ha) (v, p) hfr
              _ = b.2.length := (hlennew b hb).symm
          · intro a ha b hb
            rcases List.mem_append.mp ha with ha | ha <;>
              rcases List.mem_append.mp hb with hb | hb
            · exact inv.spreadQ a (List.mem_cons_of_mem _ ha)
                b (List.mem_cons_of_mem _ hb)
            · rw [hlennew b hb]
              have h5 : a.2.length ≤ p.length + 1 :=
                inv.spreadQ a (List.mem_cons_of_mem _ ha) (v, p) hfr
              omega
            · rw [hlennew a ha]
              have := hKle b (List.mem_cons_of_mem _ hb)
              omega
            · rw [hlennew a ha, hlennew b hb]
              omega
          · intro w hw hwq
            rw [hvis2] at hw
            rcases List.mem_append.mp hw with hw | hw
            · by_cases hwv : w = v
              · subst hwv
                exact hcovv
              · intro w2 hw2
                apply hvsub
                apply inv.expandedV w hw ?_ w2 hw2
                intro e he
                rcases List.mem_cons.mp he with rfl | he2
                · exact fun heq => hwv heq.symm
                · exact hwq e (List.mem_append_left _ he2)
            · obtain ⟨e, he, heq⟩ := List.mem_map.mp hw
              exact absurd heq (hwq e (List.mem_append_right _ he))
          · intro k w hrw hq2
            have key : ∀ j, j ≤ k → ∀ w2, ReachLen m s w2 j → w2 ∈ vis2 := by
              intro j
              induction j using Nat.strong_induction_on with
              | _ j ihj =>
                intro hjk w2 hw2
                by_cases hold : ∀ e ∈ ((v, p) : Pos × List Pos) :: rest, j < e.2.length
                · exact hvsub _ (inv.completeV j w2 hw2 hold)
                · push_neg at hold
                  obtain ⟨e0, he0, he0len⟩ := hold
                  have hKj : p.length ≤ j := le_trans (hKle e0 he0) he0len
                  rcases reachLen_inv hw2 with ⟨hj1, rfl⟩ | ⟨hj2, u, hu, hmov⟩
                  · exact hvsub _ inv.startV
                  · have hujm : u ∈ vis2 :=
                      ihj (j - 1) (by omega) (by omega) u hu
                    rw [hvis2] at hujm
                    rcases List.mem_append.mp hujm with huv | hun
                    · by_cases huvv : u = v
                      · subst huvv
                        exact hcovv w2 hmov
                      · by_cases huq : ∀ e ∈ ((v, p) : Pos × List Pos) :: rest, e.1 ≠ u
                        · exact hvsub _ (inv.expandedV u huv huq w2 hmov)
                        · push_neg at huq
                          obtain ⟨e1, he1, he1eq⟩ := huq
                          rcases List.mem_cons.mp he1 with rfl | he1r
                          · exact absurd he1eq.symm huvv
                          · have hm := inv.minQ e1 (List.mem_cons_of_mem _ he1r)
                              (j - 1) (by rw [he1eq]; exact hu)
                            have hk2 := hq2 e1 (List.mem_append_left _ he1r)
                            omega
                    · obtain ⟨e2, he2, he2eq⟩ := List.mem_map.mp hun
                      have hm2 := hminnew e2 he2 (j - 1) (by rw [he2eq]; exact hu)
                      have hk3 := hq2 e2 (List.mem_append_right _ he2)
                      rw [hlennew e2 he2] at hk3
                      omega
            exact key k (le_refl k) w hrw
        have hlen2 : vis2.length = vis.length + new.length := by
          rw [hvis2]
          simp
        have hb2 : vis2.length ≤ bfsBound m := vis_le_bound hnodup2 hbound2
        have hfuel2 : (rest ++ new).length + (bfsBound m - vis2.length) ≤ f := by
          simp only [List.length_append, List.length_cons] at hfuel ⊢
          omega
        have hres : bfs_loop m g (f + 1) ((v, p) :: rest) vis =
            bfs_loop m g f (rest ++ new) vis2 := by
          simp [bfs_loop, hexp]
        rw [hres]
        exact ihf (rest ++ new) vis2 inv2 hfuel2

theorem length_cellsRowMajor (m : Model) :
    (cellsRowMajor m).length = m.height.toNat * m.width.toNat := by
  unfold cellsRowMajor intRange
  rw [List.length_flatMap]
  simp [Function.comp_def, List.map_map]

/-- C1: `find_path` returns `[start]` iff `start = goal`; it returns `[]`
iff the goal is unreachable in the 4-neighborhood graph filtered by
`can_move_between` under the current walls; and whenever the goal is
reachable, the returned list is a path from start to goal (consecutive
pairs traversable) whose length is minimal among all such paths, i.e. the
true BFS shortest-path length. -/
theorem find_path_correct (m : Model) (s g : Pos) :
    (find_path m s g = [s] ↔ s = g) ∧
    (find_path m s g = [] ↔ ¬ Reachable m s g) ∧
    (Reachable m s g →
      IsPathTo m s g (find_path m s g) ∧
      ∀ q, IsPathTo m s g q → (find_path m s g).length ≤ q.length) := by
  by_cases hsg : s = g
  · subst hsg
    have hfp : find_path m s s = [s] := by simp [find_path]
    have hpath : IsPathTo m s s [s] := ⟨rfl, rfl, List.chain'_singleton s⟩
    refine ⟨by simp [hfp], ?_, ?_⟩
    · rw [hfp]
      constructor
      · intro h
        simp at h
      · intro h
        exact absurd ⟨[s], hpath⟩ h
    · intro _
      rw [hfp]
      refine ⟨hpath, ?_⟩
      intro q hq
      have := isPathTo_reachLen hq
      have := this.one_le
      simpa using this
  · have inv : BfsInv m s g [(s, [s])] [s] := by
      refine ⟨by simp, by simp, ?_, ?_, ?_, ?_, ?_, ?_, ?_, ?_, ?_, ?_⟩
      · intro v hv
        left
        simpa using hv
      · intro hg
        have hgs : g = s := by simpa using hg
        exact hsg hgs.symm
      · intro e he
        simp only [List.mem_singleton] at he
        subst he
        simp
      · intro e he
        simp only [List.mem_singleton] at he
        subst he
        exact ⟨rfl, rfl, List.chain'_singleton s⟩
      · intro e he k hk
        simp only [List.mem_singleton] at he
        subst he
        exact hk.one_le
      · intro e he
        simp only [List.mem_singleton] at he
        subst he
        exact ReachLen.base
      · simp
      · intro a ha b hb
        simp only [List.mem_singleton] at ha hb
        subst ha
        subst hb
        omega
      · intro v hv hq
        exfalso
        simp only [List.mem_singleton] at hv
        exact hq (s, [s]) (by simp) hv.symm
      · intro k w hk hq
        exfalso
        have h1 := hq (s, [s]) (by simp)
        simp only [List.length_singleton] at h1
        have := hk.one_le
        omega
    have hfuel : ([((s : Pos), [s])]).length +
        (bfsBound m - ([s] : List Pos).length) ≤
        m.width.toNat * m.height.toNat + 1 := by
      have hc : (cellsRowMajor m).length = m.width.toNat * m.height.toNat := by
        rw [length_cellsRowMajor, Nat.mul_comm]
      simp only [List.length_singleton, bfsBound]
      omega
    obtain ⟨hempty, hnon⟩ := bfs_loop_spec m s g
      (m.width.toNat * m.height.toNat + 1) [(s, [s])] [s] inv hfuel
    have hfp : find_path m s g =
        bfs_loop m g (m.width.toNat * m.height.toNat + 1) [(s, [s])] [s] := by
      simp [find_path, hsg]
    rw [← hfp] at hempty hnon
    refine ⟨?_, ?_, ?_⟩
    · constructor
      · intro h
        exfalso
        have hne : find_path m s g ≠ [] := by
          rw [h]
          simp
        obtain ⟨⟨hh, hl, -⟩, -⟩ := hnon hne
        rw [h] at hl
        simp only [List.getLast?_singleton, Option.some_inj] at hl
        exact hsg hl
      · intro h
        exact absurd h hsg
    · constructor
      · exact hempty
      · intro hnr
        by_contra hne
        obtain ⟨hp, _⟩ := hnon hne
        exact hnr ⟨_, hp⟩
    · intro hreach
      have hne : find_path m s g ≠ [] := by
        intro h
        exact hempty h hreach
      obtain ⟨hp, hmin⟩ := hnon hne
      refine ⟨hp, ?_⟩
      intro q hq
      exact hmin q.length (isPathTo_reachLen hq)

/-- Small demonstration board: a 2×1 corridor with no wall entries. -/
def mDemo : Model :=
  { width := 2, height := 1, wall_health := 2, rescued_pois := 0,
    explosion_count := 0, fire_grid := fun _ _ => .clear,
    cell_types := fun _ _ => .normal, walls := fun _ => none,
    pois := [], firefighters := [] }

/-- Witness for C1: at a concrete reachable pair the theorem produces the
returned path's correctness. -/
theorem find_path_correct_witness :
    IsPathTo mDemo (0, 0) (1, 0) (find_path mDemo (0, 0) (1, 0)) :=
  ((find_path_correct mDemo (0, 0) (1, 0)).2.2
    ⟨[(0, 0), (1, 0)],
      ⟨rfl, rfl, List.Chain'.cons (by decide) (List.chain'_singleton _)⟩⟩).1

/-! ## C2: fire spread (`FlashPointModel.spread_fire`) -/

/-- The inner `for dx, dy in ...` loop of `spread_fire` for a burning
source cell `(x, y)`: each in-bounds neighbor that is Clear *in the
pre-pass grid* (`m.fire_grid`) and not separated by an intact wall
becomes Smoke in the accumulating new grid when its draw is below 0.2. -/
def spread_from_fire (m : Model) (rsp : Int → Int → Int → Int → ℚ)
    (x y : Int) :
    List Pos → (Int → Int → FireState) → Int → Int → FireState
  | [], new => new
  | d :: ds, new =>
    if inBounds m (x + d.1) (y + d.2) ∧
        m.fire_grid (x + d.1) (y + d.2) = .clear then
      if has_wall_between m x y (x + d.1) (y + d.2) = false then
        if rsp x y (x + d.1) (y + d.2) < 1/5 then
          spread_from_fire m rsp x y ds (setCell new (x + d.1) (y + d.2) .smoke)
        else spread_from_fire m rsp x y ds new
      else spread_from_fire m rsp x y ds new
    else spread_from_fire m rsp x y ds new

/-- The body of `spread_fire`'s cell scan: dispatch on the *pre-pass*
state of the scanned cell `c`; a Smoke cell ignites on a draw below 0.3,
a Fire cell runs the neighbor spread loop. -/
def spread_fire_cell (m : Model) (rsm : Int → Int → ℚ)
    (rsp : Int → Int → Int → Int → ℚ)
    (new : Int → Int → FireState) (c : Pos) : Int → Int → FireState :=
  match m.fire_grid c.1 c.2 with
  | .smoke => if rsm c.1 c.2 < 3/10 then setCell new c.1 c.2 .fire else new
  | .fire => spread_from_fire m rsp c.1 c.2 dirs4 new
  | .clear => new

/-- `FlashPointModel.spread_fire()`: scan all cells row-major, writing
into a copy of the grid, and install the copy at the end of the pass.
The `random.random()` draws are the explicit oracles `rsm` (smoke
ignition, threshold 0.3) and `rsp` (fire spread, threshold 0.2). -/
def spread_fire (m : Model) (rsm : Int → Int → ℚ)
    (rsp : Int → Int → Int → Int → ℚ) : Model :=
  { m with fire_grid :=
      (cellsRowMajor m).foldl (spread_fire_cell m rsm rsp) m.fire_grid }

/-- A burning pre-pass cell `c` writes Smoke at `(a, b)` during the pass. -/
def spreadHit (m : Model) (rsp : Int → Int → Int → Int → ℚ)
    (c : Pos) (a b : Int) : Prop :=
  m.fire_grid c.1 c.2 = .fire ∧
    ∃ d ∈ dirs4, ((a, b) : Pos) = (c.1 + d.1, c.2 + d.2) ∧
      inBounds m a b ∧ m.fire_grid a b = .clear ∧
      has_wall_between m c.1 c.2 a b = false ∧ rsp c.1 c.2 a b < 1/5

instance (m : Model) (rsp : Int → Int → Int → Int → ℚ) (c : Pos)
    (a b : Int) : Decidable (spreadHit m rsp c a b) :=
  inferInstanceAs (Decidable (_ ∧ ∃ d ∈ dirs4, _ ∧ _ ∧ _ ∧ _ ∧ _))

theorem spread_from_fire_spec (m : Model) (rsp : Int → Int → Int → Int → ℚ)
    (x y : Int) :
    ∀ (ds : List Pos) (new : Int → Int → FireState) (a b : Int),
      spread_from_fire m rsp x y ds new a b =
        if ∃ d ∈ ds, ((a, b) : Pos) = (x + d.1, y + d.2) ∧
            inBounds m a b ∧ m.fire_grid a b = .clear ∧
            has_wall_between m x y a b = false ∧ rsp x y a b < 1/5
        then .smoke else new a b := by
  intro ds
  induction ds with
  | nil =>
    intro new a b
    simp [spread_from_fire]
  | cons d ds ih =>
    intro new a b
    by_cases hab : ((a, b) : Pos) = (x + d.1, y + d.2)
    · -- the head direction targets exactly (a, b)
      by_cases h1 : inBounds m (x + d.1) (y + d.2) ∧
          m.fire_grid (x + d.1) (y + d.2) = .clear
      · by_cases h2 : has_wall_between m x y (x + d.1) (y + d.2) = false
        · by_cases h3 : rsp x y (x + d.1) (y + d.2) < 1/5
          · rw [spread_from_fire, if_pos h1, if_pos h2, if_pos h3, ih]
            have hhead : ∃ d2 ∈ d :: ds, ((a, b) : Pos) = (x + d2.1, y + d2.2) ∧
                inBounds m a b ∧ m.fire_grid a b = .clear ∧
                has_wall_between m x y a b = false ∧ rsp x y a b < 1/5 := by
              refine ⟨d, List.mem_cons_self _ _, hab, ?_, ?_, ?_, ?_⟩ <;>
                (rw [show a = x + d.1 from congrArg Prod.fst hab,
                     show b = y + d.2 from congrArg Prod.snd hab]) <;>
                first
                  | exact h1.1
                  | exact h1.2
                  | exact h2
                  | exact h3
            rw [if_pos hhead]
            by_cases htail : ∃ d2 ∈ ds, ((a, b) : Pos) = (x + d2.1, y + d2.2) ∧
                inBounds m a b ∧ m.fire_grid a b = .clear ∧
                has_wall_between m x y a b = false ∧ rsp x y a b < 1/5
            · rw [if_pos htail]
            · rw [if_neg htail, setCell, if_pos ⟨congrArg Prod.fst hab,
                congrArg Prod.snd hab⟩]
          · rw [spread_from_fire, if_pos h1, if_pos h2, if_neg h3, ih]
            congr 1
            simp only [List.mem_cons, eq_iff_iff]
            constructor
            · rintro ⟨d2, hd2, hrest⟩
              exact ⟨d2, Or.inr hd2, hrest⟩
            · rintro ⟨d2, rfl | hd2, hrest⟩
              · exact absurd (by
                  rw [show a = x + d2.1 from congrArg Prod.fst hab,
                      show b = y + d2.2 from congrArg Prod.snd hab] at hrest
                  exact hrest.2.2.2.2) h3
              · exact ⟨d2, hd2, hrest⟩
        · rw [spread_from_fire, if_pos h1, if_neg h2, ih]
          congr 1
          simp only [List.mem_cons, eq_iff_iff]
          constructor
          · rintro ⟨d2, hd2, hrest⟩
            exact ⟨d2, Or.inr hd2, hrest⟩
          · rintro ⟨d2, rfl | hd2, hrest⟩
            · exact absurd (by
                rw [show a = x + d2.1 from congrArg Prod.fst hab,
                    show b = y + d2.2 from congrArg Prod.snd hab] at hrest
                exact hrest.2.2.2.1) h2
            · exact ⟨d2, hd2, hrest⟩
      · rw [spread_from_fire, if_neg h1, ih]
        congr 1
        simp only [List.mem_cons, eq_iff_iff]
        constructor
        · rintro ⟨d2, hd2, hrest⟩
          exact ⟨d2, Or.inr hd2, hrest⟩
        · rintro ⟨d2, rfl | hd2, hrest⟩
          · exact absurd (by
              rw [show a = x + d2.1 from congrArg Prod.fst hab,
                  show b = y + d2.2 from congrArg Prod.snd hab] at hrest
              exact ⟨hrest.2.1, hrest.2.2.1⟩) h1
          · exact ⟨d2, hd2, hrest⟩
    · -- the head direction targets a different cell: unaffected at (a, b)
      have hrec : spread_from_fire m rsp x y (d :: ds) new a b =
          spread_from_fire m rsp x y ds
            (if inBounds m (x + d.1) (y + d.2) ∧
                m.fire_grid (x + d.1) (y + d.2) = .clear then
              if has_wall_between m x y (x + d.1) (y + d.2) = false then
                if rsp x y (x + d.1) (y + d.2) < 1/5 then
                  setCell new (x + d.1) (y + d.2) .smoke
                else new
              else new
            else new) a b := by
        rw [spread_from_fire]
        split_ifs <;> rfl
      rw [hrec, ih]
      have hacc : (if inBounds m (x + d.1) (y + d.2) ∧
            m.fire_grid (x + d.1) (y + d.2) = .clear then
          if has_wall_between m x y (x + d.1) (y + d.2) = false then
            if rsp x y (x + d.1) (y + d.2) < 1/5 then
              setCell new (x + d.1) (y + d.2) .smoke
            else new
          else new
        else new) a b = new a b := by
        split_ifs <;> try rfl
        rw [setCell]
        rw [if_neg]
        intro ⟨ha, hb⟩
        exact hab (by rw [ha, hb])
      rw [hacc]
      congr 1
      simp only [List.mem_cons, eq_iff_iff]
      constructor
      · rintro ⟨d2, hd2, hrest⟩
        exact ⟨d2, Or.inr hd2, hrest⟩
      · rintro ⟨d2, rfl | hd2, hrest⟩
        · exact absurd hrest.1 hab
        · exact ⟨d2, hd2, hrest⟩

theorem neg_mem_dirs4 {d : Pos} (h : d ∈ dirs4) :
    ((-d.1, -d.2) : Pos) ∈ dirs4 := by
  fin_cases h <;> decide

theorem spread_fire_cell_spec (m : Model) (rsm : Int → Int → ℚ)
    (rsp : Int → Int → Int → Int → ℚ) (new : Int → Int → FireState)
    (c : Pos) (a b : Int) :
    spread_fire_cell m rsm rsp new c a b =
      if m.fire_grid c.1 c.2 = .smoke ∧ ((a, b) : Pos) = c ∧
          rsm c.1 c.2 < 3/10 then .fire
      else if spreadHit m rsp c a b then .smoke
      else new a b := by
  by_cases hsm : m.fire_grid c.1 c.2 = .smoke
  · have hl : spread_fire_cell m rsm rsp new c a b =
        (if rsm c.1 c.2 < 3/10 then setCell new c.1 c.2 .fire else new) a b := by
      rw [spread_fire_cell, hsm]
    rw [hl]
    have hnohit : ¬ spreadHit m rsp c a b := by
      rintro ⟨h, -⟩
      rw [hsm] at h
      exact absurd h (by decide)
    by_cases hcoin : rsm c.1 c.2 < 3/10
    · rw [if_pos hcoin]
      by_cases hac : ((a, b) : Pos) = c
      · rw [if_pos ⟨hsm, hac, hcoin⟩]
        simp only [setCell]
        rw [if_pos ⟨congrArg Prod.fst hac, congrArg Prod.snd hac⟩]
      · rw [if_neg (by rintro ⟨-, h, -⟩; exact hac h), if_neg hnohit]
        simp only [setCell]
        rw [if_neg (fun h => hac (Prod.ext h.1 h.2))]
    · rw [if_neg hcoin, if_neg (by rintro ⟨-, -, h⟩; exact hcoin h),
        if_neg hnohit]
  · by_cases hfi : m.fire_grid c.1 c.2 = .fire
    · have hl : spread_fire_cell m rsm rsp new c a b =
          spread_from_fire m rsp c.1 c.2 dirs4 new a b := by
        rw [spread_fire_cell, hfi]
      rw [hl, spread_from_fire_spec,
        if_neg (show ¬ (m.fire_grid c.1 c.2 = .smoke ∧ ((a, b) : Pos) = c ∧
          rsm c.1 c.2 < 3/10) from by rintro ⟨h, -, -⟩; exact hsm h)]
      congr 1
      rw [eq_iff_iff]
      unfold spreadHit
      constructor
      · intro h
        exact ⟨hfi, h⟩
      · rintro ⟨-, h⟩
        exact h
    · have hcl : m.fire_grid c.1 c.2 = .clear := by
        cases hx : m.fire_grid c.1 c.2 with
        | clear => rfl
        | smoke => exact absurd hx hsm
        | fire => exact absurd hx hfi
      have hl : spread_fire_cell m rsm rsp new c a b = new a b := by
        rw [spread_fire_cell, hcl]
      rw [hl, if_neg (show ¬ (m.fire_grid c.1 c.2 = .smoke ∧
          ((a, b) : Pos) = c ∧ rsm c.1 c.2 < 3/10) from
          by rintro ⟨h, -, -⟩; exact hsm h),
        if_neg (show ¬ spreadHit m rsp c a b from
          by rintro ⟨h, -⟩; exact hfi h)]

theorem spread_fold_spec (m : Model) (rsm : Int → Int → ℚ)
    (rsp : Int → Int → Int → Int → ℚ) :
    ∀ (L : List Pos) (new : Int → Int → FireState) (a b : Int),
      (L.foldl (spread_fire_cell m rsm rsp) new) a b =
        if ((a, b) : Pos) ∈ L ∧ m.fire_grid a b = .smoke ∧ rsm a b < 3/10
        then .fire
        else if ∃ c ∈ L, spreadHit m rsp c a b then .smoke
        else new a b := by
  intro L
  induction L with
  | nil =>
    intro new a b
    simp
  | cons c L2 ih =>
    intro new a b
    rw [List.foldl_cons, ih]
    by_cases hA2 : ((a, b) : Pos) ∈ L2 ∧ m.fire_grid a b = .smoke ∧
        rsm a b < 3/10
    · rw [if_pos hA2, if_pos ⟨List.mem_cons_of_mem _ hA2.1, hA2.2⟩]
    · rw [if_neg hA2]
      by_cases hB2 : ∃ c2 ∈ L2, spreadHit m rsp c2 a b
      · rw [if_pos hB2]
        have hnA : ¬ (((a, b) : Pos) ∈ c :: L2 ∧ m.fire_grid a b = .smoke ∧
            rsm a b < 3/10) := by
          rintro ⟨-, hsm, -⟩
          obtain ⟨c2, -, -, d, -, -, -, hclear, -⟩ := hB2
          rw [hsm] at hclear
          exact absurd hclear (by decide)
        rw [if_neg hnA, if_pos (by
          obtain ⟨c2, hc2, hhit⟩ := hB2
          exact ⟨c2, List.mem_cons_of_mem _ hc2, hhit⟩)]
      · rw [if_neg hB2, spread_fire_cell_spec]
        by_cases hSB : m.fire_grid c.1 c.2 = .smoke ∧ ((a, b) : Pos) = c ∧
            rsm c.1 c.2 < 3/10
        · rw [if_pos hSB]
          have ha : a = c.1 := congrArg Prod.fst hSB.2.1
          have hb : b = c.2 := congrArg Prod.snd hSB.2.1
          rw [if_pos ⟨List.mem_cons.mpr (Or.inl hSB.2.1), by rw [ha, hb]; exact hSB.1,
            by rw [ha, hb]; exact hSB.2.2⟩]
        · rw [if_neg hSB]
          by_cases hHit : spreadHit m rsp c a b
          · rw [if_pos hHit]
            have hnA : ¬ (((a, b) : Pos) ∈ c :: L2 ∧ m.fire_grid a b = .smoke ∧
                rsm a b < 3/10) := by
              rintro ⟨-, hsm, -⟩
              obtain ⟨-, d, -, -, -, hclear, -⟩ := hHit
              rw [hsm] at hclear
              exact absurd hclear (by decide)
            rw [if_neg hnA, if_pos ⟨c, List.mem_cons_self _ _, hHit⟩]
          · rw [if_neg hHit]
            have hnA : ¬ (((a, b) : Pos) ∈ c :: L2 ∧ m.fire_grid a b = .smoke ∧
                rsm a b < 3/10) := by
              rintro ⟨hmem, hsm, hcoin⟩
              rcases List.mem_cons.mp hmem with heq | hmem2
              · exact hSB ⟨by
                  rw [← congrArg Prod.fst heq, ← congrArg Prod.snd heq]
                  exact hsm, heq, by
                  rw [← congrArg Prod.fst heq, ← congrArg Prod.snd heq]
                  exact hcoin⟩
              · exact hA2 ⟨hmem2, hsm, hcoin⟩
            have hnB : ¬ ∃ c2 ∈ c :: L2, spreadHit m rsp c2 a b := by
              rintro ⟨c2, hc2, hhit⟩
              rcases List.mem_cons.mp hc2 with rfl | hc2t
              · exact hHit hhit
              · exact hB2 ⟨c2, hc2t, hhit⟩
            rw [if_neg hnA, if_neg hnB]

/-- C2: the fire-spread pass has snapshot semantics.  With the random
draws as explicit oracles, the post-pass grid value of each cell is a
function of the *pre-pass* grid alone: a pre-pass Smoke cell turns Fire
exactly when its 0.3-draw succeeds; a pre-pass Clear cell turns Smoke
exactly when some orthogonal in-bounds pre-pass Fire neighbor, not
separated by an intact wall, succeeds on its independent 0.2-draw; every
other cell keeps its level; and all non-grid state is untouched, with
the computed grid installed as the live grid at the end of the pass. -/
theorem spread_fire_snapshot (m : Model) (rsm : Int → Int → ℚ)
    (rsp : Int → Int → Int → Int → ℚ) :
    (∀ x y : Int,
      (spread_fire m rsm rsp).fire_grid x y =
        (if inBounds m x y ∧ m.fire_grid x y = .smoke ∧ rsm x y < 3/10
         then .fire
         else if inBounds m x y ∧ m.fire_grid x y = .clear ∧
             ∃ d ∈ dirs4, inBounds m (x + d.1) (y + d.2) ∧
               m.fire_grid (x + d.1) (y + d.2) = .fire ∧
               has_wall_between m (x + d.1) (y + d.2) x y = false ∧
               rsp (x + d.1) (y + d.2) x y < 1/5
         then .smoke
         else m.fire_grid x y)) ∧
    (spread_fire m rsm rsp).width = m.width ∧
    (spread_fire m rsm rsp).height = m.height ∧
    (spread_fire m rsm rsp).walls = m.walls ∧
    (spread_fire m rsm rsp).cell_types = m.cell_types ∧
    (spread_fire m rsm rsp).pois = m.pois ∧
    (spread_fire m rsm rsp).firefighters = m.firefighters ∧
    (spread_fire m rsm rsp).rescued_pois = m.rescued_pois ∧
    (spread_fire m rsm rsp).explosion_count = m.explosion_count := by
  refine ⟨?_, rfl, rfl, rfl, rfl, rfl, rfl, rfl, rfl⟩
  intro x y
  show ((cellsRowMajor m).foldl (spread_fire_cell m rsm rsp) m.fire_grid) x y = _
  rw [spread_fold_spec]
  have hmem : (((x, y) : Pos) ∈ cellsRowMajor m) ↔ inBounds m x y :=
    mem_cellsRowMajor
  have hiff : (∃ c ∈ cellsRowMajor m, spreadHit m rsp c x y) ↔
      (inBounds m x y ∧ m.fire_grid x y = .clear ∧
        ∃ d ∈ dirs4, inBounds m (x + d.1) (y + d.2) ∧
          m.fire_grid (x + d.1) (y + d.2) = .fire ∧
          has_wall_between m (x + d.1) (y + d.2) x y = false ∧
          rsp (x + d.1) (y + d.2) x y < 1/5) := by
    unfold spreadHit
    constructor
    · rintro ⟨c, hc, hfire, ⟨d, hd, heq, hinb, hclear, hwall, hcoin⟩⟩
      have hc1 : c.1 = x + -d.1 := by
        have := congrArg Prod.fst heq
        simp only at this
        omega
      have hc2 : c.2 = y + -d.2 := by
        have := congrArg Prod.snd heq
        simp only at this
        omega
      refine ⟨hinb, hclear, (-d.1, -d.2), neg_mem_dirs4 hd, ?_, ?_, ?_, ?_⟩
      · rw [show x + -d.1 = c.1 by omega, show y + -d.2 = c.2 by omega]
        exact mem_cellsRowMajor.mp hc
      · rw [show x + -d.1 = c.1 by omega, show y + -d.2 = c.2 by omega]
        exact hfire
      · rw [show x + -d.1 = c.1 by omega, show y + -d.2 = c.2 by omega]
        exact hwall
      · rw [show x + -d.1 = c.1 by omega, show y + -d.2 = c.2 by omega]
        exact hcoin
    · rintro ⟨hxy, hclear, d, hd, hinb, hfire, hwall, hcoin⟩
      refine ⟨(x + d.1, y + d.2), mem_cellsRowMajor.mpr hinb, hfire,
        (-d.1, -d.2), neg_mem_dirs4 hd, ?_, hxy, hclear, hwall, hcoin⟩
      rw [Prod.ext_iff]
      constructor <;> simp
  simp only [hmem, hiff]

/-! ## C6: explosions (`check_explosions` / `_trigger_explosion`) -/

/-- The 8-direction neighbor order of `_trigger_explosion`'s smoke
spread: orthogonal then diagonal, as in the source. -/
def dirs8 : List Pos :=
  [(0, 1), (0, -1), (1, 0), (-1, 0), (1, 1), (-1, -1), (1, -1), (-1, 1)]

/-- Wall-damage loop of `_trigger_explosion`: for each in-bounds
orthogonal neighbor, damage the wall at the normalized key by 1 when an
entry exists (no-op otherwise). -/
def explosion_damage_walls (x y : Int) : List Pos → Model → Model
  | [], acc => acc
  | d :: ds, acc =>
    if inBounds acc (x + d.1) (y + d.2) then
      match acc.walls (get_wall_key x y (x + d.1) (y + d.2)) with
      | some w =>
        explosion_damage_walls x y ds
          { acc with walls := fun k =>
              if k = get_wall_key x y (x + d.1) (y + d.2)
              then some (w.take_damage 1).1 else acc.walls k }
      | none => explosion_damage_walls x y ds acc
    else explosion_damage_walls x y ds acc

/-- Smoke-spread loop of `_trigger_explosion`: each in-bounds neighbor
(8 directions) that is currently Clear is set to Smoke, in place,
ignoring walls. -/
def explosion_spread_smoke (x y : Int) : List Pos → Model → Model
  | [], acc => acc
  | d :: ds, acc =>
    if inBounds acc (x + d.1) (y + d.2) then
      if acc.fire_grid (x + d.1) (y + d.2) = .clear then
        explosion_spread_smoke x y ds
          { acc with fire_grid := setCell acc.fire_grid (x + d.1) (y + d.2) .smoke }
      else explosion_spread_smoke x y ds acc
    else explosion_spread_smoke x y ds acc

/-- `FlashPointModel._trigger_explosion(x, y)`. -/
def _trigger_explosion (m : Model) (x y : Int) : Model :=
  explosion_spread_smoke x y dirs8
    (explosion_damage_walls x y dirs4
      { m with explosion_count := m.explosion_count + 1 })

/-- `FlashPointModel.check_explosions()`: in-place row-major scan; a
Fire cell of kind Hotspot explodes when its 0.1-draw succeeds. -/
def check_explosions (m : Model) (rex : Int → Int → ℚ) : Model :=
  (cellsRowMajor m).foldl
    (fun acc c =>
      if acc.fire_grid c.1 c.2 = .fire ∧ acc.cell_types c.1 c.2 = .hotspot ∧
          rex c.1 c.2 < 1/10 then
        _trigger_explosion acc c.1 c.2
      else acc) m

theorem explosion_damage_walls_spec (x y : Int) :
    ∀ (ds : List Pos) (acc : Model),
      (ds.map (fun d => get_wall_key x y (x + d.1) (y + d.2))).Nodup →
      (explosion_damage_walls x y ds acc).width = acc.width ∧
      (explosion_damage_walls x y ds acc).height = acc.height ∧
      (explosion_damage_walls x y ds acc).fire_grid = acc.fire_grid ∧
      (explosion_damage_walls x y ds acc).cell_types = acc.cell_types ∧
      (explosion_damage_walls x y ds acc).pois = acc.pois ∧
      (explosion_damage_walls x y ds acc).firefighters = acc.firefighters ∧
      (explosion_damage_walls x y ds acc).rescued_pois = acc.rescued_pois ∧
      (explosion_damage_walls x y ds acc).explosion_count = acc.explosion_count ∧
      ∀ k, (explosion_damage_walls x y ds acc).walls k =
        if ∃ d ∈ ds, inBounds acc (x + d.1) (y + d.2) ∧
            k = get_wall_key x y (x + d.1) (y + d.2) ∧ (acc.walls k).isSome
        then (acc.walls k).map (fun w => (w.take_damage 1).1)
        else acc.walls k := by
  intro ds
  induction ds with
  | nil =>
    intro acc hnd
    refine ⟨rfl, rfl, rfl, rfl, rfl, rfl, rfl, rfl, ?_⟩
    intro k
    simp [explosion_damage_walls]
  | cons d ds ih =>
    intro acc hnd
    rw [List.map_cons, List.nodup_cons] at hnd
    obtain ⟨hdk, hnd2⟩ := hnd
    by_cases hin : inBounds acc (x + d.1) (y + d.2)
    · cases hw : acc.walls (get_wall_key x y (x + d.1) (y + d.2)) with
      | some w =>
        have hstep : explosion_damage_walls x y (d :: ds) acc =
            explosion_damage_walls x y ds
              { acc with walls := fun k =>
                  if k = get_wall_key x y (x + d.1) (y + d.2)
                  then some (w.take_damage 1).1 else acc.walls k } := by
          rw [explosion_damage_walls, if_pos hin, hw]
        set acc2 : Model :=
          { acc with walls := fun k =>
              if k = get_wall_key x y (x + d.1) (y + d.2)
              then some (w.take_damage 1).1 else acc.walls k } with hacc2
        have hin2 : ∀ a b : Int, inBounds acc2 a b ↔ inBounds acc a b := by
          intro a b
          rw [hacc2]
          exact Iff.rfl
        obtain ⟨e1, e2, e3, e4, e5, e6, e7, e8, hwalls⟩ := ih acc2 hnd2
        rw [hstep]
        refine ⟨e1, e2, e3, e4, e5, e6, e7, e8, ?_⟩
        intro k
        rw [hwalls k]
        by_cases hk : k = get_wall_key x y (x + d.1) (y + d.2)
        · subst hk
          have hnone : ¬ ∃ d2 ∈ ds, inBounds acc2 (x + d2.1) (y + d2.2) ∧
              get_wall_key x y (x + d.1) (y + d.2) =
                get_wall_key x y (x + d2.1) (y + d2.2) ∧
              (acc2.walls (get_wall_key x y (x + d.1) (y + d.2))).isSome := by
            rintro ⟨d2, hd2, -, hkeq, -⟩
            exact hdk (by
              rw [List.mem_map]
              exact ⟨d2, hd2, hkeq.symm⟩)
          rw [if_neg hnone]
          have hself : acc2.walls (get_wall_key x y (x + d.1) (y + d.2)) =
              some (w.take_damage 1).1 := by
            rw [hacc2]
            simp
          rw [hself,
            if_pos ⟨d, List.mem_cons_self _ _, hin, rfl, by rw [hw]; rfl⟩, hw]
          rfl
        · have hother : acc2.walls k = acc.walls k := by
            rw [hacc2]
            simp [hk]
          rw [hother]
          congr 1
          rw [eq_iff_iff]
          constructor
          · rintro ⟨d2, hd2, hin2b, hkeq, hsome⟩
            exact ⟨d2, List.mem_cons_of_mem _ hd2, (hin2 _ _).mp hin2b, hkeq, hsome⟩
          · rintro ⟨d2, hd2m, hin2b, hkeq, hsome⟩
            rcases List.mem_cons.mp hd2m with rfl | hd2
            · exact absurd hkeq hk
            · exact ⟨d2, hd2, (hin2 _ _).mpr hin2b, hkeq, hsome⟩
      | none =>
        have hstep : explosion_damage_walls x y (d :: ds) acc =
            explosion_damage_walls x y ds acc := by
          rw [explosion_damage_walls, if_pos hin, hw]
        obtain ⟨e1, e2, e3, e4, e5, e6, e7, e8, hwalls⟩ := ih acc hnd2
        rw [hstep]
        refine ⟨e1, e2, e3, e4, e5, e6, e7, e8, ?_⟩
        intro k
        rw [hwalls k]
        congr 1
        rw [eq_iff_iff]
        constructor
        · rintro ⟨d2, hd2, hrest⟩
          exact ⟨d2, List.mem_cons_of_mem _ hd2, hrest⟩
        · rintro ⟨d2, hd2m, hin2b, hkeq, hsome⟩
          rcases List.mem_cons.mp hd2m with rfl | hd2
          · rw [hkeq, hw] at hsome
            exact absurd hsome (by decide)
          · exact ⟨d2, hd2, hin2b, hkeq, hsome⟩
    · have hstep : explosion_damage_walls x y (d :: ds) acc =
          explosion_damage_walls x y ds acc := by
        rw [explosion_damage_walls, if_neg hin]
      obtain ⟨e1, e2, e3, e4, e5, e6, e7, e8, hwalls⟩ := ih acc hnd2
      rw [hstep]
      refine ⟨e1, e2, e3, e4, e5, e6, e7, e8, ?_⟩
      intro k
      rw [hwalls k]
      congr 1
      rw [eq_iff_iff]
      constructor
      · rintro ⟨d2, hd2, hrest⟩
        exact ⟨d2, List.mem_cons_of_mem _ hd2, hrest⟩
      · rintro ⟨d2, hd2m, hin2b, hkeq, hsome⟩
        rcases List.mem_cons.mp hd2m with rfl | hd2
        · exact absurd hin2b hin
        · exact ⟨d2, hd2, hin2b, hkeq, hsome⟩

theorem explosion_spread_smoke_spec (x y : Int) :
    ∀ (ds : List Pos) (acc : Model),
      (ds.map (fun d => ((x + d.1, y + d.2) : Pos))).Nodup →
      (explosion_spread_smoke x y ds acc).width = acc.width ∧
      (explosion_spread_smoke x y ds acc).height = acc.height ∧
      (explosion_spread_smoke x y ds acc).walls = acc.walls ∧
      (explosion_spread_smoke x y ds acc).cell_types = acc.cell_types ∧
      (explosion_spread_smoke x y ds acc).pois = acc.pois ∧
      (explosion_spread_smoke x y ds acc).firefighters = acc.firefighters ∧
      (explosion_spread_smoke x y ds acc).rescued_pois = acc.rescued_pois ∧
      (explosion_spread_smoke x y ds acc).explosion_count = acc.explosion_count ∧
      ∀ a b : Int, (explosion_spread_smoke x y ds acc).fire_grid a b =
        if ∃ d ∈ ds, ((a, b) : Pos) = (x + d.1, y + d.2) ∧ inBounds acc a b ∧
            acc.fire_grid a b = .clear
        then .smoke else acc.fire_grid a b := by
  intro ds
  induction ds with
  | nil =>
    intro acc hnd
    refine ⟨rfl, rfl, rfl, rfl, rfl, rfl, rfl, rfl, ?_⟩
    intro a b
    simp [explosion_spread_smoke]
  | cons d ds ih =>
    intro acc hnd
    rw [List.map_cons, List.nodup_cons] at hnd
    obtain ⟨hdk, hnd2⟩ := hnd
    by_cases hin : inBounds acc (x + d.1) (y + d.2)
    · by_cases hcl : acc.fire_grid (x + d.1) (y + d.2) = .clear
      · have hstep : explosion_spread_smoke x y (d :: ds) acc =
            explosion_spread_smoke x y ds
              { acc with fire_grid :=
                  setCell acc.fire_grid (x + d.1) (y + d.2) .smoke } := by
          rw [explosion_spread_smoke, if_pos hin, if_pos hcl]
        set acc2 : Model :=
          { acc with fire_grid :=
              setCell acc.fire_grid (x + d.1) (y + d.2) .smoke } with hacc2
        have hin2 : ∀ a b : Int, inBounds acc2 a b ↔ inBounds acc a b := by
          intro a b
          rw [hacc2]
          exact Iff.rfl
        obtain ⟨e1, e2, e3, e4, e5, e6, e7, e8, hgrid⟩ := ih acc2 hnd2
        rw [hstep]
        refine ⟨e1, e2, e3, e4, e5, e6, e7, e8, ?_⟩
        intro a b
        rw [hgrid a b]
        by_cases hab : ((a, b) : Pos) = (x + d.1, y + d.2)
        · have ha : a = x + d.1 := congrArg Prod.fst hab
          have hb : b = y + d.2 := congrArg Prod.snd hab
          have hself : acc2.fire_grid a b = .smoke := by
            rw [hacc2]
            simp only [setCell]
            rw [if_pos ⟨ha, hb⟩]
          have hnone : ¬ ∃ d2 ∈ ds, ((a, b) : Pos) = (x + d2.1, y + d2.2) ∧
              inBounds acc2 a b ∧ acc2.fire_grid a b = .clear := by
            rintro ⟨d2, hd2, -, -, hcl2⟩
            rw [hself] at hcl2
            exact absurd hcl2 (by decide)
          rw [if_neg hnone, hself,
            if_pos ⟨d, List.mem_cons_self _ _, hab, by rw [ha, hb]; exact hin,
              by rw [ha, hb]; exact hcl⟩]
        · have hother : acc2.fire_grid a b = acc.fire_grid a b := by
            rw [hacc2]
            simp only [setCell]
            rw [if_neg (fun h => hab (Prod.ext h.1 h.2))]
          rw [hother]
          congr 1
          rw [eq_iff_iff]
          constructor
          · rintro ⟨d2, hd2, h1, h2, h3⟩
            exact ⟨d2, List.mem_cons_of_mem _ hd2, h1, (hin2 _ _).mp h2, h3⟩
          · rintro ⟨d2, hd2m, h1, h2, h3⟩
            rcases List.mem_cons.mp hd2m with rfl | hd2
            · exact absurd h1 hab
            · exact ⟨d2, hd2, h1, (hin2 _ _).mpr h2, h3⟩
      · have hstep : explosion_spread_smoke x y (d :: ds) acc =
            explosion_spread_smoke x y ds acc := by
          rw [explosion_spread_smoke, if_pos hin, if_neg hcl]
        obtain ⟨e1, e2, e3, e4, e5, e6, e7, e8, hgrid⟩ := ih acc hnd2
        rw [hstep]
        refine ⟨e1, e2, e3, e4, e5, e6, e7, e8, ?_⟩
        intro a b
        rw [hgrid a b]
        congr 1
        rw [eq_iff_iff]
        constructor
        · rintro ⟨d2, hd2, hrest⟩
          exact ⟨d2, List.mem_cons_of_mem _ hd2, hrest⟩
        · rintro ⟨d2, hd2m, h1, h2, h3⟩
          rcases List.mem_cons.mp hd2m with rfl | hd2
          · rw [show a = x + d2.1 from congrArg Prod.fst h1,
              show b = y + d2.2 from congrArg Prod.snd h1] at h3
            exact absurd h3 hcl
          · exact ⟨d2, hd2, h1, h2, h3⟩
    · have hstep : explosion_spread_smoke x y (d :: ds) acc =
          explosion_spread_smoke x y ds acc := by
        rw [explosion_spread_smoke, if_neg hin]
      obtain ⟨e1, e2, e3, e4, e5, e6, e7, e8, hgrid⟩ := ih acc hnd2
      rw [hstep]
      refine ⟨e1, e2, e3, e4, e5, e6, e7, e8, ?_⟩
      intro a b
      rw [hgrid a b]
      congr 1
      rw [eq_iff_iff]
      constructor
      · rintro ⟨d2, hd2, hrest⟩
        exact ⟨d2, List.mem_cons_of_mem _ hd2, hrest⟩
      · rintro ⟨d2, hd2m, h1, h2, h3⟩
        rcases List.mem_cons.mp hd2m with rfl | hd2
        · rw [show a = x + d2.1 from congrArg Prod.fst h1,
            show b = y + d2.2 from congrArg Prod.snd h1] at h2
          exact absurd h2 hin
        · exact ⟨d2, hd2, h1, h2, h3⟩

theorem wall_keys_nodup (x y : Int) :
    (dirs4.map (fun d => get_wall_key x y (x + d.1) (y + d.2))).Nodup := by
  simp [dirs4, get_wall_key, Prod.ext_iff]

theorem smoke_cells_nodup (x y : Int) :
    (dirs8.map (fun d => ((x + d.1, y + d.2) : Pos))).Nodup := by
  simp [dirs8, Prod.ext_iff]

theorem trigger_explosion_spec (m : Model) (x y : Int) :
    (_trigger_explosion m x y).explosion_count = m.explosion_count + 1 ∧
    (_trigger_explosion m x y).width = m.width ∧
    (_trigger_explosion m x y).height = m.height ∧
    (_trigger_explosion m x y).cell_types = m.cell_types ∧
    (_trigger_explosion m x y).pois = m.pois ∧
    (_trigger_explosion m x y).firefighters = m.firefighters ∧
    (_trigger_explosion m x y).rescued_pois = m.rescued_pois ∧
    (∀ k, (_trigger_explosion m x y).walls k =
      if ∃ d ∈ dirs4, inBounds m (x + d.1) (y + d.2) ∧
          k = get_wall_key x y (x + d.1) (y + d.2) ∧ (m.walls k).isSome
      then (m.walls k).map (fun w => (w.take_damage 1).1) else m.walls k) ∧
    (∀ a b : Int, (_trigger_explosion m x y).fire_grid a b =
      if ∃ d ∈ dirs8, ((a, b) : Pos) = (x + d.1, y + d.2) ∧ inBounds m a b ∧
          m.fire_grid a b = .clear
      then .smoke else m.fire_grid a b) := by
  obtain ⟨w1, w2, w3, w4, w5, w6, w7, w8, wW⟩ :=
    explosion_damage_walls_spec x y dirs4
      { m with explosion_count := m.explosion_count + 1 } (wall_keys_nodup x y)
  obtain ⟨s1, s2, s3, s4, s5, s6, s7, s8, sG⟩ :=
    explosion_spread_smoke_spec x y dirs8
      (explosion_damage_walls x y dirs4
        { m with explosion_count := m.explosion_count + 1 })
      (smoke_cells_nodup x y)
  have hinb2 : ∀ a b : Int,
      inBounds (explosion_damage_walls x y dirs4
        { m with explosion_count := m.explosion_count + 1 }) a b ↔
      inBounds m a b := by
    intro a b
    unfold inBounds
    rw [w1, w2]
  have hgrid2 : (explosion_damage_walls x y dirs4
      { m with explosion_count := m.explosion_count + 1 }).fire_grid =
      m.fire_grid := by
    rw [w3]
  refine ⟨?_, ?_, ?_, ?_, ?_, ?_, ?_, ?_, ?_⟩
  · show (explosion_spread_smoke x y dirs8 _).explosion_count = _
    rw [s8, w8]
  · show (explosion_spread_smoke x y dirs8 _).width = _
    rw [s1, w1]
  · show (explosion_spread_smoke x y dirs8 _).height = _
    rw [s2, w2]
  · show (explosion_spread_smoke x y dirs8 _).cell_types = _
    rw [s4, w4]
  · show (explosion_spread_smoke x y dirs8 _).pois = _
    rw [s5, w5]
  · show (explosion_spread_smoke x y dirs8 _).firefighters = _
    rw [s6, w6]
  · show (explosion_spread_smoke x y dirs8 _).rescued_pois = _
    rw [s7, w7]
  · intro k
    show (explosion_spread_smoke x y dirs8 _).walls k = _
    rw [s3, wW k]
    rfl
  · intro a b
    show (explosion_spread_smoke x y dirs8 _).fire_grid a b = _
    rw [sG a b]
    simp only [hinb2, hgrid2]

theorem trigger_fire_iff (m : Model) (x y a b : Int) :
    (_trigger_explosion m x y).fire_grid a b = .fire ↔
      m.fire_grid a b = .fire := by
  obtain ⟨-, -, -, -, -, -, -, -, hg⟩ := trigger_explosion_spec m x y
  rw [hg a b]
  split_ifs with h
  · constructor
    · intro hx
      exact absurd hx (by decide)
    · intro hx
      obtain ⟨d, -, -, -, hcl⟩ := h
      rw [hx] at hcl
      exact absurd hcl (by decide)
  · exact Iff.rfl

theorem check_fold_filter (m : Model) (rex : Int → Int → ℚ) :
    ∀ (L : List Pos) (acc : Model),
      (∀ a b : Int, acc.fire_grid a b = .fire ↔ m.fire_grid a b = .fire) →
      acc.cell_types = m.cell_types →
      L.foldl (fun acc c =>
        if acc.fire_grid c.1 c.2 = .fire ∧ acc.cell_types c.1 c.2 = .hotspot ∧
            rex c.1 c.2 < 1/10 then
          _trigger_explosion acc c.1 c.2
        else acc) acc =
      (L.filter (fun c =>
        decide (m.fire_grid c.1 c.2 = .fire ∧ m.cell_types c.1 c.2 = .hotspot ∧
          rex c.1 c.2 < 1/10))).foldl
        (fun acc c => _trigger_explosion acc c.1 c.2) acc := by
  intro L
  induction L with
  | nil =>
    intro acc h1 h2
    rfl
  | cons c L2 ih =>
    intro acc h1 h2
    rw [List.foldl_cons, List.filter_cons]
    by_cases hc : m.fire_grid c.1 c.2 = .fire ∧ m.cell_types c.1 c.2 = .hotspot ∧
        rex c.1 c.2 < 1/10
    · have hacc : acc.fire_grid c.1 c.2 = .fire ∧
          acc.cell_types c.1 c.2 = .hotspot ∧ rex c.1 c.2 < 1/10 :=
        ⟨(h1 _ _).mpr hc.1, by rw [h2]; exact hc.2.1, hc.2.2⟩
      rw [if_pos hacc, if_pos (decide_eq_true hc), List.foldl_cons]
      obtain ⟨-, -, -, hct, -, -, -, -, -⟩ := trigger_explosion_spec acc c.1 c.2
      exact ih (_trigger_explosion acc c.1 c.2)
        (fun a b => (trigger_fire_iff acc c.1 c.2 a b).trans (h1 a b))
        (by rw [hct, h2])
    · have hacc : ¬ (acc.fire_grid c.1 c.2 = .fire ∧
          acc.cell_types c.1 c.2 = .hotspot ∧ rex c.1 c.2 < 1/10) := by
        intro hx
        exact hc ⟨(h1 _ _).mp hx.1, by rw [← h2]; exact hx.2.1, hx.2.2⟩
      rw [if_neg hacc, if_neg (by simpa using hc)]
      exact ih acc h1 h2

theorem foldl_trigger_count :
    ∀ (L : List Pos) (acc : Model),
      (L.foldl (fun acc c => _trigger_explosion acc c.1 c.2) acc).explosion_count
        = acc.explosion_count + L.length := by
  intro L
  induction L with
  | nil =>
    intro acc
    rfl
  | cons c L2 ih =>
    intro acc
    rw [List.foldl_cons, ih]
    obtain ⟨hc, -⟩ := trigger_explosion_spec acc c.1 c.2
    rw [hc]
    simp only [List.length_cons]
    omega

/-- C6: the explosion pass scans the post-spread grid in place in
row-major order; the cells that explode are exactly the Fire ∧ Hotspot
cells whose 0.1-draw succeeds (a set determined by the grid at the start
of the pass, since explosions never create or remove Fire), and the pass
equals folding `_trigger_explosion` over those cells in scan order, so a
later-scanned cell observes earlier explosions' effects.  Each explosion
increments `explosion_count` by 1, damages the wall toward each of the 4
orthogonal in-bounds neighbors by 1 (a no-op where no wall entry
exists), and sets each of the 8 in-bounds neighbors that is currently
Clear to Smoke, ignoring walls entirely. -/
theorem check_explosions_correct (m : Model) (rex : Int → Int → ℚ) :
    (check_explosions m rex =
      ((cellsRowMajor m).filter (fun c =>
        decide (m.fire_grid c.1 c.2 = .fire ∧ m.cell_types c.1 c.2 = .hotspot ∧
          rex c.1 c.2 < 1/10))).foldl
        (fun acc c => _trigger_explosion acc c.1 c.2) m) ∧
    ((check_explosions m rex).explosion_count = m.explosion_count +
      ((cellsRowMajor m).filter (fun c =>
        decide (m.fire_grid c.1 c.2 = .fire ∧ m.cell_types c.1 c.2 = .hotspot ∧
          rex c.1 c.2 < 1/10))).length) ∧
    (∀ (m2 : Model) (x y : Int),
      (_trigger_explosion m2 x y).explosion_count = m2.explosion_count + 1 ∧
      (∀ k, (_trigger_explosion m2 x y).walls k =
        if ∃ d ∈ dirs4, inBounds m2 (x + d.1) (y + d.2) ∧
            k = get_wall_key x y (x + d.1) (y + d.2) ∧ (m2.walls k).isSome
        then (m2.walls k).map (fun w => (w.take_damage 1).1) else m2.walls k) ∧
      (∀ a b : Int, (_trigger_explosion m2 x y).fire_grid a b =
        if ∃ d ∈ dirs8, ((a, b) : Pos) = (x + d.1, y + d.2) ∧ inBounds m2 a b ∧
            m2.fire_grid a b = .clear
        then .smoke else m2.fire_grid a b) ∧
      (_trigger_explosion m2 x y).cell_types = m2.cell_types ∧
      (_trigger_explosion m2 x y).pois = m2.pois ∧
      (_trigger_explosion m2 x y).firefighters = m2.firefighters ∧
      (_trigger_explosion m2 x y).rescued_pois = m2.rescued_pois) := by
  have hfold := check_fold_filter m rex (cellsRowMajor m) m
    (fun a b => Iff.rfl) rfl
  refine ⟨hfold, ?_, ?_⟩
  · rw [show check_explosions m rex = _ from hfold, foldl_trigger_count]
  · intro m2 x y
    obtain ⟨h1, h2, h3, h4, h5, h6, h7, h8, h9⟩ := trigger_explosion_spec m2 x y
    exact ⟨h1, h8, h9, h4, h5, h6, h7⟩

/-! ## Firefighter action primitives (C3, C8, C10) -/

/-- `FirefighterAgent.move_to(new_x, new_y)` for the firefighter at list
index `i`: requires an action point and a traversable step; on success
updates the position and consumes exactly 1 AP. -/
def move_to (m : Model) (i : Nat) (new_x new_y : Int) : Model × Bool :=
  match m.firefighters[i]? with
  | none => (m, false)
  | some ff =>
    if ff.action_points ≤ 0 then (m, false)
    else if ¬ can_move_between m ff.x ff.y new_x new_y then (m, false)
    else
      let ff2 : Firefighter := { ff with
        x := new_x
        y := new_y
        action_points := ff.action_points - 1 }
      ({ m with firefighters := m.firefighters.set i ff2 }, true)

/-- `FirefighterAgent.extinguish_fire()`: Fire→Smoke or Smoke→Clear at
the current cell, consuming 1 AP; fails on Clear or without AP. -/
def extinguish_fire (m : Model) (i : Nat) : Model × Bool :=
  match m.firefighters[i]? with
  | none => (m, false)
  | some ff =>
    if ff.action_points ≤ 0 then (m, false)
    else
      match get_fire_state m ff.x ff.y with
      | .fire =>
        let ff2 : Firefighter := { ff with action_points := ff.action_points - 1 }
        ({ (set_fire_state m ff.x ff.y .smoke) with
            firefighters := m.firefighters.set i ff2 }, true)
      | .smoke =>
        let ff2 : Firefighter := { ff with action_points := ff.action_points - 1 }
        ({ (set_fire_state m ff.x ff.y .clear) with
            firefighters := m.firefighters.set i ff2 }, true)
      | .clear => (m, false)

/-- `FirefighterAgent.pickup_poi()`: with an AP and empty hands, pick up
the POI at the current cell; an unrevealed POI is revealed first, and a
false alarm is deleted from the registry (the AP is still consumed). -/
def pickup_poi (m : Model) (i : Nat) : Model × Bool :=
  match m.firefighters[i]? with
  | none => (m, false)
  | some ff =>
    if ff.action_points ≤ 0 ∨ ff.carrying_poi.isSome then (m, false)
    else
      match get_poi_at m ff.x ff.y with
      | none => (m, false)
      | some poi =>
        if poi.is_rescued then (m, false)
        else if ¬ poi.is_revealed ∧ poi.is_false_alarm then
          let ff2 : Firefighter := { ff with action_points := ff.action_points - 1 }
          ({ (remove_poi m poi.poi_id) with
              firefighters := m.firefighters.set i ff2 }, true)
        else
          let ff2 : Firefighter := { ff with
            carrying_poi := some poi.poi_id
            action_points := ff.action_points - 1 }
          ({ m with
              pois := m.pois.map (fun p =>
                if p.poi_id = poi.poi_id then
                  { p with is_revealed := true, carried_by := some i }
                else p),
              firefighters := m.firefighters.set i ff2 }, true)

/-- `FirefighterAgent.drop_poi_at_exit()`: succeeds exactly when carrying
and standing on an Exit cell; marks the POI rescued, clears both sides of
the carry link, and increments `rescued_pois`.  It never consults or
consumes action points. -/
def drop_poi_at_exit (m : Model) (i : Nat) : Model × Bool :=
  match m.firefighters[i]? with
  | none => (m, false)
  | some ff =>
    match ff.carrying_poi with
    | none => (m, false)
    | some pid =>
      if is_exit m ff.x ff.y then
        let ff2 : Firefighter := { ff with carrying_poi := none }
        ({ m with
            pois := m.pois.map (fun p =>
              if p.poi_id = pid then
                { p with is_rescued := true, carried_by := none }
              else p),
            firefighters := m.firefighters.set i ff2,
            rescued_pois := m.rescued_pois + 1 }, true)
      else (m, false)

/-! ## C3: action points -/

/-- A model whose only firefighter stands on an exit, carries POI 0, and
has zero action points. -/
def poiC3 : POI :=
  { poi_id := 0, x := 0, y := 0, is_false_alarm := false
    is_revealed := true, is_rescued := false, carried_by := some 0 }

def ffC3 : Firefighter :=
  { unique_id := 0, x := 0, y := 0, action_points := 0
    max_action_points := 4, carrying_poi := some 0, role := .unassigned }

def mC3 : Model :=
  { width := 1, height := 1, wall_health := 2, rescued_pois := 0
    explosion_count := 0, fire_grid := fun _ _ => .clear
    cell_types := fun _ _ => .exit, walls := fun _ => none
    pois := [poiC3], firefighters := [ffC3] }

/-- Counterexample to C3 as stated: with `actionPoints = 0`,
`drop_poi_at_exit` still succeeds and changes state (the POI is rescued
and `rescued_pois` increments), and no action point is consumed. -/
theorem drop_ignores_action_points :
    (mC3.firefighters[0]?.map Firefighter.action_points = some 0) ∧
    (drop_poi_at_exit mC3 0).2 = true ∧
    (drop_poi_at_exit mC3 0).1.rescued_pois = 1 ∧
    mC3.rescued_pois = 0 ∧
    ((drop_poi_at_exit mC3 0).1.firefighters[0]?.map Firefighter.action_points
      = some 0) := by
  refine ⟨by decide, by decide, by decide, by decide, by decide⟩

/-- C3 (amended): `move_to`, `extinguish_fire` and `pickup_poi` require
`actionPoints > 0` — at 0 they fail with no state change — and consume
exactly 1 AP on success; `drop_poi_at_exit`, by contrast, never consults
action points: it succeeds exactly when the firefighter is carrying and
standing on an exit, and leaves every firefighter's action points
unchanged (so it can succeed at 0 AP). -/
theorem action_points_contract (m : Model) (i : Nat) (nx ny : Int) :
    (∀ ff, m.firefighters[i]? = some ff → ff.action_points ≤ 0 →
      move_to m i nx ny = (m, false) ∧
      extinguish_fire m i = (m, false) ∧
      pickup_poi m i = (m, false)) ∧
    ((move_to m i nx ny).2 = true →
      ∃ ff, m.firefighters[i]? = some ff ∧ 0 < ff.action_points ∧
        ((move_to m i nx ny).1.firefighters[i]?.map Firefighter.action_points)
          = some (ff.action_points - 1)) ∧
    ((extinguish_fire m i).2 = true →
      ∃ ff, m.firefighters[i]? = some ff ∧ 0 < ff.action_points ∧
        ((extinguish_fire m i).1.firefighters[i]?.map Firefighter.action_points)
          = some (ff.action_points - 1)) ∧
    ((pickup_poi m i).2 = true →
      ∃ ff, m.firefighters[i]? = some ff ∧ 0 < ff.action_points ∧
        ((pickup_poi m i).1.firefighters[i]?.map Firefighter.action_points)
          = some (ff.action_points - 1)) ∧
    ((drop_poi_at_exit m i).2 = true ↔
      ∃ ff pid, m.firefighters[i]? = some ff ∧ ff.carrying_poi = some pid ∧
        is_exit m ff.x ff.y = true) ∧
    (∀ j : Nat,
      ((drop_poi_at_exit m i).1.firefighters[j]?.map Firefighter.action_points)
        = (m.firefighters[j]?.map Firefighter.action_points)) := by
  refine ⟨?_, ?_, ?_, ?_, ?_, ?_⟩
  · intro ff hff hap
    refine ⟨?_, ?_, ?_⟩
    · simp only [move_to, hff]
      rw [if_pos hap]
    · simp only [extinguish_fire, hff]
      rw [if_pos hap]
    · simp only [pickup_poi, hff]
      rw [if_pos (Or.inl hap)]
  · intro hs
    cases hff : m.firefighters[i]? with
    | none =>
      simp only [move_to, hff] at hs
      exact Bool.noConfusion hs
    | some ff =>
      simp only [move_to, hff] at hs ⊢
      have hlen : i < m.firefighters.length :=
        (List.getElem?_eq_some.mp hff).1
      by_cases hap : ff.action_points ≤ 0
      · rw [if_pos hap] at hs
        simp at hs
      · rw [if_neg hap] at hs ⊢
        by_cases hcm : ¬ can_move_between m ff.x ff.y nx ny = true
        · rw [if_pos hcm] at hs
          simp at hs
        · rw [if_neg hcm] at hs ⊢
          refine ⟨ff, rfl, by omega, ?_⟩
          dsimp only
          rw [List.getElem?_set_self hlen]
          rfl
  · intro hs
    cases hff : m.firefighters[i]? with
    | none =>
      simp only [extinguish_fire, hff] at hs
      exact Bool.noConfusion hs
    | some ff =>
      simp only [extinguish_fire, hff] at hs ⊢
      have hlen : i < m.firefighters.length :=
        (List.getElem?_eq_some.mp hff).1
      by_cases hap : ff.action_points ≤ 0
      · rw [if_pos hap] at hs
        simp at hs
      · rw [if_neg hap] at hs ⊢
        cases hgs : get_fire_state m ff.x ff.y with
        | clear =>
          rw [hgs] at hs
          simp at hs
        | smoke =>
          refine ⟨ff, rfl, by omega, ?_⟩
          dsimp only
          rw [List.getElem?_set_self hlen]
          rfl
        | fire =>
          refine ⟨ff, rfl, by omega, ?_⟩
          dsimp only
          rw [List.getElem?_set_self hlen]
          rfl
  · intro hs
    cases hff : m.firefighters[i]? with
    | none =>
      simp only [pickup_poi, hff] at hs
      exact Bool.noConfusion hs
    | some ff =>
      simp only [pickup_poi, hff] at hs ⊢
      have hlen : i < m.firefighters.length :=
        (List.getElem?_eq_some.mp hff).1
      by_cases hap : ff.action_points ≤ 0 ∨ ff.carrying_poi.isSome
      · rw [if_pos hap] at hs
        simp at hs
      · rw [if_neg hap] at hs ⊢
        push_neg at hap
        cases hpoi : get_poi_at m ff.x ff.y with
        | none =>
          rw [hpoi] at hs
          simp at hs
        | some poi =>
          rw [hpoi] at hs
          dsimp only at hs ⊢
          by_cases hr : poi.is_rescued = true
          · rw [if_pos hr] at hs
            simp at hs
          · rw [if_neg hr]
            by_cases hfa : ¬ poi.is_revealed = true ∧ poi.is_false_alarm = true
            · rw [if_pos hfa]
              refine ⟨ff, rfl, by omega, ?_⟩
              dsimp only
              rw [List.getElem?_set_self hlen]
              rfl
            · rw [if_neg hfa]
              refine ⟨ff, rfl, by omega, ?_⟩
              dsimp only
              rw [List.getElem?_set_self hlen]
              rfl
  · cases hff : m.firefighters[i]? with
    | none =>
      simp only [drop_poi_at_exit, hff]
      constructor
      · intro hs
        simp at hs
      · rintro ⟨ff, pid, hcontra, -⟩
        exact absurd hcontra (by simp)
    | some ff =>
      simp only [drop_poi_at_exit, hff]
      cases hc : ff.carrying_poi with
      | none =>
        constructor
        · intro hs
          simp at hs
        · rintro ⟨ff2, pid, hff2, hc2, -⟩
          rw [Option.some_inj] at hff2
          rw [← hff2, hc] at hc2
          exact absurd hc2 (by simp)
      | some pid =>
        dsimp only
        by_cases hex : is_exit m ff.x ff.y = true
        · rw [if_pos hex]
          exact ⟨fun _ => ⟨ff, pid, rfl, hc, hex⟩, fun _ => rfl⟩
        · rw [if_neg hex]
          constructor
          · intro hs
            simp at hs
          · rintro ⟨ff2, pid2, hff2, -, hex2⟩
            rw [Option.some_inj] at hff2
            rw [← hff2] at hex2
            exact absurd hex2 hex
  · intro j
    cases hff : m.firefighters[i]? with
    | none =>
      simp only [drop_poi_at_exit, hff]
    | some ff =>
      simp only [drop_poi_at_exit, hff]
      cases hc : ff.carrying_poi with
      | none => rfl
      | some pid =>
        dsimp only
        by_cases hex : is_exit m ff.x ff.y = true
        · rw [if_pos hex]
          dsimp only
          by_cases hij : i = j
          · subst hij
            have hlen : i < m.firefighters.length :=
              (List.getElem?_eq_some.mp hff).1
            rw [List.getElem?_set_self hlen, hff]
            rfl
          · rw [List.getElem?_set_ne hij]
        · rw [if_neg hex]

/-- Witness for C3: the fail-at-0-AP clause applied to the concrete
zero-AP model. -/
theorem action_points_contract_witness :
    move_to mC3 0 1 0 = (mC3, false) ∧
    extinguish_fire mC3 0 = (mC3, false) ∧
    pickup_poi mC3 0 = (mC3, false) :=
  (action_points_contract mC3 0 1 0).1
    ffC3 (by decide) (by decide)

/-! ## Construction (`FlashPointModel.__init__`), for C9 and C8 -/

/-- Pointwise update of the cell-type grid. -/
def setCellT (g : Int → Int → CellType) (x y : Int) (v : CellType) :
    Int → Int → CellType :=
  fun a b => if a = x ∧ b = y then v else g a b

/-- `FlashPointModel._setup_exits()`: the four fixed exit cells, each
guarded by a bounds check. -/
def _setup_exits (m : Model) : Model :=
  ([(0, 3), (0, 4), (9, 3), (9, 4)] : List Pos).foldl
    (fun acc c =>
      if inBounds acc c.1 c.2 then
        { acc with cell_types := setCellT acc.cell_types c.1 c.2 .exit }
      else acc) m

/-- `FlashPointModel._is_valid_wall(x1, y1, x2, y2)`. -/
def _is_valid_wall (m : Model) (x1 y1 x2 y2 : Int) : Prop :=
  inBounds m x1 y1 ∧ inBounds m x2 y2 ∧
    (((x1 - x2).natAbs = 1 ∧ y1 = y2) ∨ ((y1 - y2).natAbs = 1 ∧ x1 = x2))

instance (m : Model) (x1 y1 x2 y2 : Int) :
    Decidable (_is_valid_wall m x1 y1 x2 y2) :=
  inferInstanceAs (Decidable (_ ∧ _ ∧ (_ ∨ _)))

/-- The fixed interior wall segments of `_create_walls`. -/
def interior_walls : List (Pos × Pos) :=
  [((2, 1), (2, 2)), ((2, 2), (2, 3)),
   ((6, 1), (6, 2)), ((6, 2), (6, 3)),
   ((1, 2), (2, 2)), ((3, 2), (4, 2)),
   ((5, 2), (6, 2)), ((7, 2), (8, 2))]

/-- `FlashPointModel._create_walls()`: an east and a south wall for every
grid cell (full lattice), then the fixed interior segments where valid
and not already present. -/
def _create_walls (m : Model) : Model :=
  let m1 := (cellsRowMajor m).foldl
    (fun acc c =>
      let acc2 :=
        if c.1 < acc.width - 1 then
          { acc with walls := fun k =>
              if k = (c.1, c.2, c.1 + 1, c.2)
              then some (Wall.new acc.wall_health) else acc.walls k }
        else acc
      if c.2 < acc2.height - 1 then
        { acc2 with walls := fun k =>
            if k = (c.1, c.2, c.1, c.2 + 1)
            then some (Wall.new acc2.wall_health) else acc2.walls k }
      else acc2) m
  interior_walls.foldl
    (fun acc w =>
      if _is_valid_wall acc w.1.1 w.1.2 w.2.1 w.2.2 then
        if (acc.walls (get_wall_key w.1.1 w.1.2 w.2.1 w.2.2)).isSome then acc
        else
          { acc with walls := fun k =>
              if k = get_wall_key w.1.1 w.1.2 w.2.1 w.2.2
              then some (Wall.new acc.wall_health) else acc.walls k }
      else acc) m1

/-- The fixed firefighter start positions. -/
def start_positions : List Pos := [(1, 3), (1, 4), (8, 3), (8, 4), (4, 0)]

/-- `FlashPointModel._place_firefighters(num)`, success path: one agent
per index in `range(min(num, 5))` at the fixed start positions — a
negative or zero count simply creates no agents, an oversized count is
clamped to the 5 start positions.  `grid.place_agent` additionally
raises `IndexError` when a used start position lies outside the board;
that failure path is modeled by `place_ff_loop` below, and this total
function agrees with it whenever it succeeds. -/
def _place_firefighters (m : Model) (num : Int) : Model :=
  (List.range (min num 5).toNat).foldl
    (fun acc i =>
      match start_positions[i]? with
      | some c =>
        { acc with firefighters := acc.firefighters ++ [Firefighter.new i c.1 c.2] }
      | none => acc) m

/-- The fixed hotspot cells of `_place_initial_fires`. -/
def hotspots : List Pos := [(3, 3), (6, 4), (4, 6)]

/-- `FlashPointModel._place_initial_fires()`. -/
def _place_initial_fires (m : Model) : Model :=
  hotspots.foldl
    (fun acc c =>
      if inBounds acc c.1 c.2 then
        { acc with
            fire_grid := setCell acc.fire_grid c.1 c.2 .fire
            cell_types := setCellT acc.cell_types c.1 c.2 .hotspot }
      else acc) m

/-- `FlashPointModel._place_pois(num)`, success path (`num ≥ 0`), with
the `random.sample` result supplied as the explicit input `positions`
and the per-POI false-alarm draws as `ra` (threshold 0.3).  In every
real execution `positions` consists of `min(num, |eligible|)` distinct
draws from `eligible_poi_cells` — `random.sample`'s contract — which the
fallible `FlashPointModel_init?` below and its counterexample
instantiate; `random.sample` raises `ValueError` for `num < 0`, a
failure path modeled there as well. -/
def _place_pois (m : Model) (positions : List Pos) (ra : Nat → ℚ) : Model :=
  let newPois := positions.enum.map
    (fun ic => POI.new ic.1 ic.2.1 ic.2.2 (decide (ra ic.1 < 3/10)))
  { m with pois := m.pois ++ newPois }

/-- `FlashPointModel.__init__`, success path: field initialisation
followed by the setup passes.  `initial_pois` itself only bounds the
sample size of `random.sample`, which is modeled by the explicit
`positions` input.  The constructor performs no explicit validation, but
three library calls can raise — `np.zeros((height, width))` on a
negative dimension, `grid.place_agent` on an out-of-board start
position, `random.sample` on a negative `initial_pois` — and those
failure paths are modeled by `FlashPointModel_init?` below, which
returns `some` of exactly this total pipeline whenever no error is
hit. -/
def init_base (width height wall_health : Int) : Model :=
  { width := width, height := height, wall_health := wall_health
    rescued_pois := 0, explosion_count := 0
    fire_grid := fun _ _ => .clear
    cell_types := fun _ _ => .normal
    walls := fun _ => none, pois := [], firefighters := [] }

def FlashPointModel_init (width height num_firefighters : Int)
    (_initial_pois wall_health : Int) (positions : List Pos)
    (ra : Nat → ℚ) : Model :=
  _place_pois
    (_place_initial_fires
      (_place_firefighters (_create_walls (_setup_exits
        (init_base width height wall_health))) num_firefighters))
    positions ra

/-! ## C9: constructor validation and failure paths -/

theorem foldl_preserve {α β : Type} (proj : Model → β) (f : Model → α → Model)
    (hf : ∀ acc a, proj (f acc a) = proj acc) :
    ∀ (l : List α) (acc : Model), proj (l.foldl f acc) = proj acc := by
  intro l
  induction l with
  | nil => intro acc; rfl
  | cons a l ih =>
    intro acc
    rw [List.foldl_cons, ih, hf]

theorem setup_exits_proj (m : Model) :
    (_setup_exits m).width = m.width ∧ (_setup_exits m).height = m.height ∧
    (_setup_exits m).firefighters = m.firefighters ∧
    (_setup_exits m).pois = m.pois ∧
    (_setup_exits m).wall_health = m.wall_health := by
  unfold _setup_exits
  refine ⟨foldl_preserve (fun mm => mm.width) _ ?_ _ m,
    foldl_preserve (fun mm => mm.height) _ ?_ _ m,
    foldl_preserve (fun mm => mm.firefighters) _ ?_ _ m,
    foldl_preserve (fun mm => mm.pois) _ ?_ _ m,
    foldl_preserve (fun mm => mm.wall_health) _ ?_ _ m⟩ <;>
  · intro acc a
    split_ifs <;> rfl

theorem create_walls_proj (m : Model) :
    (_create_walls m).width = m.width ∧ (_create_walls m).height = m.height ∧
    (_create_walls m).firefighters = m.firefighters ∧
    (_create_walls m).pois = m.pois := by
  unfold _create_walls
  refine ⟨(foldl_preserve (fun mm => mm.width) _ ?_ _ _).trans
      (foldl_preserve (fun mm => mm.width) _ ?_ _ m),
    (foldl_preserve (fun mm => mm.height) _ ?_ _ _).trans
      (foldl_preserve (fun mm => mm.height) _ ?_ _ m),
    (foldl_preserve (fun mm => mm.firefighters) _ ?_ _ _).trans
      (foldl_preserve (fun mm => mm.firefighters) _ ?_ _ m),
    (foldl_preserve (fun mm => mm.pois) _ ?_ _ _).trans
      (foldl_preserve (fun mm => mm.pois) _ ?_ _ m)⟩ <;>
  · intro acc a
    dsimp only
    split_ifs <;> rfl

theorem place_fires_proj (m : Model) :
    (_place_initial_fires m).width = m.width ∧
    (_place_initial_fires m).height = m.height ∧
    (_place_initial_fires m).firefighters = m.firefighters ∧
    (_place_initial_fires m).pois = m.pois := by
  unfold _place_initial_fires
  refine ⟨foldl_preserve (fun mm => mm.width) _ ?_ _ m,
    foldl_preserve (fun mm => mm.height) _ ?_ _ m,
    foldl_preserve (fun mm => mm.firefighters) _ ?_ _ m,
    foldl_preserve (fun mm => mm.pois) _ ?_ _ m⟩ <;>
  · intro acc a
    split_ifs <;> rfl

theorem place_firefighters_facts :
    ∀ (l : List Nat) (acc : Model), (∀ i ∈ l, i < 5) →
      ((l.foldl (fun acc i =>
        match start_positions[i]? with
        | some c =>
          { acc with firefighters := acc.firefighters ++ [Firefighter.new i c.1 c.2] }
        | none => acc) acc).firefighters.length
          = acc.firefighters.length + l.length) ∧
      ((l.foldl (fun acc i =>
        match start_positions[i]? with
        | some c =>
          { acc with firefighters := acc.firefighters ++ [Firefighter.new i c.1 c.2] }
        | none => acc) acc).width = acc.width) ∧
      ((l.foldl (fun acc i =>
        match start_positions[i]? with
        | some c =>
          { acc with firefighters := acc.firefighters ++ [Firefighter.new i c.1 c.2] }
        | none => acc) acc).height = acc.height) ∧
      ((l.foldl (fun acc i =>
        match start_positions[i]? with
        | some c =>
          { acc with firefighters := acc.firefighters ++ [Firefighter.new i c.1 c.2] }
        | none => acc) acc).pois = acc.pois) := by
  intro l
  induction l with
  | nil =>
    intro acc _
    exact ⟨rfl, rfl, rfl, rfl⟩
  | cons i l ih =>
    intro acc hl
    have hi : i < 5 := hl i (List.mem_cons_self _ _)
    obtain ⟨c, hc⟩ : ∃ c, start_positions[i]? = some c := by
      interval_cases i <;> exact ⟨_, rfl⟩
    rw [List.foldl_cons]
    rw [hc]
    obtain ⟨ih1, ih2, ih3, ih4⟩ :=
      ih { acc with firefighters := acc.firefighters ++ [Firefighter.new i c.1 c.2] }
        (fun j hj => hl j (List.mem_cons_of_mem _ hj))
    refine ⟨?_, ?_, ?_, ?_⟩
    · rw [ih1]
      simp only [List.length_append, List.length_cons, List.length_nil]
      omega
    · rw [ih2]
    · rw [ih3]
    · rw [ih4]

/-- Field content of the successful construction pipeline: the
firefighter count is clamped into `[0, 5]` by `range(min(num, 5))`
(negative counts create zero agents), one POI is created per sampled
position, and the given dimensions are stored as passed. -/
theorem init_fields (w h nf np wh : Int) (ps : List Pos)
    (ra : Nat → ℚ) :
    (FlashPointModel_init w h nf np wh ps ra).firefighters.length
      = (min nf 5).toNat ∧
    (FlashPointModel_init w h nf np wh ps ra).pois.length = ps.length ∧
    (FlashPointModel_init w h nf np wh ps ra).width = w ∧
    (FlashPointModel_init w h nf np wh ps ra).height = h := by
  have hrange : ∀ i ∈ List.range (min nf 5).toNat, i < 5 := by
    intro i hi
    rw [List.mem_range] at hi
    omega
  obtain ⟨e1, e2, e3, e4, e5⟩ := setup_exits_proj (init_base w h wh)
  obtain ⟨c1, c2, c3, c4⟩ := create_walls_proj (_setup_exits (init_base w h wh))
  obtain ⟨f1, f2, f3, f4⟩ :=
    place_firefighters_facts (List.range (min nf 5).toNat)
      (_create_walls (_setup_exits (init_base w h wh))) hrange
  obtain ⟨p1, p2, p3, p4⟩ := place_fires_proj
    (_place_firefighters (_create_walls (_setup_exits (init_base w h wh))) nf)
  have hpp_w : ∀ mm : Model, (_place_pois mm ps ra).width = mm.width :=
    fun _ => rfl
  have hpp_h : ∀ mm : Model, (_place_pois mm ps ra).height = mm.height :=
    fun _ => rfl
  have hpp_f : ∀ mm : Model,
      (_place_pois mm ps ra).firefighters = mm.firefighters := fun _ => rfl
  have hpp_p : ∀ mm : Model,
      (_place_pois mm ps ra).pois.length = mm.pois.length + ps.length := by
    intro mm
    show (mm.pois ++ _).length = _
    rw [List.length_append, List.length_map, List.enum_length]
  have hplf : _place_firefighters (_create_walls (_setup_exits (init_base w h wh))) nf
      = (List.range (min nf 5).toNat).foldl
        (fun acc i =>
          match start_positions[i]? with
          | some c =>
            { acc with firefighters := acc.firefighters ++ [Firefighter.new i c.1 c.2] }
          | none => acc)
        (_create_walls (_setup_exits (init_base w h wh))) := rfl
  refine ⟨?_, ?_, ?_, ?_⟩
  · show (_place_pois _ ps ra).firefighters.length = _
    rw [hpp_f, p3, hplf, f1, c3, e3]
    show (([] : List Firefighter)).length + _ = _
    simp
  · show (_place_pois _ ps ra).pois.length = _
    rw [hpp_p, p4, hplf, f4, c4, e4]
    show (([] : List POI)).length + _ = _
    simp
  · show (_place_pois _ ps ra).width = _
    rw [hpp_w, p1, hplf, f2, c1, e1]
    rfl
  · show (_place_pois _ ps ra).height = _
    rw [hpp_h, p2, hplf, f3, c2, e2]
    rfl

/-- The eligible POI cells of `_place_pois`: the row-major scan keeps
every cell that is fire-free, not an exit, and not occupied by a
firefighter. -/
def eligible_poi_cells (m : Model) : List Pos :=
  (cellsRowMajor m).filter (fun c =>
    m.fire_grid c.1 c.2 == FireState.clear &&
    m.cell_types c.1 c.2 != CellType.exit &&
    !(m.firefighters.any (fun ff => ff.x == c.1 && ff.y == c.2)))

/-- The `_place_firefighters` loop with its failure path:
`grid.place_agent(firefighter, (x, y))` indexes the width-by-height grid
lists, raising `IndexError` — aborting construction — when the fixed
(non-negative) start position has `x ≥ width` or `y ≥ height`. -/
def place_ff_loop (m : Model) : List Nat → Option Model
  | [] => some m
  | i :: rest =>
    match start_positions[i]? with
    | none => place_ff_loop m rest
    | some c =>
      if c.1 ≥ m.width ∨ c.2 ≥ m.height then none
      else place_ff_loop
        { m with firefighters := m.firefighters ++ [Firefighter.new i c.1 c.2] }
        rest

/-- `FlashPointModel.__init__` with its failure paths, in source order:
`np.zeros((height, width))` raises `ValueError` on a negative dimension;
`grid.place_agent` raises `IndexError` on an out-of-board start
position; `random.sample` raises `ValueError` on a negative
`initial_pois`.  Any raise aborts construction (`none`); otherwise the
result is the total success pipeline. -/
def FlashPointModel_init? (width height num_firefighters : Int)
    (initial_pois wall_health : Int) (sample : List Pos)
    (ra : Nat → ℚ) : Option Model :=
  if width < 0 ∨ height < 0 then none
  else
    match place_ff_loop (_create_walls (_setup_exits
        (init_base width height wall_health)))
        (List.range (min num_firefighters 5).toNat) with
    | none => none
    | some m2 =>
      if initial_pois < 0 then none
      else some (_place_pois (_place_initial_fires m2) sample ra)

theorem place_ff_loop_isSome :
    ∀ (l : List Nat) (m : Model),
      (place_ff_loop m l).isSome = true ↔
        ∀ i ∈ l, ∀ c, start_positions[i]? = some c →
          c.1 < m.width ∧ c.2 < m.height := by
  intro l
  induction l with
  | nil =>
    intro m
    refine iff_of_true rfl ?_
    intro i hi
    exact absurd hi (List.not_mem_nil i)
  | cons i rest ih =>
    intro m
    cases hc : start_positions[i]? with
    | none =>
      simp only [place_ff_loop, hc]
      rw [ih m]
      constructor
      · intro hall j hj c hcc
        rw [List.mem_cons] at hj
        rcases hj with rfl | hj
        · rw [hc] at hcc
          exact Option.noConfusion hcc
        · exact hall j hj c hcc
      · intro hall j hj
        exact hall j (List.mem_cons_of_mem _ hj)
    | some c =>
      simp only [place_ff_loop, hc]
      by_cases hg : c.1 ≥ m.width ∨ c.2 ≥ m.height
      · rw [if_pos hg]
        refine iff_of_false (fun hfalse => Bool.noConfusion hfalse) ?_
        intro hall
        obtain ⟨h1, h2⟩ := hall i (List.mem_cons_self _ _) c hc
        rcases hg with hg | hg <;> omega
      · rw [if_neg hg]
        rw [ih _]
        constructor
        · intro hall j hj c2 hcc
          rw [List.mem_cons] at hj
          rcases hj with rfl | hj
          · rw [hc] at hcc
            have hce : c = c2 := Option.some_inj.mp hcc
            subst hce
            constructor <;> omega
          · exact hall j hj c2 hcc
        · intro hall j hj
          exact hall j (List.mem_cons_of_mem _ hj)

theorem place_ff_loop_some :
    ∀ (l : List Nat) (m m2 : Model), place_ff_loop m l = some m2 →
      m2 = l.foldl (fun acc i =>
        match start_positions[i]? with
        | some c =>
          { acc with firefighters := acc.firefighters ++ [Firefighter.new i c.1 c.2] }
        | none => acc) m := by
  intro l
  induction l with
  | nil =>
    intro m m2 hm
    exact (Option.some_inj.mp hm).symm
  | cons i rest ih =>
    intro m m2 hm
    rw [List.foldl_cons]
    cases hc : start_positions[i]? with
    | none =>
      simp only [place_ff_loop, hc] at hm
      exact ih m m2 hm
    | some c =>
      simp only [place_ff_loop, hc] at hm
      by_cases hg : c.1 ≥ m.width ∨ c.2 ≥ m.height
      · rw [if_pos hg] at hm
        exact Option.noConfusion hm
      · rw [if_neg hg] at hm
        exact ih _ m2 hm

/-- C9 (amended): the constructor performs no explicit validation, but
some invalid inputs do fail fast through library errors, and an invalid
firefighter count is not one of them.  A negative width or height fails
(`np.zeros` raises `ValueError`); a negative `initial_pois` fails
(`random.sample` raises `ValueError`); construction succeeds exactly
when both dimensions and the POI count are non-negative and every start
position used by the (clamped) firefighter count fits on the board
(otherwise `grid.place_agent` raises `IndexError`).  On success the
result is the total setup pipeline: `min(num_firefighters, 5)` agents —
a negative count silently yields zero — and one POI per sampled
position, the dimensions stored as passed. -/
theorem init_validation (w h nf np wh : Int) (sample : List Pos)
    (ra : Nat → ℚ) :
    ((w < 0 ∨ h < 0) →
      FlashPointModel_init? w h nf np wh sample ra = none) ∧
    (np < 0 → FlashPointModel_init? w h nf np wh sample ra = none) ∧
    ((FlashPointModel_init? w h nf np wh sample ra).isSome = true ↔
      0 ≤ w ∧ 0 ≤ h ∧ 0 ≤ np ∧
        ∀ i ∈ List.range (min nf 5).toNat, ∀ c,
          start_positions[i]? = some c → c.1 < w ∧ c.2 < h) ∧
    (∀ m2, FlashPointModel_init? w h nf np wh sample ra = some m2 →
      m2 = FlashPointModel_init w h nf np wh sample ra ∧
      m2.firefighters.length = (min nf 5).toNat ∧
      m2.pois.length = sample.length ∧ m2.width = w ∧ m2.height = h) := by
  have hMw : (_create_walls (_setup_exits (init_base w h wh))).width = w := by
    obtain ⟨e1, -, -, -, -⟩ := setup_exits_proj (init_base w h wh)
    obtain ⟨c1, -, -, -⟩ := create_walls_proj (_setup_exits (init_base w h wh))
    rw [c1, e1]
    rfl
  have hMh : (_create_walls (_setup_exits (init_base w h wh))).height = h := by
    obtain ⟨-, e2, -, -, -⟩ := setup_exits_proj (init_base w h wh)
    obtain ⟨-, c2, -, -⟩ := create_walls_proj (_setup_exits (init_base w h wh))
    rw [c2, e2]
    rfl
  refine ⟨?_, ?_, ?_, ?_⟩
  · intro hd
    unfold FlashPointModel_init?
    rw [if_pos hd]
  · intro hnp
    unfold FlashPointModel_init?
    by_cases hd : w < 0 ∨ h < 0
    · rw [if_pos hd]
    · rw [if_neg hd]
      cases hloop : place_ff_loop (_create_walls (_setup_exits
          (init_base w h wh))) (List.range (min nf 5).toNat) with
      | none => rfl
      | some m2 =>
        dsimp only
        rw [if_pos hnp]
  · unfold FlashPointModel_init?
    by_cases hd : w < 0 ∨ h < 0
    · rw [if_pos hd]
      refine iff_of_false (fun hc => Bool.noConfusion hc) ?_
      intro hc
      obtain ⟨h1, h2, -⟩ := hc
      rcases hd with hd | hd <;> omega
    · rw [if_neg hd]
      cases hloop : place_ff_loop (_create_walls (_setup_exits
          (init_base w h wh))) (List.range (min nf 5).toNat) with
      | none =>
        refine iff_of_false (fun hc => Bool.noConfusion hc) ?_
        intro hc
        obtain ⟨-, -, -, hall⟩ := hc
        have hall2 : ∀ i ∈ List.range (min nf 5).toNat, ∀ c,
            start_positions[i]? = some c →
            c.1 < (_create_walls (_setup_exits (init_base w h wh))).width ∧
            c.2 < (_create_walls (_setup_exits (init_base w h wh))).height := by
          intro i hi c hcc
          rw [hMw, hMh]
          exact hall i hi c hcc
        have hs := (place_ff_loop_isSome _ _).mpr hall2
        rw [hloop] at hs
        exact Bool.noConfusion hs
      | some mloop =>
        dsimp only
        by_cases hnp : np < 0
        · rw [if_pos hnp]
          refine iff_of_false (fun hc => Bool.noConfusion hc) ?_
          intro hc
          obtain ⟨-, -, h3, -⟩ := hc
          omega
        · rw [if_neg hnp]
          refine iff_of_true rfl ?_
          have hs : (place_ff_loop (_create_walls (_setup_exits
              (init_base w h wh)))
              (List.range (min nf 5).toNat)).isSome = true := by
            rw [hloop]
            rfl
          have hall := (place_ff_loop_isSome _ _).mp hs
          refine ⟨by omega, by omega, by omega, ?_⟩
          intro i hi c hcc
          have hb := hall i hi c hcc
          rw [hMw, hMh] at hb
          exact hb
  · intro m2 hm2
    unfold FlashPointModel_init? at hm2
    by_cases hd : w < 0 ∨ h < 0
    · rw [if_pos hd] at hm2
      exact Option.noConfusion hm2
    · rw [if_neg hd] at hm2
      cases hloop : place_ff_loop (_create_walls (_setup_exits
          (init_base w h wh))) (List.range (min nf 5).toNat) with
      | none =>
        rw [hloop] at hm2
        exact Option.noConfusion hm2
      | some mloop =>
        rw [hloop] at hm2
        dsimp only at hm2
        by_cases hnp : np < 0
        · rw [if_pos hnp] at hm2
          exact Option.noConfusion hm2
        · rw [if_neg hnp] at hm2
          have hval : _place_pois (_place_initial_fires mloop) sample ra
              = m2 := Option.some_inj.mp hm2
          have hml := place_ff_loop_some _ _ _ hloop
          have hinit : m2 = FlashPointModel_init w h nf np wh sample ra := by
            rw [← hval, hml]
            rfl
          obtain ⟨f1, f2, f3, f4⟩ := init_fields w h nf np wh sample ra
          refine ⟨hinit, ?_, ?_, ?_, ?_⟩
          · rw [hinit]
            exact f1
          · rw [hinit]
            exact f2
          · rw [hinit]
            exact f3
          · rw [hinit]
            exact f4

/-- A concrete `random.sample` outcome for the counterexample board:
six distinct cells, each eligible (fire-free, not an exit, unoccupied),
of length `min(6, 73)` — exactly what `random.sample` returns there. -/
def sampleC9 : List Pos := [(0, 0), (1, 0), (2, 0), (3, 0), (4, 0), (5, 0)]

set_option maxRecDepth 40000 in
/-- Counterexample to C9 as stated: the invalid firefighter count −3
(with valid 10×8 dimensions and 6 requested POIs) is NOT rejected —
construction succeeds, silently creating zero firefighters while the
rest of the model (including the 6 sampled POIs) is built normally.
The sample used is a faithful `random.sample` outcome: 6 = min(6, 73)
distinct cells from the 73 eligible ones of the pre-POI state. -/
theorem init_count_not_validated :
    sampleC9.Nodup ∧
    (∀ c ∈ sampleC9, c ∈ eligible_poi_cells (_place_initial_fires
      (_place_firefighters (_create_walls (_setup_exits (init_base 10 8 2)))
        (-3)))) ∧
    sampleC9.length = min ((6 : Int).toNat)
      (eligible_poi_cells (_place_initial_fires
        (_place_firefighters (_create_walls (_setup_exits (init_base 10 8 2)))
          (-3)))).length ∧
    (FlashPointModel_init? 10 8 (-3) 6 2 sampleC9 (fun _ => 1)).isSome
      = true ∧
    (FlashPointModel_init? 10 8 (-3) 6 2 sampleC9 (fun _ => 1)).map
      (fun m2 => m2.firefighters.length) = some 0 ∧
    (FlashPointModel_init? 10 8 (-3) 6 2 sampleC9 (fun _ => 1)).map
      (fun m2 => m2.pois.length) = some 6 :=
  ⟨by decide, by decide, by decide, by decide, by decide, by decide⟩

set_option maxRecDepth 40000 in
/-- Witness for C9: the failure paths fire on concrete invalid inputs —
a negative height, a negative POI count, and a 3 by 3 board too small
for the first start position `(1, 3)`. -/
theorem init_validation_witness :
    FlashPointModel_init? 10 (-1) 5 6 2 [] (fun _ => 1) = none ∧
    FlashPointModel_init? 10 8 5 (-2) 2 [] (fun _ => 1) = none ∧
    (FlashPointModel_init? 3 3 1 6 2 [] (fun _ => 1)).isSome = false :=
  ⟨(init_validation 10 (-1) 5 6 2 [] (fun _ => 1)).1 (Or.inr (by decide)),
   (init_validation 10 8 5 (-2) 2 [] (fun _ => 1)).2.1 (by decide),
   by decide⟩

/-! ## C8: the carry-link invariant -/

/-- The id of the POI carried by firefighter index `i` (`none` for an
invalid index or for empty hands). -/
def ffCarrying (m : Model) (i : Nat) : Option Nat :=
  match m.firefighters[i]? with
  | some ff => ff.carrying_poi
  | none => none

/-- The carry-link invariant of the registry: POI ids are distinct; a
firefighter carrying `pid` is pointed back at (via `carried_by`) by a
unique live POI with that id; a POI's `carried_by` names a firefighter
that indeed carries it; and a rescued POI's `carried_by` is cleared. -/
def CarryInv (m : Model) : Prop :=
  (m.pois.map POI.poi_id).Nodup ∧
  (∀ i < m.firefighters.length, ∀ pid ∈ ffCarrying m i,
    ∃ p ∈ m.pois, p.poi_id = pid ∧ p.carried_by = some i ∧
      p.is_rescued = false) ∧
  (∀ p ∈ m.pois, ∀ j ∈ p.carried_by, ffCarrying m j = some p.poi_id) ∧
  (∀ p ∈ m.pois, p.is_rescued = true → p.carried_by = none)

instance (m : Model) : Decidable (CarryInv m) :=
  inferInstanceAs (Decidable (_ ∧ _ ∧ _ ∧ _))

theorem ffCarrying_eq {m : Model} {i : Nat} {ff : Firefighter}
    (hff : m.firefighters[i]? = some ff) :
    ffCarrying m i = ff.carrying_poi := by
  unfold ffCarrying
  rw [hff]

theorem ffCarrying_lt {m : Model} {i pid : Nat}
    (h : ffCarrying m i = some pid) : i < m.firefighters.length := by
  cases hg : m.firefighters[i]? with
  | none =>
    unfold ffCarrying at h
    rw [hg] at h
    simp at h
  | some ff =>
    obtain ⟨hlt, -⟩ := List.getElem?_eq_some_iff.mp hg
    exact hlt

theorem ffCarrying_set {m m' : Model} {i : Nat} {ff2 : Firefighter}
    (hfs : m'.firefighters = m.firefighters.set i ff2)
    (hi : i < m.firefighters.length) (j : Nat) :
    ffCarrying m' j = if j = i then ff2.carrying_poi else ffCarrying m j := by
  unfold ffCarrying
  rw [hfs]
  by_cases hj : j = i
  · subst hj
    rw [List.getElem?_set_self hi, if_pos rfl]
  · rw [List.getElem?_set_ne (fun he => hj he.symm), if_neg hj]

/-- An update that rewrites the POI with a given id but keeps every
`poi_id` leaves the id listing unchanged. -/
theorem poiUpd_map_id (l : List POI) (tid : Nat) (f : POI → POI)
    (hf : ∀ p, (f p).poi_id = p.poi_id) :
    (l.map (fun p => if p.poi_id = tid then f p else p)).map POI.poi_id
      = l.map POI.poi_id := by
  rw [List.map_map]
  refine List.map_congr_left ?_
  intro p _
  show (if p.poi_id = tid then f p else p).poi_id = p.poi_id
  by_cases hp : p.poi_id = tid
  · rw [if_pos hp, hf]
  · rw [if_neg hp]

/-- Changing one firefighter without touching its carried-POI reference
(and leaving the POIs alone) preserves the carry-link invariant. -/
theorem carryInv_set_same {m m' : Model} (h : CarryInv m) {i : Nat}
    {ff ff2 : Firefighter}
    (hff : m.firefighters[i]? = some ff)
    (hfs : m'.firefighters = m.firefighters.set i ff2)
    (hc : ff2.carrying_poi = ff.carrying_poi)
    (hps : m'.pois = m.pois) : CarryInv m' := by
  obtain ⟨hnd, hfwd, hbwd, hres⟩ := h
  have hi : i < m.firefighters.length := by
    obtain ⟨hlt, -⟩ := List.getElem?_eq_some_iff.mp hff
    exact hlt
  have hlen : m'.firefighters.length = m.firefighters.length := by
    rw [hfs, List.length_set]
  have hcar : ∀ j, ffCarrying m' j = ffCarrying m j := by
    intro j
    rw [ffCarrying_set hfs hi j]
    by_cases hj : j = i
    · subst hj
      rw [if_pos rfl, hc, ffCarrying_eq hff]
    · rw [if_neg hj]
  refine ⟨?_, ?_, ?_, ?_⟩
  · rw [hps]
    exact hnd
  · intro j hj pid hpid
    rw [Option.mem_def, hcar] at hpid
    rw [hlen] at hj
    obtain ⟨p, hp, h1, h2, h3⟩ := hfwd j hj pid (Option.mem_def.mpr hpid)
    refine ⟨p, ?_, h1, h2, h3⟩
    rw [hps]
    exact hp
  · intro p hp j hj
    rw [hps] at hp
    rw [hcar]
    exact hbwd p hp j hj
  · intro p hp
    rw [hps] at hp
    exact hres p hp

theorem mem_remove_poi {m : Model} {pid : Nat} {p : POI}
    (hp : p ∈ m.pois) (hne : ¬ p.poi_id = pid) :
    p ∈ (remove_poi m pid).pois := by
  unfold remove_poi
  dsimp only
  rw [List.mem_filter]
  refine ⟨hp, ?_⟩
  simp only [decide_eq_true_eq]
  exact hne

/-- Deleting a POI that nobody carries preserves the carry-link
invariant. -/
theorem carryInv_remove {m : Model} (h : CarryInv m) (pid : Nat)
    (hun : ∀ p ∈ m.pois, p.poi_id = pid → p.carried_by = none) :
    CarryInv (remove_poi m pid) := by
  obtain ⟨hnd, hfwd, hbwd, hres⟩ := h
  have hcar : ∀ j, ffCarrying (remove_poi m pid) j = ffCarrying m j :=
    fun j => rfl
  have hmemr : ∀ q ∈ (remove_poi m pid).pois, q ∈ m.pois := by
    intro q hq
    exact (List.mem_filter.mp hq).1
  refine ⟨?_, ?_, ?_, ?_⟩
  · exact ((List.filter_sublist m.pois).map POI.poi_id).nodup hnd
  · intro j hj pid' hpid'
    rw [Option.mem_def, hcar] at hpid'
    obtain ⟨p, hp, h1, h2, h3⟩ := hfwd j hj pid' (Option.mem_def.mpr hpid')
    refine ⟨p, ?_, h1, h2, h3⟩
    refine mem_remove_poi hp ?_
    intro hpe
    rw [hun p hp hpe] at h2
    exact Option.noConfusion h2
  · intro p hp j hj
    rw [hcar]
    exact hbwd p (hmemr p hp) j hj
  · intro p hp
    exact hres p (hmemr p hp)

theorem get_poi_at_spec {m : Model} {x y : Int} {poi : POI}
    (h : get_poi_at m x y = some poi) :
    poi ∈ m.pois ∧ poi.x = x ∧ poi.y = y ∧ poi.is_rescued = false ∧
      poi.carried_by = none := by
  unfold get_poi_at at h
  have hmem := List.mem_of_find?_eq_some h
  have hpred := List.find?_some h
  simp only [Bool.and_eq_true, beq_iff_eq, Bool.not_eq_true'] at hpred
  obtain ⟨⟨⟨h1, h2⟩, h3⟩, h4⟩ := hpred
  exact ⟨hmem, h1, h2, h3, h4⟩

/-- Establishing a fresh carry link: firefighter `i` (previously
empty-handed) takes the uncarried, unrescued POI `poi`, whose registry
entry is rewritten to `carried_by = some i`. -/
theorem carryInv_pickup_link {m m' : Model} (h : CarryInv m) {i : Nat}
    {ff ff2 : Firefighter} {poi : POI}
    (hff : m.firefighters[i]? = some ff)
    (hnone : ff.carrying_poi = none)
    (hmem : poi ∈ m.pois) (hcb : poi.carried_by = none)
    (hrs : poi.is_rescued = false)
    (hfs : m'.firefighters = m.firefighters.set i ff2)
    (hps : m'.pois = m.pois.map (fun p =>
      if p.poi_id = poi.poi_id then
        { p with is_revealed := true, carried_by := some i }
      else p))
    (hc2 : ff2.carrying_poi = some poi.poi_id) :
    CarryInv m' := by
  obtain ⟨hnd, hfwd, hbwd, hres⟩ := h
  have hi : i < m.firefighters.length := by
    obtain ⟨hlt, -⟩ := List.getElem?_eq_some_iff.mp hff
    exact hlt
  have hlen : m'.firefighters.length = m.firefighters.length := by
    rw [hfs, List.length_set]
  have hcar : ∀ j, ffCarrying m' j
      = if j = i then some poi.poi_id else ffCarrying m j := by
    intro j
    rw [ffCarrying_set hfs hi j, hc2]
  refine ⟨?_, ?_, ?_, ?_⟩
  · have hmap : m'.pois.map POI.poi_id = m.pois.map POI.poi_id := by
      rw [hps]
      exact poiUpd_map_id m.pois poi.poi_id
        (fun p => { p with is_revealed := true, carried_by := some i })
        (fun p => rfl)
    rw [hmap]
    exact hnd
  · intro j hj pid hpid
    rw [Option.mem_def, hcar] at hpid
    by_cases hji : j = i
    · rw [if_pos hji] at hpid
      subst hji
      refine ⟨{ poi with is_revealed := true, carried_by := some j }, ?_,
        Option.some_inj.mp hpid, rfl, hrs⟩
      rw [hps]
      refine List.mem_map.mpr ⟨poi, hmem, ?_⟩
      exact if_pos rfl
    · rw [if_neg hji] at hpid
      rw [hlen] at hj
      obtain ⟨p, hp, h1, h2, h3⟩ := hfwd j hj pid (Option.mem_def.mpr hpid)
      have hne : ¬ p.poi_id = poi.poi_id := by
        intro he
        have hpq : p = poi := List.inj_on_of_nodup_map hnd hp hmem he
        rw [hpq, hcb] at h2
        exact Option.noConfusion h2
      refine ⟨p, ?_, h1, h2, h3⟩
      rw [hps]
      refine List.mem_map.mpr ⟨p, hp, ?_⟩
      exact if_neg hne
  · intro q hq j hj
    rw [hps] at hq
    obtain ⟨p, hp, hpq⟩ := List.mem_map.mp hq
    have hpq' : (if p.poi_id = poi.poi_id then
        { p with is_revealed := true, carried_by := some i }
      else p) = q := hpq
    by_cases hpe : p.poi_id = poi.poi_id
    · rw [if_pos hpe] at hpq'
      subst hpq'
      rw [Option.mem_def] at hj
      have hji : i = j := Option.some_inj.mp hj
      subst hji
      rw [hcar, if_pos rfl]
      rw [Option.some_inj]
      exact hpe.symm
    · rw [if_neg hpe] at hpq'
      subst hpq'
      have hlink := hbwd p hp j hj
      have hji : ¬ j = i := by
        intro he
        subst he
        rw [ffCarrying_eq hff, hnone] at hlink
        exact Option.noConfusion hlink
      rw [hcar, if_neg hji]
      exact hlink
  · intro q hq hqr
    rw [hps] at hq
    obtain ⟨p, hp, hpq⟩ := List.mem_map.mp hq
    have hpq' : (if p.poi_id = poi.poi_id then
        { p with is_revealed := true, carried_by := some i }
      else p) = q := hpq
    by_cases hpe : p.poi_id = poi.poi_id
    · rw [if_pos hpe] at hpq'
      subst hpq'
      have hqr2 : p.is_rescued = true := hqr
      have hpq2 : p = poi := List.inj_on_of_nodup_map hnd hp hmem hpe
      rw [hpq2, hrs] at hqr2
      exact Bool.noConfusion hqr2
    · rw [if_neg hpe] at hpq'
      subst hpq'
      exact hres p hp hqr

/-- Dissolving a carry link at an exit: firefighter `i`, carrying `pid`,
empties its hands and the POI with that id becomes rescued with its
back-reference cleared. -/
theorem carryInv_drop_link {m m' : Model} (h : CarryInv m) {i pid : Nat}
    {ff ff2 : Firefighter}
    (hff : m.firefighters[i]? = some ff)
    (hcp : ff.carrying_poi = some pid)
    (hfs : m'.firefighters = m.firefighters.set i ff2)
    (hps : m'.pois = m.pois.map (fun p =>
      if p.poi_id = pid then { p with is_rescued := true, carried_by := none }
      else p))
    (hc2 : ff2.carrying_poi = none) :
    CarryInv m' := by
  obtain ⟨hnd, hfwd, hbwd, hres⟩ := h
  have hi : i < m.firefighters.length := by
    obtain ⟨hlt, -⟩ := List.getElem?_eq_some_iff.mp hff
    exact hlt
  have hlen : m'.firefighters.length = m.firefighters.length := by
    rw [hfs, List.length_set]
  have hcar : ∀ j, ffCarrying m' j
      = if j = i then none else ffCarrying m j := by
    intro j
    rw [ffCarrying_set hfs hi j, hc2]
  obtain ⟨p0, hp0, hp0id, hp0c, hp0r⟩ := hfwd i hi pid (by
    rw [Option.mem_def, ffCarrying_eq hff, hcp])
  refine ⟨?_, ?_, ?_, ?_⟩
  · have hmap : m'.pois.map POI.poi_id = m.pois.map POI.poi_id := by
      rw [hps]
      exact poiUpd_map_id m.pois pid
        (fun p => { p with is_rescued := true, carried_by := none })
        (fun p => rfl)
    rw [hmap]
    exact hnd
  · intro j hj pid' hpid'
    rw [Option.mem_def, hcar] at hpid'
    by_cases hji : j = i
    · rw [if_pos hji] at hpid'
      exact Option.noConfusion hpid'
    · rw [if_neg hji] at hpid'
      rw [hlen] at hj
      obtain ⟨p, hp, h1, h2, h3⟩ := hfwd j hj pid' (Option.mem_def.mpr hpid')
      have hne : ¬ p.poi_id = pid := by
        intro he
        have hpq : p = p0 := List.inj_on_of_nodup_map hnd hp hp0 (by
          rw [he, hp0id])
        rw [hpq, hp0c] at h2
        exact hji (Option.some_inj.mp h2).symm
      refine ⟨p, ?_, h1, h2, h3⟩
      rw [hps]
      refine List.mem_map.mpr ⟨p, hp, ?_⟩
      exact if_neg hne
  · intro q hq j hj
    rw [hps] at hq
    obtain ⟨p, hp, hpq⟩ := List.mem_map.mp hq
    have hpq' : (if p.poi_id = pid then
        { p with is_rescued := true, carried_by := none }
      else p) = q := hpq
    by_cases hpe : p.poi_id = pid
    · rw [if_pos hpe] at hpq'
      subst hpq'
      rw [Option.mem_def] at hj
      exact Option.noConfusion hj
    · rw [if_neg hpe] at hpq'
      subst hpq'
      have hlink := hbwd p hp j hj
      have hji : ¬ j = i := by
        intro he
        subst he
        rw [ffCarrying_eq hff, hcp] at hlink
        exact hpe (Option.some_inj.mp hlink).symm
      rw [hcar, if_neg hji]
      exact hlink
  · intro q hq hqr
    rw [hps] at hq
    obtain ⟨p, hp, hpq⟩ := List.mem_map.mp hq
    have hpq' : (if p.poi_id = pid then
        { p with is_rescued := true, carried_by := none }
      else p) = q := hpq
    by_cases hpe : p.poi_id = pid
    · rw [if_pos hpe] at hpq'
      subst hpq'
      rfl
    · rw [if_neg hpe] at hpq'
      subst hpq'
      exact hres p hp hqr

theorem set_fire_state_pois (m : Model) (x y : Int) (s : FireState) :
    (set_fire_state m x y s).pois = m.pois := by
  unfold set_fire_state
  split <;> rfl

/-- `pickup_poi` preserves the carry-link invariant (both the
false-alarm removal path and the genuine pickup path). -/
theorem pickup_preserves (m : Model) (i : Nat) (h : CarryInv m) :
    CarryInv (pickup_poi m i).1 := by
  cases hff : m.firefighters[i]? with
  | none =>
    simp only [pickup_poi, hff]
    exact h
  | some ff =>
    simp only [pickup_poi, hff]
    by_cases hg : ff.action_points ≤ 0 ∨ ff.carrying_poi.isSome = true
    · rw [if_pos hg]
      exact h
    · rw [if_neg hg]
      have hnone : ff.carrying_poi = none := by
        cases hcp : ff.carrying_poi with
        | none => rfl
        | some pid => exact absurd (Or.inr (by rw [hcp]; rfl)) hg
      cases hpoi : get_poi_at m ff.x ff.y with
      | none => exact h
      | some poi =>
        dsimp only
        obtain ⟨hpmem, hpx, hpy, hprs, hpcb⟩ := get_poi_at_spec hpoi
        rw [if_neg (by simp [hprs])]
        by_cases hfa : ¬ poi.is_revealed = true ∧ poi.is_false_alarm = true
        · rw [if_pos hfa]
          have hun : ∀ p ∈ m.pois, p.poi_id = poi.poi_id →
              p.carried_by = none := by
            intro p hp hpe
            have hpq : p = poi := List.inj_on_of_nodup_map h.1 hp hpmem hpe
            rw [hpq]
            exact hpcb
          exact carryInv_set_same (carryInv_remove h poi.poi_id hun)
            hff rfl rfl rfl
        · rw [if_neg hfa]
          exact carryInv_pickup_link h hff hnone hpmem hpcb hprs rfl rfl rfl

/-- `drop_poi_at_exit` preserves the carry-link invariant. -/
theorem drop_preserves (m : Model) (i : Nat) (h : CarryInv m) :
    CarryInv (drop_poi_at_exit m i).1 := by
  cases hff : m.firefighters[i]? with
  | none =>
    simp only [drop_poi_at_exit, hff]
    exact h
  | some ff =>
    simp only [drop_poi_at_exit, hff]
    cases hcp : ff.carrying_poi with
    | none => exact h
    | some pid =>
      dsimp only
      by_cases hex : is_exit m ff.x ff.y = true
      · rw [if_pos hex]
        exact carryInv_drop_link h hff hcp rfl rfl rfl
      · rw [if_neg hex]
        exact h

/-- `move_to` preserves the carry-link invariant. -/
theorem move_preserves (m : Model) (i : Nat) (nx ny : Int)
    (h : CarryInv m) : CarryInv (move_to m i nx ny).1 := by
  cases hff : m.firefighters[i]? with
  | none =>
    simp only [move_to, hff]
    exact h
  | some ff =>
    simp only [move_to, hff]
    by_cases h1 : ff.action_points ≤ 0
    · rw [if_pos h1]
      exact h
    · rw [if_neg h1]
      by_cases h2 : ¬ can_move_between m ff.x ff.y nx ny = true
      · rw [if_pos h2]
        exact h
      · rw [if_neg h2]
        exact carryInv_set_same h hff rfl rfl rfl

/-- `extinguish_fire` preserves the carry-link invariant. -/
theorem ext_preserves (m : Model) (i : Nat) (h : CarryInv m) :
    CarryInv (extinguish_fire m i).1 := by
  cases hff : m.firefighters[i]? with
  | none =>
    simp only [extinguish_fire, hff]
    exact h
  | some ff =>
    simp only [extinguish_fire, hff]
    by_cases h1 : ff.action_points ≤ 0
    · rw [if_pos h1]
      exact h
    · rw [if_neg h1]
      cases hst : get_fire_state m ff.x ff.y with
      | clear => exact h
      | fire =>
        dsimp only
        exact carryInv_set_same h hff rfl rfl
          (set_fire_state_pois m ff.x ff.y .smoke)
      | smoke =>
        dsimp only
        exact carryInv_set_same h hff rfl rfl
          (set_fire_state_pois m ff.x ff.y .clear)

/-- Under the invariant a POI has at most one carrier. -/
theorem carry_unique {m : Model} (h : CarryInv m) {j k pid : Nat}
    (hj : ffCarrying m j = some pid) (hk : ffCarrying m k = some pid) :
    j = k := by
  obtain ⟨hnd, hfwd, -, -⟩ := h
  obtain ⟨p, hp, hp1, hp2, -⟩ :=
    hfwd j (ffCarrying_lt hj) pid (Option.mem_def.mpr hj)
  obtain ⟨q, hq, hq1, hq2, -⟩ :=
    hfwd k (ffCarrying_lt hk) pid (Option.mem_def.mpr hk)
  have hpq : p = q := List.inj_on_of_nodup_map hnd hp hq (by rw [hp1, hq1])
  rw [hpq] at hp2
  rw [hp2] at hq2
  exact Option.some_inj.mp hq2

/-- Under the invariant every POI is in exactly one of the three states
(untouched / carried by exactly one firefighter / rescued); the three
alternatives are pairwise contradictory by construction. -/
theorem poi_state_trichotomy {m : Model} (h : CarryInv m) {p : POI}
    (hp : p ∈ m.pois) :
    (p.is_rescued = false ∧ p.carried_by = none ∧
      ∀ j, ffCarrying m j ≠ some p.poi_id) ∨
    (p.is_rescued = false ∧ ∃ j, p.carried_by = some j ∧
      ffCarrying m j = some p.poi_id ∧
      ∀ k, ffCarrying m k = some p.poi_id → k = j) ∨
    (p.is_rescued = true ∧ p.carried_by = none ∧
      ∀ j, ffCarrying m j ≠ some p.poi_id) := by
  obtain ⟨hnd, hfwd, hbwd, hres⟩ := h
  have hnocarry : p.carried_by = none →
      ∀ j, ffCarrying m j ≠ some p.poi_id := by
    intro hcb j hcarj
    obtain ⟨q, hq, hq1, hq2, -⟩ :=
      hfwd j (ffCarrying_lt hcarj) p.poi_id (Option.mem_def.mpr hcarj)
    have hqp : q = p := List.inj_on_of_nodup_map hnd hq hp hq1
    rw [hqp, hcb] at hq2
    exact Option.noConfusion hq2
  cases hr : p.is_rescued with
  | true => exact Or.inr (Or.inr ⟨rfl, hres p hp hr, hnocarry (hres p hp hr)⟩)
  | false =>
    cases hcb : p.carried_by with
    | none => exact Or.inl ⟨rfl, rfl, hnocarry hcb⟩
    | some j =>
      have hlink := hbwd p hp j (Option.mem_def.mpr hcb)
      refine Or.inr (Or.inl ⟨rfl, j, rfl, hlink, ?_⟩)
      intro k hk
      exact carry_unique ⟨hnd, hfwd, hbwd, hres⟩ hk hlink

theorem place_firefighters_carrying :
    ∀ (l : List Nat) (acc : Model),
      (∀ ff ∈ acc.firefighters, ff.carrying_poi = none) →
      ∀ ff ∈ (l.foldl (fun acc i =>
          match start_positions[i]? with
          | some c =>
            { acc with firefighters := acc.firefighters ++ [Firefighter.new i c.1 c.2] }
          | none => acc) acc).firefighters,
        ff.carrying_poi = none := by
  intro l
  induction l with
  | nil => intro acc hacc; exact hacc
  | cons i l ih =>
    intro acc hacc
    rw [List.foldl_cons]
    cases hc : start_positions[i]? with
    | none => exact ih acc hacc
    | some c =>
      refine ih _ ?_
      intro ff hff
      have hff2 : ff ∈ acc.firefighters ++ [Firefighter.new i c.1 c.2] := hff
      rw [List.mem_append] at hff2
      cases hff2 with
      | inl hl => exact hacc ff hl
      | inr hr =>
        rw [List.mem_singleton] at hr
        rw [hr]
        rfl

theorem init_pois_form (w h nf np wh : Int) (ps : List Pos) (ra : Nat → ℚ) :
    (FlashPointModel_init w h nf np wh ps ra).pois
      = ps.enum.map (fun ic => POI.new ic.1 ic.2.1 ic.2.2
          (decide (ra ic.1 < 3/10))) := by
  obtain ⟨-, -, -, e4, -⟩ := setup_exits_proj (init_base w h wh)
  obtain ⟨-, -, -, c4⟩ := create_walls_proj (_setup_exits (init_base w h wh))
  obtain ⟨-, -, -, f4⟩ :=
    place_firefighters_facts (List.range (min nf 5).toNat)
      (_create_walls (_setup_exits (init_base w h wh)))
      (fun i hi => by rw [List.mem_range] at hi; omega)
  obtain ⟨-, -, -, p4⟩ := place_fires_proj
    (_place_firefighters (_create_walls (_setup_exits (init_base w h wh))) nf)
  have hplf : _place_firefighters (_create_walls (_setup_exits
      (init_base w h wh))) nf
      = (List.range (min nf 5).toNat).foldl
        (fun acc i =>
          match start_positions[i]? with
          | some c =>
            { acc with firefighters := acc.firefighters ++ [Firefighter.new i c.1 c.2] }
          | none => acc)
        (_create_walls (_setup_exits (init_base w h wh))) := rfl
  have hM3 : (_place_initial_fires (_place_firefighters (_create_walls
      (_setup_exits (init_base w h wh))) nf)).pois = [] := by
    rw [p4, hplf, f4, c4, e4]
    rfl
  show (_place_initial_fires (_place_firefighters (_create_walls
      (_setup_exits (init_base w h wh))) nf)).pois ++ _ = _
  rw [hM3, List.nil_append]

theorem init_ff_carrying (w h nf np wh : Int) (ps : List Pos) (ra : Nat → ℚ) :
    ∀ ff ∈ (FlashPointModel_init w h nf np wh ps ra).firefighters,
      ff.carrying_poi = none := by
  obtain ⟨-, -, e3, -, -⟩ := setup_exits_proj (init_base w h wh)
  obtain ⟨-, -, c3, -⟩ := create_walls_proj (_setup_exits (init_base w h wh))
  obtain ⟨-, -, f3, -⟩ := place_fires_proj
    (_place_firefighters (_create_walls (_setup_exits (init_base w h wh))) nf)
  intro ff hff
  have heq : (FlashPointModel_init w h nf np wh ps ra).firefighters
      = (_place_firefighters (_create_walls (_setup_exits
          (init_base w h wh))) nf).firefighters := by
    show (_place_initial_fires (_place_firefighters (_create_walls
      (_setup_exits (init_base w h wh))) nf)).firefighters = _
    exact f3
  rw [heq] at hff
  refine place_firefighters_carrying (List.range (min nf 5).toNat) _ ?_ ff hff
  intro ff2 hff2
  rw [c3, e3] at hff2
  exact absurd hff2 (List.not_mem_nil ff2)

theorem init_carryInv (w h nf np wh : Int) (ps : List Pos) (ra : Nat → ℚ) :
    CarryInv (FlashPointModel_init w h nf np wh ps ra) := by
  have hpois := init_pois_form w h nf np wh ps ra
  have hcarry := init_ff_carrying w h nf np wh ps ra
  have hcarN : ∀ j, ffCarrying (FlashPointModel_init w h nf np wh ps ra) j
      = none := by
    intro j
    unfold ffCarrying
    cases hg : (FlashPointModel_init w h nf np wh ps ra).firefighters[j]? with
    | none => rfl
    | some ff => exact hcarry ff (List.getElem?_mem hg)
  have hpfields : ∀ p ∈ (FlashPointModel_init w h nf np wh ps ra).pois,
      p.carried_by = none ∧ p.is_rescued = false := by
    intro p hp
    rw [hpois] at hp
    obtain ⟨ic, -, hic⟩ := List.mem_map.mp hp
    have hic2 : POI.new ic.1 ic.2.1 ic.2.2 (decide (ra ic.1 < 3/10)) = p := hic
    rw [← hic2]
    exact ⟨rfl, rfl⟩
  refine ⟨?_, ?_, ?_, ?_⟩
  · rw [hpois, List.map_map]
    have he : (POI.poi_id ∘ fun ic : Nat × Pos =>
        POI.new ic.1 ic.2.1 ic.2.2 (decide (ra ic.1 < 3/10))) = Prod.fst := by
      funext ic
      rfl
    rw [he]
    exact List.nodup_enum_map_fst ps
  · intro j hj pid hpid
    rw [Option.mem_def, hcarN] at hpid
    exact Option.noConfusion hpid
  · intro p hp j hj
    rw [Option.mem_def, (hpfields p hp).1] at hj
    exact Option.noConfusion hj
  · intro p hp _
    exact (hpfields p hp).1

/-- C8: the carry-link invariant.  Each firefighter's hands hold at most
one POI id (`carrying_poi : Option Nat` mirrors the single
`carrying_poi` attribute); under `CarryInv` a carried POI back-references
its carrier, the carrier is unique, every listed POI is in exactly one of
the three states untouched / carried / rescued (the three alternatives of
the trichotomy are pairwise contradictory), and a rescued POI's
`carried_by` is cleared.  The invariant holds in the freshly constructed
model and is preserved by `pickup_poi` (including its false-alarm
reveal-removal path), by `drop_poi_at_exit`, by the underlying
`remove_poi` on an uncarried id, and by `move_to` and
`extinguish_fire`. -/
theorem carry_invariant (w h nf np wh : Int) (ps : List Pos) (ra : Nat → ℚ)
    (m : Model) (i : Nat) (hinv : CarryInv m) :
    CarryInv (FlashPointModel_init w h nf np wh ps ra) ∧
    CarryInv (pickup_poi m i).1 ∧
    CarryInv (drop_poi_at_exit m i).1 ∧
    (∀ nx ny, CarryInv (move_to m i nx ny).1) ∧
    CarryInv (extinguish_fire m i).1 ∧
    (∀ pid, (∀ p ∈ m.pois, p.poi_id = pid → p.carried_by = none) →
      CarryInv (remove_poi m pid)) ∧
    (∀ j k pid, ffCarrying m j = some pid → ffCarrying m k = some pid →
      j = k) ∧
    (∀ p ∈ m.pois,
      (p.is_rescued = false ∧ p.carried_by = none ∧
        ∀ j, ffCarrying m j ≠ some p.poi_id) ∨
      (p.is_rescued = false ∧ ∃ j, p.carried_by = some j ∧
        ffCarrying m j = some p.poi_id ∧
        ∀ k, ffCarrying m k = some p.poi_id → k = j) ∨
      (p.is_rescued = true ∧ p.carried_by = none ∧
        ∀ j, ffCarrying m j ≠ some p.poi_id)) :=
  ⟨init_carryInv w h nf np wh ps ra,
   pickup_preserves m i hinv,
   drop_preserves m i hinv,
   fun nx ny => move_preserves m i nx ny hinv,
   ext_preserves m i hinv,
   fun pid hun => carryInv_remove hinv pid hun,
   fun _ _ _ hj hk => carry_unique hinv hj hk,
   fun _ hp => poi_state_trichotomy hinv hp⟩

/-- Witness for C8 at the concrete one-cell model `mC3` (one firefighter
carrying POI 0): the invariant holds there and survives a pickup attempt
and the drop. -/
theorem carry_invariant_witness :
    CarryInv mC3 ∧ CarryInv (pickup_poi mC3 0).1 ∧
      CarryInv (drop_poi_at_exit mC3 0).1 :=
  ⟨by decide,
   (carry_invariant 1 1 0 0 2 [] (fun _ => 1) mC3 0 (by decide)).2.1,
   (carry_invariant 1 1 0 0 2 [] (fun _ => 1) mC3 0 (by decide)).2.2.1⟩

/-! ## C10: movement and pathfinding depend only on the board -/

theorem can_move_congr (m1 m2 : Model)
    (hw : m1.width = m2.width) (hh : m1.height = m2.height)
    (hwalls : m1.walls = m2.walls) (x1 y1 x2 y2 : Int) :
    can_move_between m1 x1 y1 x2 y2 = can_move_between m2 x1 y1 x2 y2 := by
  have hib : inBounds m1 x2 y2 ↔ inBounds m2 x2 y2 := by
    unfold inBounds
    rw [hw, hh]
  unfold can_move_between
  by_cases h1 : inBounds m2 x2 y2
  · rw [if_neg (not_not_intro (hib.mpr h1)), if_neg (not_not_intro h1)]
    by_cases h2 : (x1 - x2).natAbs + (y1 - y2).natAbs ≠ 1
    · rw [if_pos h2, if_pos h2]
    · rw [if_neg h2, if_neg h2]
      unfold has_wall_between
      rw [hwalls]
  · rw [if_pos (fun hc => h1 (hib.mp hc)), if_pos h1]

theorem expand_congr (m1 m2 : Model)
    (hcm : ∀ x1 y1 x2 y2,
      can_move_between m1 x1 y1 x2 y2 = can_move_between m2 x1 y1 x2 y2)
    (goal : Pos) (x y : Int) (path : List Pos) :
    ∀ (ds : List Pos) (acc : List (Pos × List Pos)) (visited : List Pos),
      expand m1 goal x y path ds acc visited
        = expand m2 goal x y path ds acc visited := by
  intro ds
  induction ds with
  | nil => intro acc visited; rfl
  | cons d ds ih =>
    intro acc visited
    simp only [expand]
    by_cases hc2 : (x + d.1, y + d.2) ∉ visited ∧
        can_move_between m2 x y (x + d.1) (y + d.2) = true
    · have hc1 : (x + d.1, y + d.2) ∉ visited ∧
          can_move_between m1 x y (x + d.1) (y + d.2) = true := by
        rw [hcm x y (x + d.1) (y + d.2)]
        exact hc2
      rw [if_pos hc1, if_pos hc2]
      by_cases hg : (x + d.1, y + d.2) = goal
      · rw [if_pos hg, if_pos hg]
      · rw [if_neg hg, if_neg hg, ih]
    · have hc1 : ¬ ((x + d.1, y + d.2) ∉ visited ∧
          can_move_between m1 x y (x + d.1) (y + d.2) = true) := by
        rw [hcm x y (x + d.1) (y + d.2)]
        exact hc2
      rw [if_neg hc1, if_neg hc2, ih]

theorem bfs_loop_congr (m1 m2 : Model)
    (hcm : ∀ x1 y1 x2 y2,
      can_move_between m1 x1 y1 x2 y2 = can_move_between m2 x1 y1 x2 y2)
    (goal : Pos) :
    ∀ (fuel : Nat) (q : List (Pos × List Pos)) (visited : List Pos),
      bfs_loop m1 goal fuel q visited = bfs_loop m2 goal fuel q visited := by
  intro fuel
  induction fuel with
  | zero => intro q visited; cases q <;> rfl
  | succ fuel ih =>
    intro q visited
    cases q with
    | nil => rfl
    | cons entry rest =>
      obtain ⟨v, path⟩ := entry
      simp only [bfs_loop]
      rw [expand_congr m1 m2 hcm goal v.1 v.2 path dirs4 [] visited]
      cases hx : expand m2 goal v.1 v.2 path dirs4 [] visited with
      | inl found => rfl
      | inr pr =>
        obtain ⟨items, visited2⟩ := pr
        exact ih (rest ++ items) visited2

theorem find_path_congr (m1 m2 : Model)
    (hw : m1.width = m2.width) (hh : m1.height = m2.height)
    (hwalls : m1.walls = m2.walls) (s g : Pos) :
    find_path m1 s g = find_path m2 s g := by
  unfold find_path
  by_cases hsg : s = g
  · rw [if_pos hsg, if_pos hsg]
  · rw [if_neg hsg, if_neg hsg, hw, hh]
    exact bfs_loop_congr m1 m2 (can_move_congr m1 m2 hw hh hwalls) g _ _ _

theorem move_to_congr (m1 m2 : Model)
    (hcm : ∀ x1 y1 x2 y2,
      can_move_between m1 x1 y1 x2 y2 = can_move_between m2 x1 y1 x2 y2)
    (i : Nat) (nx ny : Int) (f1 f2 : Firefighter)
    (hf1 : m1.firefighters[i]? = some f1)
    (hf2 : m2.firefighters[i]? = some f2)
    (hx : f1.x = f2.x) (hy : f1.y = f2.y)
    (hap : f1.action_points = f2.action_points) :
    (move_to m1 i nx ny).2 = (move_to m2 i nx ny).2 := by
  simp only [move_to, hf1, hf2]
  by_cases h1 : f2.action_points ≤ 0
  · rw [if_pos (by rw [hap]; exact h1), if_pos h1]
  · rw [if_neg (by rw [hap]; exact h1), if_neg h1]
    by_cases h2 : ¬ can_move_between m2 f2.x f2.y nx ny = true
    · rw [if_pos (by rw [hx, hy, hcm]; exact h2), if_pos h2]
    · rw [if_neg (by rw [hx, hy, hcm]; exact h2), if_neg h2]

theorem move_to_success (m : Model) (i : Nat) (nx ny : Int)
    (ff : Firefighter) (hff : m.firefighters[i]? = some ff)
    (hap : 0 < ff.action_points)
    (hcan : can_move_between m ff.x ff.y nx ny = true) :
    (move_to m i nx ny).2 = true ∧
    (move_to m i nx ny).1.firefighters = m.firefighters.set i
      { ff with x := nx, y := ny, action_points := ff.action_points - 1 } := by
  simp only [move_to, hff]
  rw [if_neg (Int.not_le.mpr hap), if_neg (not_not_intro hcan)]
  exact ⟨rfl, rfl⟩

/-- Witness boards for C10: a 2 by 1 corridor with no walls.  In
`mC10a` the target cell `(1, 0)` burns and is occupied by a second
firefighter; `mC10b` clears the fire and removes that firefighter. -/
def mC10a : Model :=
  { width := 2, height := 1, wall_health := 2, rescued_pois := 0
    explosion_count := 0
    fire_grid := fun x y => if x = 1 ∧ y = 0 then .fire else .clear
    cell_types := fun _ _ => .normal, walls := fun _ => none
    pois := [], firefighters := [Firefighter.new 0 0 0, Firefighter.new 1 1 0] }

def mC10b : Model :=
  { width := 2, height := 1, wall_health := 2, rescued_pois := 0
    explosion_count := 0
    fire_grid := fun _ _ => .clear
    cell_types := fun _ _ => .normal, walls := fun _ => none
    pois := [], firefighters := [Firefighter.new 0 0 0] }

/-- C10: traversability, the Pathfinder and move success depend only on
board bounds, adjacency and walls.  Two states with equal `width`,
`height` and `walls` — however much they differ in fire, POIs or other
firefighters — agree on `can_move_between` and on `find_path`; a move
succeeds in one iff in the other whenever the acting firefighter has the
same position and action points; and a move with an action point and a
traversable edge always succeeds, with the firefighter placed at the
target regardless of fire or occupancy there. -/
theorem move_board_independence (m1 m2 : Model)
    (hw : m1.width = m2.width) (hh : m1.height = m2.height)
    (hwalls : m1.walls = m2.walls) :
    (∀ x1 y1 x2 y2,
      can_move_between m1 x1 y1 x2 y2 = can_move_between m2 x1 y1 x2 y2) ∧
    (∀ s g, find_path m1 s g = find_path m2 s g) ∧
    (∀ i nx ny f1 f2, m1.firefighters[i]? = some f1 →
      m2.firefighters[i]? = some f2 → f1.x = f2.x → f1.y = f2.y →
      f1.action_points = f2.action_points →
      (move_to m1 i nx ny).2 = (move_to m2 i nx ny).2) ∧
    (∀ i nx ny ff, m1.firefighters[i]? = some ff →
      0 < ff.action_points →
      can_move_between m1 ff.x ff.y nx ny = true →
      (move_to m1 i nx ny).2 = true ∧
      (move_to m1 i nx ny).1.firefighters = m1.firefighters.set i
        { ff with x := nx, y := ny, action_points := ff.action_points - 1 }) :=
  ⟨can_move_congr m1 m2 hw hh hwalls,
   find_path_congr m1 m2 hw hh hwalls,
   fun i nx ny f1 f2 hf1 hf2 hx hy hap =>
     move_to_congr m1 m2 (can_move_congr m1 m2 hw hh hwalls)
       i nx ny f1 f2 hf1 hf2 hx hy hap,
   fun i nx ny ff hff hap hcan => move_to_success m1 i nx ny ff hff hap hcan⟩

/-- Witness for C10: on `mC10a` the move of firefighter 0 onto the
burning, occupied cell `(1, 0)` succeeds, and the Pathfinder answers
identically on the fire-free, singly-occupied `mC10b`. -/
theorem move_board_independence_witness :
    mC10a.fire_grid 1 0 = .fire ∧
    mC10a.firefighters[1]?.map Firefighter.x = some 1 ∧
    mC10a.firefighters[1]?.map Firefighter.y = some 0 ∧
    (move_to mC10a 0 1 0).2 = true ∧
    find_path mC10a (0, 0) (1, 0) = find_path mC10b (0, 0) (1, 0) :=
  ⟨by decide, by decide, by decide,
   ((move_board_independence mC10a mC10b rfl rfl rfl).2.2.2 0 1 0
     (Firefighter.new 0 0 0) rfl (by decide) (by decide)).1,
   (move_board_independence mC10a mC10b rfl rfl rfl).2.1 (0, 0) (1, 0)⟩

/-! ## C4: role assignment by distance rank -/

/-- `float('inf')`-style distances: `none` is infinity. -/
def distLE : Option Nat → Option Nat → Bool
  | _, none => true
  | none, some _ => false
  | some x, some y => decide (x ≤ y)

def distLT : Option Nat → Option Nat → Bool
  | none, _ => false
  | some _, none => true
  | some x, some y => decide (x < y)

/-- The `ff_min_dist` accumulation of `_assign_role`: the minimum, over
the given POI list, of the Pathfinder path length to the POI (skipping
empty paths), starting from infinity. -/
def ff_min_dist (m : Model) (ff : Firefighter) (pois : List POI) : Option Nat :=
  pois.foldl (fun acc poi =>
    let path := find_path m (ff.x, ff.y) (poi.x, poi.y)
    if path ≠ [] then
      match acc with
      | none => some path.length
      | some d => some (min d path.length)
    else acc) none

/-- Stable insertion of `firefighter_distances.sort(key=lambda x: x[1])`:
an element is placed before the first entry whose key it does not
exceed. -/
def sortInsert (a : Nat × Option Nat) :
    List (Nat × Option Nat) → List (Nat × Option Nat)
  | [] => [a]
  | b :: bs => if distLE a.2 b.2 then a :: b :: bs else b :: sortInsert a bs

/-- The stable sort by distance key (Python `list.sort` is stable; any
stable sort is extensionally this insertion sort). -/
def sortByDist : List (Nat × Option Nat) → List (Nat × Option Nat)
  | [] => []
  | a :: as => sortInsert a (sortByDist as)

/-- Strict priority: strictly smaller key, or equal key and earlier
position in the agent list. -/
def beats (a b : Nat × Option Nat) : Bool :=
  distLT a.2 b.2 || (a.2 == b.2 && decide (a.1 < b.1))

/-- `FirefighterAgent._assign_role` for the agent at index `idx`:
the active POIs are all non-rescued ones (carried POIs included); each
firefighter is scored by `ff_min_dist`; the stable sort ranks them and
the first three become rescuers.  (The `min_distance` loop of the source
computes a value that is never read.) -/
def assign_role_value (m : Model) (idx : Nat) : Role :=
  let active_pois := m.pois.filter (fun poi => !poi.is_rescued)
  if active_pois.isEmpty then .fire_fighter
  else
    let fds := m.firefighters.enum.map
      (fun iff => (iff.1, ff_min_dist m iff.2 active_pois))
    let top3 := ((sortByDist fds).take 3).map Prod.fst
    if idx ∈ top3 then .rescuer else .fire_fighter

/-- The claim-side variant of `assign_role_value`, written from the
specification's words: the active POIs are the non-rescued AND uncarried
ones.  Compared against the source-derived `assign_role_value` below. -/
def assign_role_value_spec (m : Model) (idx : Nat) : Role :=
  let active_pois := m.pois.filter
    (fun poi => !poi.is_rescued && poi.carried_by == none)
  if active_pois.isEmpty then .fire_fighter
  else
    let fds := m.firefighters.enum.map
      (fun iff => (iff.1, ff_min_dist m iff.2 active_pois))
    let top3 := ((sortByDist fds).take 3).map Prod.fst
    if idx ∈ top3 then .rescuer else .fire_fighter

/-- The number of firefighters that strictly beat key `k` held by the
agent at index `idx` (smaller key, or equal key and smaller index), with
scores taken against the non-rescued POIs. -/
def rescue_rank (m : Model) (idx : Nat) (k : Option Nat) : Nat :=
  ((m.firefighters.enum.map (fun iff =>
      (iff.1, ff_min_dist m iff.2 (m.pois.filter (fun poi => !poi.is_rescued))))).filter
    (fun jk => beats jk (idx, k))).length

theorem distLE_total (a b : Option Nat) :
    distLE a b = true ∨ distLE b a = true := by
  cases a with
  | none => cases b with
    | none => exact Or.inl rfl
    | some y => exact Or.inr rfl
  | some x => cases b with
    | none => exact Or.inl rfl
    | some y =>
      rcases Nat.le_total x y with h | h
      · exact Or.inl (decide_eq_true h)
      · exact Or.inr (decide_eq_true h)

theorem distLT_of_not_distLE {a b : Option Nat} (h : ¬ distLE a b = true) :
    distLT b a = true := by
  cases a with
  | none => cases b with
    | none => exact absurd rfl h
    | some y => rfl
  | some x => cases b with
    | none => exact absurd rfl h
    | some y =>
      have : ¬ x ≤ y := fun hc => h (decide_eq_true hc)
      exact decide_eq_true (Nat.lt_of_not_le this)

theorem distLT_or_eq_of_distLE {a b : Option Nat} (h : distLE a b = true) :
    distLT a b = true ∨ a = b := by
  cases a with
  | none => cases b with
    | none => exact Or.inr rfl
    | some y => exact absurd h (by simp [distLE])
  | some x => cases b with
    | none => exact Or.inl rfl
    | some y =>
      have hxy : x ≤ y := of_decide_eq_true h
      rcases Nat.lt_or_eq_of_le hxy with h' | h'
      · exact Or.inl (decide_eq_true h')
      · subst h'
        exact Or.inr rfl

theorem distLE_distLT_trans {a b c : Option Nat}
    (h1 : distLE a b = true) (h2 : distLT b c = true) :
    distLT a c = true := by
  cases a with
  | none =>
    cases b with
    | none => exact h2
    | some y => exact absurd h1 (by simp [distLE])
  | some x =>
    cases c with
    | none => rfl
    | some z =>
      cases b with
      | none => exact absurd h2 (by simp [distLT])
      | some y =>
        have hxy : x ≤ y := of_decide_eq_true h1
        have hyz : y < z := of_decide_eq_true h2
        exact decide_eq_true (Nat.lt_of_le_of_lt hxy hyz)

theorem distLT_asymm : ∀ {x y : Option Nat},
    distLT x y = true → ¬ distLT y x = true := by
  intro x y h hc
  cases x with
  | none => simp [distLT] at h
  | some a =>
    cases y with
    | none => simp [distLT] at hc
    | some b =>
      simp only [distLT, decide_eq_true_eq] at h hc
      omega

theorem distLT_irrefl (x : Option Nat) : ¬ distLT x x = true := by
  intro h
  cases x with
  | none => simp [distLT] at h
  | some a =>
    simp only [distLT, decide_eq_true_eq] at h
    omega

theorem distLT_ne {x y : Option Nat} (h : distLT x y = true) : x ≠ y :=
  fun he => distLT_irrefl y (he ▸ h)

theorem beats_irrefl (a : Nat × Option Nat) : ¬ beats a a = true := by
  intro h
  unfold beats at h
  rw [Bool.or_eq_true, Bool.and_eq_true, beq_iff_eq, decide_eq_true_eq] at h
  rcases h with h | ⟨-, hi⟩
  · exact distLT_irrefl _ h
  · omega

theorem beats_asymm {a b : Nat × Option Nat} (h : beats a b = true) :
    ¬ beats b a = true := by
  intro hc
  unfold beats at h hc
  rw [Bool.or_eq_true, Bool.and_eq_true, beq_iff_eq, decide_eq_true_eq] at h hc
  rcases h with h | ⟨he, hi⟩ <;> rcases hc with hc | ⟨hce, hci⟩
  · exact distLT_asymm h hc
  · exact distLT_ne h hce.symm
  · exact distLT_ne hc he.symm
  · omega

theorem beats_total_of_ne {a b : Nat × Option Nat} (hne : a.1 ≠ b.1) :
    beats a b = true ∨ beats b a = true := by
  unfold beats
  rcases distLE_total a.2 b.2 with h | h
  · rcases distLT_or_eq_of_distLE h with h' | h'
    · exact Or.inl (by rw [h']; rfl)
    · rcases Nat.lt_or_ge a.1 b.1 with hi | hi
      · refine Or.inl ?_
        rw [Bool.or_eq_true, Bool.and_eq_true, beq_iff_eq, decide_eq_true_eq]
        exact Or.inr ⟨h', hi⟩
      · refine Or.inr ?_
        rw [Bool.or_eq_true, Bool.and_eq_true, beq_iff_eq, decide_eq_true_eq]
        exact Or.inr ⟨h'.symm, by omega⟩
  · rcases distLT_or_eq_of_distLE h with h' | h'
    · exact Or.inr (by rw [h']; rfl)
    · rcases Nat.lt_or_ge a.1 b.1 with hi | hi
      · refine Or.inl ?_
        rw [Bool.or_eq_true, Bool.and_eq_true, beq_iff_eq, decide_eq_true_eq]
        exact Or.inr ⟨h'.symm, hi⟩
      · refine Or.inr ?_
        rw [Bool.or_eq_true, Bool.and_eq_true, beq_iff_eq, decide_eq_true_eq]
        exact Or.inr ⟨h', by omega⟩

theorem sortInsert_perm (a : Nat × Option Nat) :
    ∀ s : List (Nat × Option Nat), List.Perm (sortInsert a s) (a :: s) := by
  intro s
  induction s with
  | nil => exact List.Perm.refl _
  | cons b bs ih =>
    unfold sortInsert
    by_cases h : distLE a.2 b.2 = true
    · rw [if_pos h]
    · rw [if_neg h]
      exact (List.Perm.cons b ih).trans (List.Perm.swap a b bs)

theorem sortByDist_perm : ∀ s : List (Nat × Option Nat), List.Perm (sortByDist s) s := by
  intro s
  induction s with
  | nil => exact List.Perm.refl _
  | cons a as ih =>
    unfold sortByDist
    exact (sortInsert_perm a (sortByDist as)).trans (List.Perm.cons a ih)

theorem sortInsert_pairwise (a : Nat × Option Nat) :
    ∀ s : List (Nat × Option Nat),
      s.Pairwise (fun x y => beats x y = true) →
      (∀ b ∈ s, a.1 < b.1) →
      (sortInsert a s).Pairwise (fun x y => beats x y = true) := by
  intro s
  induction s with
  | nil =>
    intro _ _
    exact List.pairwise_singleton _ _
  | cons b bs ih =>
    intro hs hidx
    rw [List.pairwise_cons] at hs
    obtain ⟨hb, hbs⟩ := hs
    unfold sortInsert
    by_cases h : distLE a.2 b.2 = true
    · rw [if_pos h]
      rw [List.pairwise_cons]
      refine ⟨?_, List.pairwise_cons.mpr ⟨hb, hbs⟩⟩
      intro c hc
      rw [List.mem_cons] at hc
      rcases hc with rfl | hc
      · rcases distLT_or_eq_of_distLE h with h' | h'
        · unfold beats
          rw [h']
          rfl
        · unfold beats
          rw [Bool.or_eq_true, Bool.and_eq_true, beq_iff_eq, decide_eq_true_eq]
          exact Or.inr ⟨h', hidx c (List.mem_cons_self _ _)⟩
      · have hbc := hb c hc
        unfold beats at hbc ⊢
        rw [Bool.or_eq_true, Bool.and_eq_true, beq_iff_eq,
          decide_eq_true_eq] at hbc
        rw [Bool.or_eq_true, Bool.and_eq_true, beq_iff_eq, decide_eq_true_eq]
        rcases hbc with hbc | ⟨hbe, -⟩
        · exact Or.inl (distLE_distLT_trans h hbc)
        · rw [hbe] at h
          rcases distLT_or_eq_of_distLE h with h' | h'
          · exact Or.inl h'
          · exact Or.inr ⟨h', hidx c (List.mem_cons_of_mem _ hc)⟩
    · rw [if_neg h]
      rw [List.pairwise_cons]
      constructor
      · intro c hc
        have hc2 := (sortInsert_perm a bs).mem_iff.mp hc
        rw [List.mem_cons] at hc2
        rcases hc2 with rfl | hc2
        · unfold beats
          rw [distLT_of_not_distLE h]
          rfl
        · exact hb c hc2
      · exact ih hbs (fun c hc => hidx c (List.mem_cons_of_mem _ hc))

theorem sortByDist_pairwise :
    ∀ s : List (Nat × Option Nat),
      s.Pairwise (fun x y => x.1 < y.1) →
      (sortByDist s).Pairwise (fun x y => beats x y = true) := by
  intro s
  induction s with
  | nil =>
    intro _
    exact List.Pairwise.nil
  | cons a as ih =>
    intro hs
    rw [List.pairwise_cons] at hs
    obtain ⟨ha, has⟩ := hs
    unfold sortByDist
    refine sortInsert_pairwise a (sortByDist as) (ih has) ?_
    intro b hb
    exact ha b ((sortByDist_perm as).mem_iff.mp hb)

theorem mem_take_iff_beats_lt :
    ∀ (s : List (Nat × Option Nat)),
      s.Pairwise (fun x y => beats x y = true) →
      ∀ e ∈ s, ∀ k : Nat,
        (e ∈ s.take k ↔ (s.filter (fun x => beats x e)).length < k) := by
  intro s
  induction s with
  | nil =>
    intro _ e he
    exact absurd he (List.not_mem_nil e)
  | cons a as ih =>
    intro hs e he k
    rw [List.pairwise_cons] at hs
    obtain ⟨ha, has⟩ := hs
    rw [List.mem_cons] at he
    by_cases hea : e = a
    · subst hea
      have hfilt : (e :: as).filter (fun x => beats x e) = [] := by
        rw [List.filter_eq_nil_iff]
        intro x hx
        rw [List.mem_cons] at hx
        rcases hx with rfl | hx
        · exact beats_irrefl x
        · exact beats_asymm (ha x hx)
      rw [hfilt]
      cases k with
      | zero => simp
      | succ k =>
        rw [List.take_succ_cons]
        simp [List.mem_cons]
    · have hes : e ∈ as := by
        rcases he with he | he
        · exact absurd he hea
        · exact he
      have hae : beats a e = true := ha e hes
      have hfilt : (a :: as).filter (fun x => beats x e)
          = a :: as.filter (fun x => beats x e) := by
        rw [List.filter_cons, if_pos hae]
      rw [hfilt]
      cases k with
      | zero => simp
      | succ k =>
        rw [List.take_succ_cons, List.mem_cons]
        rw [List.length_cons, Nat.succ_lt_succ_iff]
        constructor
        · intro hc
          rcases hc with hc | hc
          · exact absurd hc hea
          · exact (ih has e hes k).mp hc
        · intro hc
          exact Or.inr ((ih has e hes k).mpr hc)

theorem assign_role_value_no_active (m2 : Model) (j : Nat)
    (h0 : m2.pois.filter (fun poi => !poi.is_rescued) = []) :
    assign_role_value m2 j = .fire_fighter := by
  simp only [assign_role_value]
  have hemp : (m2.pois.filter (fun poi => !poi.is_rescued)).isEmpty = true := by
    rw [h0]
    rfl
  rw [if_pos hemp]

theorem assign_role_value_eq (m : Model) (idx : Nat)
    (hact : m.pois.filter (fun poi => !poi.is_rescued) ≠ []) :
    assign_role_value m idx =
      if idx ∈ (((sortByDist (m.firefighters.enum.map (fun iff =>
          (iff.1, ff_min_dist m iff.2
            (m.pois.filter (fun poi => !poi.is_rescued)))))).take 3).map
              Prod.fst)
      then Role.rescuer else Role.fire_fighter := by
  simp only [assign_role_value]
  rw [if_neg (fun hc => hact (List.isEmpty_iff.mp hc))]

/-- C4 (amended): with at least one non-rescued POI the agent at `idx`
becomes a rescuer exactly when fewer than three firefighters strictly
beat it — smaller score, or equal score and earlier position in the
agent list (the sort is stable) — where the score is the minimum
Pathfinder path length to any non-rescued POI, carried ones included
(infinity when no path or no POI); otherwise it becomes a firefighter;
and with zero non-rescued POIs every agent becomes a firefighter. -/
theorem assign_role_rank (m : Model) (idx : Nat) (ff : Firefighter)
    (hff : m.firefighters[idx]? = some ff)
    (hact : m.pois.filter (fun poi => !poi.is_rescued) ≠ []) :
    (assign_role_value m idx = .rescuer ↔
      rescue_rank m idx (ff_min_dist m ff
        (m.pois.filter (fun poi => !poi.is_rescued))) < 3) ∧
    (assign_role_value m idx = .fire_fighter ↔
      ¬ rescue_rank m idx (ff_min_dist m ff
        (m.pois.filter (fun poi => !poi.is_rescued))) < 3) ∧
    (∀ m2 j, m2.pois.filter (fun poi => !poi.is_rescued) = [] →
      assign_role_value m2 j = .fire_fighter) := by
  have hpfst : (m.firefighters.enum.map (fun iff =>
      (iff.1, ff_min_dist m iff.2
        (m.pois.filter (fun poi => !poi.is_rescued))))).Pairwise
      (fun x y => x.1 < y.1) := by
    rw [List.pairwise_map]
    have hr := List.pairwise_lt_range m.firefighters.length
    rw [← List.enum_map_fst m.firefighters, List.pairwise_map] at hr
    exact hr
  have hperm := sortByDist_perm (m.firefighters.enum.map (fun iff =>
    (iff.1, ff_min_dist m iff.2 (m.pois.filter (fun poi => !poi.is_rescued)))))
  have hpair := sortByDist_pairwise (m.firefighters.enum.map (fun iff =>
    (iff.1, ff_min_dist m iff.2
      (m.pois.filter (fun poi => !poi.is_rescued))))) hpfst
  have hmemfds : (idx, ff_min_dist m ff
      (m.pois.filter (fun poi => !poi.is_rescued)))
      ∈ m.firefighters.enum.map (fun iff =>
        (iff.1, ff_min_dist m iff.2
          (m.pois.filter (fun poi => !poi.is_rescued)))) :=
    List.mem_map.mpr ⟨(idx, ff), List.mem_enum_iff_getElem?.mpr hff, rfl⟩
  have hmems := hperm.mem_iff.mpr hmemfds
  have htake := mem_take_iff_beats_lt _ hpair _ hmems 3
  have hflen := (hperm.filter
    (fun x => beats x (idx, ff_min_dist m ff
      (m.pois.filter (fun poi => !poi.is_rescued))))).length_eq
  have hmm : idx ∈ (((sortByDist (m.firefighters.enum.map (fun iff =>
        (iff.1, ff_min_dist m iff.2
          (m.pois.filter (fun poi => !poi.is_rescued)))))).take 3).map
            Prod.fst)
      ↔ (idx, ff_min_dist m ff (m.pois.filter (fun poi => !poi.is_rescued)))
        ∈ (sortByDist (m.firefighters.enum.map (fun iff =>
          (iff.1, ff_min_dist m iff.2
            (m.pois.filter (fun poi => !poi.is_rescued)))))).take 3 := by
    constructor
    · intro hin
      obtain ⟨e, he, hfst⟩ := List.mem_map.mp hin
      have hes := List.mem_of_mem_take he
      have hefds := hperm.mem_iff.mp hes
      obtain ⟨jf, hjf, hje⟩ := List.mem_map.mp hefds
      have hj2 : m.firefighters[jf.1]? = some jf.2 :=
        List.mem_enum_iff_getElem?.mp hjf
      have hfst2 : jf.1 = idx := by
        rw [← hje] at hfst
        exact hfst
      rw [hfst2, hff] at hj2
      have hffj : jf.2 = ff := (Option.some_inj.mp hj2).symm
      have he2 : e = (idx, ff_min_dist m ff
          (m.pois.filter (fun poi => !poi.is_rescued))) := by
        rw [← hje, hfst2, hffj]
      rw [he2] at he
      exact he
    · intro hin
      exact List.mem_map_of_mem Prod.fst hin
  have hval := assign_role_value_eq m idx hact
  refine ⟨?_, ?_, ?_⟩
  · rw [hval]
    by_cases hm : idx ∈ (((sortByDist (m.firefighters.enum.map (fun iff =>
        (iff.1, ff_min_dist m iff.2
          (m.pois.filter (fun poi => !poi.is_rescued)))))).take 3).map
            Prod.fst)
    · rw [if_pos hm]
      have h3 := htake.mp (hmm.mp hm)
      rw [hflen] at h3
      exact iff_of_true rfl h3
    · rw [if_neg hm]
      refine iff_of_false (fun hc => Role.noConfusion hc) ?_
      intro h3
      refine hm (hmm.mpr (htake.mpr ?_))
      rw [hflen]
      exact h3
  · rw [hval]
    by_cases hm : idx ∈ (((sortByDist (m.firefighters.enum.map (fun iff =>
        (iff.1, ff_min_dist m iff.2
          (m.pois.filter (fun poi => !poi.is_rescued)))))).take 3).map
            Prod.fst)
    · rw [if_pos hm]
      have h3 := htake.mp (hmm.mp hm)
      rw [hflen] at h3
      exact iff_of_false (fun hc => Role.noConfusion hc) (fun hc => hc h3)
    · rw [if_neg hm]
      refine iff_of_true rfl ?_
      intro h3
      refine hm (hmm.mpr (htake.mpr ?_))
      rw [hflen]
      exact h3
  · intro m2 j h0
    exact assign_role_value_no_active m2 j h0

/-- The C4 counterexample board: an 11-cell corridor.  POI 0 sits at
`(0, 0)`, not rescued but carried by firefighter 0; POI 1 sits uncarried
at `(10, 0)`.  Firefighters 0..3 stand at x = 0..3. -/
def pC4a : POI :=
  { poi_id := 0, x := 0, y := 0, is_false_alarm := false
    is_revealed := true, is_rescued := false, carried_by := some 0 }

def pC4b : POI :=
  { poi_id := 1, x := 10, y := 0, is_false_alarm := false
    is_revealed := true, is_rescued := false, carried_by := none }

def mC4 : Model :=
  { width := 11, height := 1, wall_health := 2, rescued_pois := 0
    explosion_count := 0
    fire_grid := fun _ _ => .clear
    cell_types := fun _ _ => .normal, walls := fun _ => none
    pois := [pC4a, pC4b]
    firefighters := [{ Firefighter.new 0 0 0 with carrying_poi := some 0 },
      Firefighter.new 1 1 0, Firefighter.new 2 2 0, Firefighter.new 3 3 0] }

set_option maxRecDepth 20000 in
/-- Counterexample to C4 as stated: the source scores firefighters
against every non-rescued POI, carried ones included, not only the
uncarried ones.  On `mC4` the carried POI 0 dominates the scores: the
code assigns firefighter 3 the firefighter role, while scoring only
uncarried POIs (the specification's reading, `assign_role_value_spec`)
would make firefighter 3 a rescuer. -/
theorem assign_role_includes_carried :
    pC4a.is_rescued = false ∧ pC4a.carried_by = some 0 ∧
    assign_role_value mC4 3 = .fire_fighter ∧
    assign_role_value_spec mC4 3 = .rescuer :=
  ⟨rfl, rfl, by decide, by decide⟩

/-- Witness for C4 at firefighter 0 of the concrete board `mC4`. -/
theorem assign_role_rank_witness :
    mC4.firefighters[0]? = some
      { Firefighter.new 0 0 0 with carrying_poi := some 0 } ∧
    (assign_role_value mC4 0 = .rescuer ↔
      rescue_rank mC4 0 (ff_min_dist mC4
        { Firefighter.new 0 0 0 with carrying_poi := some 0 }
        (mC4.pois.filter (fun poi => !poi.is_rescued))) < 3) :=
  ⟨rfl, (assign_role_rank mC4 0 _ rfl
    (List.isEmpty_eq_false.mp (by decide))).1⟩

/-! ## C5: roles across a schedule step -/

/-- Python `min(cells, key=manhattan)`: the first element attaining the
minimal Manhattan distance from `(x, y)` (`none` on an empty list, where
the source would raise). -/
def min_by_manhattan (x y : Int) : List Pos → Option Pos
  | [] => none
  | c :: rest => some (rest.foldl (fun best c2 =>
      if (c2.1 - x).natAbs + (c2.2 - y).natAbs
          < (best.1 - x).natAbs + (best.2 - y).natAbs then c2 else best) c)

/-- Python `min(pois, key=manhattan)` over POI records. -/
def min_poi_by_manhattan (x y : Int) : List POI → Option POI
  | [] => none
  | p :: rest => some (rest.foldl (fun best p2 =>
      if (p2.x - x).natAbs + (p2.y - y).natAbs
          < (best.x - x).natAbs + (best.y - y).natAbs then p2 else best) p)

/-- `FirefighterAgent._rescue_behavior` for the agent at index `i`:
while carrying, walk one step along the path to the Manhattan-nearest
exit and drop on arrival; otherwise walk toward (or pick up) the
Manhattan-nearest active, uncarried POI. -/
def _rescue_behavior (m : Model) (i : Nat) : Model :=
  match m.firefighters[i]? with
  | none => m
  | some ff =>
    match ff.carrying_poi with
    | some _ =>
      match min_by_manhattan ff.x ff.y (get_exits m) with
      | none => m
      | some e =>
        let path := find_path m (ff.x, ff.y) (e.1, e.2)
        if path ≠ [] ∧ path.length > 1 then
          match path[1]? with
          | none => m
          | some np =>
            let r := move_to m i np.1 np.2
            if r.2 then
              match r.1.firefighters[i]? with
              | none => r.1
              | some ff2 =>
                if is_exit r.1 ff2.x ff2.y then (drop_poi_at_exit r.1 i).1
                else r.1
            else r.1
        else m
    | none =>
      match min_poi_by_manhattan ff.x ff.y
        (m.pois.filter (fun p => !p.is_rescued && p.carried_by == none)) with
      | none => m
      | some np =>
        if ff.x = np.x ∧ ff.y = np.y then (pickup_poi m i).1
        else
          let path := find_path m (ff.x, ff.y) (np.x, np.y)
          if path ≠ [] ∧ path.length > 1 then
            match path[1]? with
            | none => m
            | some c => (move_to m i c.1 c.2).1
          else m

/-- `FirefighterAgent._firefighting_behavior` for the agent at index
`i`: target the fire cells, or the smoke cells when no fire burns;
extinguish in place or walk one step toward the Manhattan-nearest
target. -/
def _firefighting_behavior (m : Model) (i : Nat) : Model :=
  match m.firefighters[i]? with
  | none => m
  | some ff =>
    let target_cells :=
      if (get_cells_with_fire m).isEmpty then get_cells_with_smoke m
      else get_cells_with_fire m
    match min_by_manhattan ff.x ff.y target_cells with
    | none => m
    | some c =>
      if ff.x = c.1 ∧ ff.y = c.2 then (extinguish_fire m i).1
      else
        let path := find_path m (ff.x, ff.y) (c.1, c.2)
        if path ≠ [] ∧ path.length > 1 then
          match path[1]? with
          | none => m
          | some np => (move_to m i np.1 np.2).1
        else m

/-- The AP reset `self.action_points = self.max_action_points` that
opens `FirefighterAgent.step`. -/
def reset_ap (m : Model) (i : Nat) : Model :=
  match m.firefighters[i]? with
  | none => m
  | some ff =>
    let ff2 : Firefighter := { ff with action_points := ff.max_action_points }
    { m with firefighters := m.firefighters.set i ff2 }

/-- Storing the freshly computed role on the acting agent. -/
def set_role (m : Model) (i : Nat) (r : Role) : Model :=
  match m.firefighters[i]? with
  | none => m
  | some ff =>
    let ff2 : Firefighter := { ff with role := r }
    { m with firefighters := m.firefighters.set i ff2 }

/-- `FirefighterAgent.step`: reset AP, recompute the role on the current
model state, then act by role. -/
def agent_step (m : Model) (i : Nat) : Model :=
  let m1 := reset_ap m i
  let m2 := set_role m1 i (assign_role_value m1 i)
  match m2.firefighters[i]? with
  | none => m2
  | some ff =>
    if ff.role = Role.rescuer then _rescue_behavior m2 i
    else _firefighting_behavior m2 i

/-- `self.schedule.step()` with the random activation order made an
explicit input: agents act sequentially in that order. -/
def schedule_step (m : Model) (order : List Nat) : Model :=
  order.foldl agent_step m

/-- `FlashPointModel.step`: agent actions, then fire spread, then the
explosion pass (data collection has no model effect). -/
def model_step (m : Model) (order : List Nat) (rsm : Int → Int → ℚ)
    (rsp : Int → Int → Int → Int → ℚ) (rex : Int → Int → ℚ) : Model :=
  check_explosions (spread_fire (schedule_step m order) rsm rsp) rex

theorem move_to_frame (m : Model) (i : Nat) (nx ny : Int) {j : Nat}
    (hj : i ≠ j) :
    (move_to m i nx ny).1.firefighters[j]? = m.firefighters[j]? := by
  cases hff : m.firefighters[i]? with
  | none => simp only [move_to, hff]
  | some ff =>
    simp only [move_to, hff]
    split
    · rfl
    · split
      · rfl
      · exact List.getElem?_set_ne hj

theorem extinguish_frame (m : Model) (i : Nat) {j : Nat} (hj : i ≠ j) :
    (extinguish_fire m i).1.firefighters[j]? = m.firefighters[j]? := by
  cases hff : m.firefighters[i]? with
  | none => simp only [extinguish_fire, hff]
  | some ff =>
    simp only [extinguish_fire, hff]
    split
    · rfl
    · split
      · exact List.getElem?_set_ne hj
      · exact List.getElem?_set_ne hj
      · rfl

theorem pickup_frame (m : Model) (i : Nat) {j : Nat} (hj : i ≠ j) :
    (pickup_poi m i).1.firefighters[j]? = m.firefighters[j]? := by
  cases hff : m.firefighters[i]? with
  | none => simp only [pickup_poi, hff]
  | some ff =>
    simp only [pickup_poi, hff]
    split
    · rfl
    · split
      · rfl
      · split
        · rfl
        · split
          · exact List.getElem?_set_ne hj
          · exact List.getElem?_set_ne hj

theorem drop_frame (m : Model) (i : Nat) {j : Nat} (hj : i ≠ j) :
    (drop_poi_at_exit m i).1.firefighters[j]? = m.firefighters[j]? := by
  cases hff : m.firefighters[i]? with
  | none => simp only [drop_poi_at_exit, hff]
  | some ff =>
    simp only [drop_poi_at_exit, hff]
    split
    · rfl
    · split
      · exact List.getElem?_set_ne hj
      · rfl

theorem reset_ap_frame (m : Model) (i : Nat) {j : Nat} (hj : i ≠ j) :
    (reset_ap m i).firefighters[j]? = m.firefighters[j]? := by
  cases hff : m.firefighters[i]? with
  | none => simp only [reset_ap, hff]
  | some ff =>
    simp only [reset_ap, hff]
    exact List.getElem?_set_ne hj

theorem set_role_frame (m : Model) (i : Nat) (r : Role) {j : Nat}
    (hj : i ≠ j) :
    (set_role m i r).firefighters[j]? = m.firefighters[j]? := by
  cases hff : m.firefighters[i]? with
  | none => simp only [set_role, hff]
  | some ff =>
    simp only [set_role, hff]
    exact List.getElem?_set_ne hj

theorem move_to_role (m : Model) (i : Nat) (nx ny : Int) :
    (move_to m i nx ny).1.firefighters[i]?.map Firefighter.role
      = m.firefighters[i]?.map Firefighter.role := by
  cases hff : m.firefighters[i]? with
  | none => simp only [move_to, hff]
  | some ff =>
    have hi : i < m.firefighters.length := by
      obtain ⟨hlt, -⟩ := List.getElem?_eq_some_iff.mp hff
      exact hlt
    simp only [move_to, hff]
    split
    · simp [hff]
    · split
      · simp [hff]
      · rw [List.getElem?_set_self hi]
        rfl

theorem extinguish_role (m : Model) (i : Nat) :
    (extinguish_fire m i).1.firefighters[i]?.map Firefighter.role
      = m.firefighters[i]?.map Firefighter.role := by
  cases hff : m.firefighters[i]? with
  | none => simp only [extinguish_fire, hff]
  | some ff =>
    have hi : i < m.firefighters.length := by
      obtain ⟨hlt, -⟩ := List.getElem?_eq_some_iff.mp hff
      exact hlt
    simp only [extinguish_fire, hff]
    split
    · simp [hff]
    · split
      · rw [List.getElem?_set_self hi]
        rfl
      · rw [List.getElem?_set_self hi]
        rfl
      · simp [hff]

theorem pickup_role (m : Model) (i : Nat) :
    (pickup_poi m i).1.firefighters[i]?.map Firefighter.role
      = m.firefighters[i]?.map Firefighter.role := by
  cases hff : m.firefighters[i]? with
  | none => simp only [pickup_poi, hff]
  | some ff =>
    have hi : i < m.firefighters.length := by
      obtain ⟨hlt, -⟩ := List.getElem?_eq_some_iff.mp hff
      exact hlt
    simp only [pickup_poi, hff]
    split
    · simp [hff]
    · split
      · simp [hff]
      · split
        · simp [hff]
        · split
          · rw [List.getElem?_set_self hi]
            rfl
          · rw [List.getElem?_set_self hi]
            rfl

theorem drop_role (m : Model) (i : Nat) :
    (drop_poi_at_exit m i).1.firefighters[i]?.map Firefighter.role
      = m.firefighters[i]?.map Firefighter.role := by
  cases hff : m.firefighters[i]? with
  | none => simp only [drop_poi_at_exit, hff]
  | some ff =>
    have hi : i < m.firefighters.length := by
      obtain ⟨hlt, -⟩ := List.getElem?_eq_some_iff.mp hff
      exact hlt
    simp only [drop_poi_at_exit, hff]
    split
    · simp [hff]
    · split
      · rw [List.getElem?_set_self hi]
        rfl
      · simp [hff]

theorem reset_ap_get (m : Model) (i : Nat) (ff : Firefighter)
    (hff : m.firefighters[i]? = some ff) :
    (reset_ap m i).firefighters[i]?
      = some { ff with action_points := ff.max_action_points } := by
  have hi : i < m.firefighters.length := by
    obtain ⟨hlt, -⟩ := List.getElem?_eq_some_iff.mp hff
    exact hlt
  simp only [reset_ap, hff]
  exact List.getElem?_set_self hi

theorem set_role_get (m : Model) (i : Nat) (r : Role) (ff : Firefighter)
    (hff : m.firefighters[i]? = some ff) :
    (set_role m i r).firefighters[i]? = some { ff with role := r } := by
  have hi : i < m.firefighters.length := by
    obtain ⟨hlt, -⟩ := List.getElem?_eq_some_iff.mp hff
    exact hlt
  simp only [set_role, hff]
  exact List.getElem?_set_self hi

set_option maxHeartbeats 1000000 in
theorem rescue_behavior_frame (m : Model) (i : Nat) {j : Nat}
    (hj : i ≠ j) :
    (_rescue_behavior m i).firefighters[j]? = m.firefighters[j]? := by
  unfold _rescue_behavior
  repeat'
    first
    | split
    | (dsimp only; split)
  all_goals
    first
    | exact move_to_frame m i _ _ hj
    | exact pickup_frame m i hj
    | rw [drop_frame _ i hj, move_to_frame m i _ _ hj]
    | rfl

set_option maxHeartbeats 1000000 in
theorem firefighting_behavior_frame (m : Model) (i : Nat) {j : Nat}
    (hj : i ≠ j) :
    (_firefighting_behavior m i).firefighters[j]? = m.firefighters[j]? := by
  unfold _firefighting_behavior
  repeat'
    first
    | split
    | (dsimp only; split)
  all_goals
    first
    | exact move_to_frame m i _ _ hj
    | exact extinguish_frame m i hj
    | rfl

set_option maxHeartbeats 1000000 in
theorem rescue_behavior_role (m : Model) (i : Nat) :
    (_rescue_behavior m i).firefighters[i]?.map Firefighter.role
      = m.firefighters[i]?.map Firefighter.role := by
  unfold _rescue_behavior
  repeat'
    first
    | split
    | (dsimp only; split)
  all_goals
    first
    | exact move_to_role m i _ _
    | exact pickup_role m i
    | rw [drop_role _ i, move_to_role m i _ _]
    | rfl

set_option maxHeartbeats 1000000 in
theorem firefighting_behavior_role (m : Model) (i : Nat) :
    (_firefighting_behavior m i).firefighters[i]?.map Firefighter.role
      = m.firefighters[i]?.map Firefighter.role := by
  unfold _firefighting_behavior
  repeat'
    first
    | split
    | (dsimp only; split)
  all_goals
    first
    | exact move_to_role m i _ _
    | exact extinguish_role m i
    | rfl

theorem agent_step_frame (m : Model) (k : Nat) {j : Nat} (hk : k ≠ j) :
    (agent_step m k).firefighters[j]? = m.firefighters[j]? := by
  simp only [agent_step]
  split
  · rw [set_role_frame _ _ _ hk, reset_ap_frame _ _ hk]
  · split
    · rw [rescue_behavior_frame _ _ hk, set_role_frame _ _ _ hk,
        reset_ap_frame _ _ hk]
    · rw [firefighting_behavior_frame _ _ hk, set_role_frame _ _ _ hk,
        reset_ap_frame _ _ hk]

theorem agent_step_role (m : Model) (i : Nat) (ff : Firefighter)
    (hff : m.firefighters[i]? = some ff) :
    (agent_step m i).firefighters[i]?.map Firefighter.role
      = some (assign_role_value (reset_ap m i) i) := by
  have hr1 := reset_ap_get m i ff hff
  have hr2 := set_role_get (reset_ap m i) i
    (assign_role_value (reset_ap m i) i) _ hr1
  simp only [agent_step]
  rw [hr2]
  dsimp only
  split
  · rw [rescue_behavior_role, hr2]
    rfl
  · rw [firefighting_behavior_role, hr2]
    rfl

/-- C5 (amended): roles are recomputed sequentially, one agent at a
time, against the model state current at that agent's activation — not
simultaneously for the whole team.  The acting agent's stored role right
after its activation is exactly the ranking value on the state it saw
(later activations can see different positions and POIs, so after a full
step the counts need not be 3 rescuers and 2 firefighters — see the
counterexample); another agent's activation leaves the record untouched;
and an agent activating with every POI rescued ends as a firefighter. -/
theorem role_assignment_sequential (m : Model) (i j : Nat)
    (ff : Firefighter) (hff : m.firefighters[i]? = some ff)
    (hij : j ≠ i) :
    ((agent_step m i).firefighters[i]?.map Firefighter.role
      = some (assign_role_value (reset_ap m i) i)) ∧
    ((agent_step m j).firefighters[i]? = m.firefighters[i]?) ∧
    ((∀ p ∈ m.pois, p.is_rescued = true) →
      (agent_step m i).firefighters[i]?.map Firefighter.role
        = some Role.fire_fighter) := by
  refine ⟨agent_step_role m i ff hff, agent_step_frame m j hij, ?_⟩
  intro hall
  rw [agent_step_role m i ff hff, Option.some_inj]
  refine assign_role_value_no_active _ i ?_
  have hp : (reset_ap m i).pois = m.pois := by
    unfold reset_ap
    split
    · rfl
    · rfl
  rw [hp, List.filter_eq_nil_iff]
  intro p hp2
  simp [hall p hp2]

/-- The C5 counterexample: an 11-cell corridor with an exit at `(0, 0)`.
POI 0 (not rescued) is carried by firefighter 0, standing next to the
exit; POI 1 waits uncarried at the far end; firefighters 1..4 stand at
x = 8, 7, 6, 5. -/
def pC5a : POI :=
  { poi_id := 0, x := 3, y := 0, is_false_alarm := false
    is_revealed := true, is_rescued := false, carried_by := some 0 }

def pC5b : POI :=
  { poi_id := 1, x := 10, y := 0, is_false_alarm := false
    is_revealed := true, is_rescued := false, carried_by := none }

def mC5 : Model :=
  { width := 11, height := 1, wall_health := 2, rescued_pois := 0
    explosion_count := 0
    fire_grid := fun _ _ => .clear
    cell_types := fun x y => if x = 0 ∧ y = 0 then .exit else .normal
    walls := fun _ => none
    pois := [pC5a, pC5b]
    firefighters := [{ Firefighter.new 0 1 0 with carrying_poi := some 0 },
      Firefighter.new 1 8 0, Firefighter.new 2 7 0, Firefighter.new 3 6 0,
      Firefighter.new 4 5 0] }

set_option maxRecDepth 100000 in
/-- Counterexample to C5 as stated: on `mC5`, a 5-firefighter model, one
full step under the activation order `[0, 1, 2, 3, 4]` ends with an
active POI remaining but FOUR rescuers and ONE firefighter — firefighter
0 rescues its POI during the step, and every later agent is ranked
against the already-changed state. -/
theorem roles_not_three_two :
    mC5.firefighters.length = 5 ∧
    ((model_step mC5 [0, 1, 2, 3, 4] (fun _ _ => 1) (fun _ _ _ _ => 1)
        (fun _ _ => 1)).pois.filter (fun p => !p.is_rescued)).isEmpty
      = false ∧
    ((model_step mC5 [0, 1, 2, 3, 4] (fun _ _ => 1) (fun _ _ _ _ => 1)
        (fun _ _ => 1)).firefighters.filter
      (fun ff => decide (ff.role = Role.rescuer))).length = 4 ∧
    ((model_step mC5 [0, 1, 2, 3, 4] (fun _ _ => 1) (fun _ _ _ _ => 1)
        (fun _ _ => 1)).firefighters.filter
      (fun ff => decide (ff.role = Role.fire_fighter))).length = 1 :=
  ⟨rfl, by decide, by decide, by decide⟩

/-- Witness for C5 at firefighter 0 (acting) and 1 (frame) of `mC5`. -/
theorem role_assignment_sequential_witness :
    mC5.firefighters[0]? = some
      { Firefighter.new 0 1 0 with carrying_poi := some 0 } ∧
    ((agent_step mC5 0).firefighters[0]?.map Firefighter.role
      = some (assign_role_value (reset_ap mC5 0) 0)) ∧
    ((agent_step mC5 1).firefighters[0]? = mC5.firefighters[0]?) :=
  ⟨rfl,
   (role_assignment_sequential mC5 0 1 _ rfl (by decide)).1,
   (role_assignment_sequential mC5 0 1 _ rfl (by decide)).2.1⟩

end FlashPoint
